import Mathlib

/-!
# Othello engine: position, hashing, transposition table, evaluator, search

A shallow embedding of `board.hpp`, `zobrist.hpp`, `transPositionTable.hpp`,
`evaluation.hpp`, `search.hpp` and `move_to_notation` of `main.cpp`.

`uint64_t` values are natural numbers below `2 ^ 64`; a left shift is reduced
modulo `2 ^ 64`, every other operation used by the code stays in range.
`while` loops are recursive functions on a step budget. The budget is shown to be
large enough for the loop to leave by its own condition: for the direction walks
on every mask in `scan_total`, for the hash loops on every 64-bit set in
`hash_loop_eq`, for the mobility loop on every 64-bit set in `mobility_loop_eq`.
An `int` is an integer; the evaluator stays far inside the 32-bit range
(`evaluate_bound`), and the two narrowing conversions of the table are explicit.
The wall clock is a function from the number of the reading to the elapsed
milliseconds.
-/

namespace Othello

/-! ## Definitions: `board.hpp` -/

/-- The struct `Board`: two 64-bit occupancy sets, cell `row * 8 + col`. -/
structure Board where
  black : Nat
  white : Nat
deriving DecidableEq, Repr

/-- The constructor `Board::Board()`: the standard opening position. -/
def Board.init : Board :=
  let black := 0
  let white := 0
  let black := black ||| (1 <<< (4 * 8 + 3))
  let black := black ||| (1 <<< (3 * 8 + 4))
  let white := white ||| (1 <<< (3 * 8 + 3))
  let white := white ||| (1 <<< (4 * 8 + 4))
  { black := black, white := white }

/-- The operator `~` on a `uint64_t`. -/
def not64 (x : Nat) : Nat := 0xFFFFFFFFFFFFFFFF ^^^ x

/-- The function `Board::shift`: one edge-masked step of a mask in direction `dir`. -/
def shift (mask : Nat) (dir : Nat) : Nat :=
  match dir with
  | 0 => (mask >>> 8) &&& 0x00FFFFFFFFFFFFFF
  | 1 => ((mask <<< 8) % 2 ^ 64) &&& 0xFFFFFFFFFFFFFF00
  | 2 => ((mask &&& 0x7F7F7F7F7F7F7F7F) <<< 1) % 2 ^ 64
  | 3 => (mask &&& 0xFEFEFEFEFEFEFEFE) >>> 1
  | 4 => (mask &&& 0xFEFEFEFEFEFEFEFE) >>> 9
  | 5 => (mask &&& 0x7F7F7F7F7F7F7F7F) >>> 7
  | 6 => ((mask &&& 0xFEFEFEFEFEFEFEFE) <<< 7) % 2 ^ 64
  | 7 => ((mask &&& 0x7F7F7F7F7F7F7F7F) <<< 9) % 2 ^ 64
  | _ => 0

/-- The inner loop shared by `is_valid_move` and `make_move`:
`while (mask && (mask & opponent)) { flipped |= mask; mask = shift(mask, dir); }`.
Returns the final `(mask, flipped)`. The first argument is the step budget. -/
def scan (opponent dir : Nat) : Nat → Nat → Nat → Nat × Nat
  | 0, mask, flipped => (mask, flipped)
  | fuel + 1, mask, flipped =>
    if mask ≠ 0 ∧ (mask &&& opponent) ≠ 0 then
      scan opponent dir fuel (shift mask dir) (flipped ||| mask)
    else (mask, flipped)

/-- Step budget of the direction loops: a walk leaves the grid within 8 steps
(`scan_total`). -/
def SCAN_FUEL : Nat := 64

/-- The method `Board::is_valid_move`. -/
def is_valid_move (b : Board) (move : Nat) (is_black : Bool) : Bool :=
  let player := if is_black then b.black else b.white
  let opponent := if is_black then b.white else b.black
  (List.range 8).any fun dir =>
    let r := scan opponent dir SCAN_FUEL (shift move dir) 0
    decide ((r.1 &&& player) ≠ 0 ∧ r.2 ≠ 0)

/-- The method `Board::get_moves`: the masks `1 << i`, in increasing `i`, that are
empty and valid. -/
def get_moves (b : Board) (is_black : Bool) : List Nat :=
  let player := if is_black then b.black else b.white
  let opponent := if is_black then b.white else b.black
  let empty := not64 (player ||| opponent)
  ((List.range (8 * 8)).map fun i => 1 <<< i).filter fun mask =>
    decide ((empty &&& mask) ≠ 0) && is_valid_move b mask is_black

/-- The value of `to_flip` after the direction loop of `make_move`. -/
def to_flip (player opponent move : Nat) : Nat :=
  (List.range 8).foldl (fun acc dir =>
    let r := scan opponent dir SCAN_FUEL (shift move dir) 0
    if (r.1 &&& player) ≠ 0 then acc ||| r.2 else acc) 0

/-- The method `Board::make_move`. -/
def make_move (b : Board) (move : Nat) (is_black : Bool) : Board :=
  let player := if is_black then b.black else b.white
  let opponent := if is_black then b.white else b.black
  let flips := to_flip player opponent move
  let player := player ^^^ (move ||| flips)
  let opponent := opponent ^^^ flips
  if is_black then { black := player, white := opponent }
  else { black := opponent, white := player }

/-- The method `Board::is_game_over`. -/
def is_game_over (b : Board) : Bool :=
  (get_moves b true).isEmpty && (get_moves b false).isEmpty

/-- The set of one colour: `is_black ? black : white`. -/
def Board.side (b : Board) (is_black : Bool) : Nat :=
  if is_black then b.black else b.white

/-- The builtin `__builtin_popcountll`: number of set bits among the low 64. -/
def popcountll (x : Nat) : Nat := (List.range 64).countP fun i => x.testBit i

/-- The builtin `__builtin_ctzll`: index of the lowest set bit (64 when there is none,
where the builtin is undefined). -/
def ctzll (x : Nat) : Nat := ((List.range 64).find? fun i => x.testBit i).getD 64

/-! ## Definitions: `zobrist.hpp`, `search.hpp`, `main.cpp` -/

/-- The value `zobrist_data`: the key table. Its entries come from the standard
library generator `std::mt19937_64`, so the table is a parameter here. -/
structure ZobristData where
  squares : Nat → Nat → Nat
  black_to_move : Nat

/-- The loops of `compute_hash`:
`while (bits) { idx = ctz(bits); hash ^= table[idx][colour]; bits ^= 1 << idx; }`. -/
def hash_loop (Z : ZobristData) (colour : Nat) : Nat → Nat → Nat → Nat
  | 0, _, hash => hash
  | fuel + 1, bits, hash =>
    if bits ≠ 0 then
      let idx := ctzll bits
      hash_loop Z colour fuel (bits ^^^ (1 <<< idx)) (hash ^^^ Z.squares idx colour)
    else hash

/-- The function `Zobrist::compute_hash`. -/
def compute_hash (Z : ZobristData) (b : Board) (is_black_turn : Bool) : Nat :=
  let hash := 0
  let hash := hash_loop Z 0 64 b.black hash
  let hash := hash_loop Z 1 64 b.white hash
  if is_black_turn then hash ^^^ Z.black_to_move else hash

/-- The value `new_hash` that `Search::alpha_beta` computes for the child reached by
`move` (search.hpp lines 109 to 111). -/
def new_hash (Z : ZobristData) (hash move : Nat) (is_black_turn : Bool) : Nat :=
  let square := ctzll move
  let h := hash ^^^ Z.squares square (if is_black_turn then 0 else 1)
  h ^^^ Z.black_to_move

/-- The function `move_to_notation` of `main.cpp`. -/
def move_to_notation (move : Nat) : String :=
  if move = 0 then "pass"
  else
    let pos := ctzll move
    let row := pos / 8 + 1
    let col := Char.ofNat ('a'.toNat + pos % 8)
    String.mk [col] ++ toString row

/-! ## Definitions: the grid in rows and columns, as the specification words it -/

/-- The cell reached from cell `i` after `k` steps of `(dr, dc)` in rows and columns,
when it lies inside the 8x8 grid. -/
def cellAt (i : Nat) (dr dc : Int) (k : Nat) : Option Nat :=
  let r : Int := ((i / 8 : Nat) : Int) + (k : Int) * dr
  let c : Int := ((i % 8 : Nat) : Int) + (k : Int) * dc
  if 0 ≤ r ∧ r < 8 ∧ 0 ≤ c ∧ c < 8 then some (r * 8 + c).toNat else none

/-- One of the 8 grid directions: both steps in `{-1, 0, 1}`, not both `0`. -/
def IsDir (dr dc : Int) : Prop :=
  (dr = -1 ∨ dr = 0 ∨ dr = 1) ∧ (dc = -1 ∨ dc = 0 ∨ dc = 1) ∧ ¬(dr = 0 ∧ dc = 0)

/-- From cell `i` in direction `(dr, dc)`: `n ≥ 1` consecutive opponent discs, then a disc
of the player, all inside the grid. -/
def Bracket (player opponent i : Nat) (dr dc : Int) (n : Nat) : Prop :=
  1 ≤ n ∧
  (∀ k, 1 ≤ k → k ≤ n → ∃ j, cellAt i dr dc k = some j ∧ opponent.testBit j = true) ∧
  ∃ j, cellAt i dr dc (n + 1) = some j ∧ player.testBit j = true

/-- Cell `i` brackets opponent discs in at least one of the 8 directions. -/
def LegalCell (player opponent i : Nat) : Prop :=
  ∃ dr dc, IsDir dr dc ∧ ∃ n, Bracket player opponent i dr dc n

/-- Cell `j` is an opponent disc on a bracketed run starting next to cell `i`. -/
def Flipped (player opponent i j : Nat) : Prop :=
  ∃ dr dc, IsDir dr dc ∧ ∃ n, Bracket player opponent i dr dc n ∧
    ∃ k, 1 ≤ k ∧ k ≤ n ∧ cellAt i dr dc k = some j

/-- The positions, with the side to move, that the game loop of `main.cpp` can reach
from the opening: black starts, a move of `get_moves` is applied and the turn changes, and
a side without a move passes. -/
inductive Reachable : Board → Bool → Prop
  | init : Reachable Board.init true
  | move (b : Board) (is_black : Bool) (m : Nat) :
      Reachable b is_black → m ∈ get_moves b is_black →
        Reachable (make_move b m is_black) (!is_black)
  | pass (b : Board) (is_black : Bool) :
      Reachable b is_black → get_moves b is_black = [] → Reachable b (!is_black)

/-- The XOR, over the cells `0..63` of a set, of the keys of one colour. -/
def xor_keys (Z : ZobristData) (colour : Nat) (bits : Nat) : Nat :=
  (List.range 64).foldl (fun h i => if bits.testBit i then h ^^^ Z.squares i colour else h) 0

/-- A sample key table, to state instances: cell `i` of colour `c` has key `2 * i + c + 1`
and the side-to-move key is `129`. -/
def sampleKeys : ZobristData :=
  { squares := fun cell colour => 2 * cell + colour + 1, black_to_move := 129 }

/-! ## Definitions: auxiliary cell-level view of the direction walk -/

/-- The neighbour of cell `i` in direction `d` (numbered as in `shift`), if any. -/
def nbr (d i : Nat) : Option Nat :=
  let r := i / 8
  let c := i % 8
  match d with
  | 0 => if 1 ≤ r then some (i - 8) else none
  | 1 => if r < 7 then some (i + 8) else none
  | 2 => if c < 7 then some (i + 1) else none
  | 3 => if 1 ≤ c then some (i - 1) else none
  | 4 => if 1 ≤ r ∧ 1 ≤ c then some (i - 9) else none
  | 5 => if 1 ≤ r ∧ c < 7 then some (i - 7) else none
  | 6 => if r < 7 ∧ 1 ≤ c then some (i + 7) else none
  | 7 => if r < 7 ∧ c < 7 then some (i + 9) else none
  | _ => none

/-- The single-bit mask of an optional cell: `0` when there is none. -/
def bitOf : Option Nat → Nat
  | some j => 1 <<< j
  | none => 0

/-- The cells met walking from `i` (excluded) in direction `d`, at most `fuel` of them. -/
def rayF (d : Nat) : Nat → Nat → List Nat
  | 0, _ => []
  | fuel + 1, i =>
    match nbr d i with
    | none => []
    | some j => j :: rayF d fuel j

/-- The cells from `i` (excluded) to the edge of the grid in direction `d`. -/
def ray (d i : Nat) : List Nat := rayF d 7 i

/-- The direction walk on a list of cells: the final `(mask, flipped)`. -/
def scanL (opponent : Nat) : List Nat → Nat → Nat × Nat
  | [], flipped => (0, flipped)
  | j :: rest, flipped =>
    if opponent.testBit j then scanL opponent rest (flipped ||| (1 <<< j))
    else (1 <<< j, flipped)

/-- Row step of direction `d` of `shift`. -/
def dRow : Nat → Int
  | 0 => -1 | 1 => 1 | 2 => 0 | 3 => 0 | 4 => -1 | 5 => -1 | 6 => 1 | _ => 1

/-- Column step of direction `d` of `shift`. -/
def dCol : Nat → Int
  | 0 => 0 | 1 => 0 | 2 => 1 | 3 => -1 | 4 => -1 | 5 => 1 | 6 => -1 | _ => 1

/-- A run along a list of cells: the first `n` are opponent discs, the next is the player. -/
def BracketL (player opponent : Nat) (L : List Nat) (n : Nat) : Prop :=
  (∀ k, k < n → ∃ j, L[k]? = some j ∧ opponent.testBit j = true) ∧
  ∃ j, L[n]? = some j ∧ player.testBit j = true

/-! ## Definitions: `transPositionTable.hpp` -/

/-- The conversion `static_cast<int16_t>` of an `int`. -/
def toInt16 (x : Int) : Int := (x + 32768) % 65536 - 32768

/-- The conversion `static_cast<int32_t>` of an `int`. -/
def toInt32 (x : Int) : Int := (x + 2147483648) % 4294967296 - 2147483648

/-- The enum `EntryType`. -/
inductive EntryType where
  | EXACT
  | LOWERBOUND
  | UPPERBOUND
deriving DecidableEq, Repr

/-- The struct `TTEntry`. -/
structure TTEntry where
  key : Nat
  value : Int
  depth : Int
  type : EntryType
  best_move : Nat
  generation : Nat
deriving DecidableEq, Repr

/-- The value-initialised entry `TTEntry{}`: every field zero, the type `EXACT`. -/
def TTEntry.zero : TTEntry :=
  { key := 0, value := 0, depth := 0, type := EntryType.EXACT, best_move := 0, generation := 0 }

/-- The constant `TABLE_SIZE`. -/
def TABLE_SIZE : Nat := 1 <<< 20

/-- The constant `KEY_MASK`. -/
def KEY_MASK : Nat := 0xFFFFFFFFFFFF0000

/-- The class `TranspositionTable`: the vector of `TABLE_SIZE` entries, as a function
of the slot index, and the generation counter. -/
structure TranspositionTable where
  table : Nat → TTEntry
  current_generation : Nat

/-- The constructor `TranspositionTable()`: every slot value-initialised, generation 0. -/
def TranspositionTable.init : TranspositionTable :=
  { table := fun _ => TTEntry.zero, current_generation := 0 }

/-- The method `TranspositionTable::clear`. -/
def TranspositionTable.clear (t : TranspositionTable) : TranspositionTable :=
  { t with table := fun _ => TTEntry.zero }

/-- The method `TranspositionTable::store`. -/
def TranspositionTable.store (t : TranspositionTable) (hash : Nat) (depth value : Int)
    (type : EntryType) (best_move : Nat) : TranspositionTable :=
  let idx := hash % TABLE_SIZE
  let entry := t.table idx
  if entry.depth ≤ depth ∨ entry.generation ≠ t.current_generation then
    { t with table := fun i =>
        if i = idx then
          { key := hash &&& KEY_MASK, value := toInt32 value, depth := toInt16 depth,
            type := type, best_move := best_move, generation := t.current_generation }
        else t.table i }
  else t

/-- What `probe` hands back: its return value and the final contents of its four
reference parameters. -/
structure ProbeResult where
  hit : Bool
  alpha : Int
  beta : Int
  value : Int
  best_move : Nat
deriving DecidableEq, Repr

/-- The method `TranspositionTable::probe`. -/
def TranspositionTable.probe (t : TranspositionTable) (hash : Nat) (depth alpha beta value : Int)
    (best_move : Nat) : ProbeResult :=
  let entry := t.table (hash % TABLE_SIZE)
  if ((entry.key ^^^ hash) &&& KEY_MASK) ≠ 0 then
    { hit := false, alpha := alpha, beta := beta, value := value, best_move := best_move }
  else if entry.depth = 0 ∧ entry.type = EntryType.EXACT ∧ entry.value = 0 then
    { hit := false, alpha := alpha, beta := beta, value := value, best_move := best_move }
  else
    let best_move := entry.best_move
    if entry.depth ≥ depth then
      match entry.type with
      | EntryType.EXACT =>
        { hit := true, alpha := alpha, beta := beta, value := entry.value, best_move := best_move }
      | EntryType.LOWERBOUND =>
        let alpha := max alpha entry.value
        if alpha ≥ beta then
          { hit := true, alpha := alpha, beta := beta, value := entry.value,
            best_move := best_move }
        else { hit := false, alpha := alpha, beta := beta, value := value, best_move := best_move }
      | EntryType.UPPERBOUND =>
        let beta := min beta entry.value
        if alpha ≥ beta then
          { hit := true, alpha := alpha, beta := beta, value := entry.value,
            best_move := best_move }
        else { hit := false, alpha := alpha, beta := beta, value := value, best_move := best_move }
    else { hit := false, alpha := alpha, beta := beta, value := value, best_move := best_move }

/-- The method `TranspositionTable::new_search`. -/
def TranspositionTable.new_search (t : TranspositionTable) : TranspositionTable :=
  { t with current_generation := (t.current_generation + 1) % 256 }

/-- One call on a table: a `store` with its arguments, or `new_search`. -/
inductive TTOp where
  | store (hash : Nat) (depth value : Int) (type : EntryType) (best_move : Nat)
  | new_search

/-- The table after one call. -/
def TranspositionTable.apply (t : TranspositionTable) : TTOp → TranspositionTable
  | TTOp.store hash depth value type best_move => t.store hash depth value type best_move
  | TTOp.new_search => t.new_search

/-- The table after a sequence of calls, first call first. -/
def TranspositionTable.run (t : TranspositionTable) (ops : List TTOp) : TranspositionTable :=
  ops.foldl TranspositionTable.apply t

/-- The condition under which `store` writes its slot. -/
@[reducible] def TranspositionTable.writes (t : TranspositionTable) (hash : Nat) (depth : Int) : Prop :=
  (t.table (hash % TABLE_SIZE)).depth ≤ depth ∨
    (t.table (hash % TABLE_SIZE)).generation ≠ t.current_generation

/-- The calls of a sequence never store under the hash `h`, and store 64-bit hashes. -/
def NeverStored (h : Nat) (ops : List TTOp) : Prop :=
  ∀ hash depth value type best_move,
    TTOp.store hash depth value type best_move ∈ ops → hash < 2 ^ 64 ∧ hash ≠ h

/-! ## Definitions: `evaluation.hpp` -/

/-- The constant `CORNERS`. -/
def CORNERS : Nat := 0x8100000000000081

/-- The constant `X_SQUARES`. -/
def X_SQUARES : Nat := 0x4200000000000042

/-- The constant `C_SQUARES`. -/
def C_SQUARES : Nat := 0x2400810000810024

/-- The constant `EDGES`. -/
def EDGES : Nat := 0xFF818181818181FF

/-- The array `STABLE_MASK`. -/
def STABLE_MASK : List Nat :=
  [0xFF000000000000FF, 0xE7000000000000E7, 0xC3000000000000C3, 0x8100000000000081]

/-- The enum `GamePhase`. -/
inductive GamePhase where
  | EARLY_GAME
  | MID_GAME
  | LATE_GAME
deriving DecidableEq, Repr

/-- The members of a specialisation `Weights<P>`. -/
structure Weights where
  corner : Int
  position : Int
  edge : Int
  mobility : Int
  disc : Int
deriving DecidableEq, Repr

/-- The three specialisations of the template `Weights`. -/
def Weights.of : GamePhase → Weights
  | GamePhase.EARLY_GAME => { corner := 15, position := 3, edge := 2, mobility := 1, disc := 0 }
  | GamePhase.MID_GAME => { corner := 8, position := 2, edge := 2, mobility := 2, disc := 1 }
  | GamePhase.LATE_GAME => { corner := 3, position := 1, edge := 1, mobility := 0, disc := 3 }

/-- The array `POSITIONAL_TABLE` of `get_positional_score`. -/
def POSITIONAL_TABLE : List Int :=
  [ 1000, -300,  100,   80,   80,  100, -300, 1000,
    -300, -500,  -50,  -50,  -50,  -50, -500, -300,
     100,  -50,   30,   20,   20,   30,  -50,  100,
      80,  -50,   20,    5,    5,   20,  -50,   80,
      80,  -50,   20,    5,    5,   20,  -50,   80,
     100,  -50,   30,   20,   20,   30,  -50,  100,
    -300, -500,  -50,  -50,  -50,  -50, -500, -300,
    1000, -300,  100,   80,   80,  100, -300, 1000 ]

/-- The function `get_positional_score`; the mask of round `i` is `1 << i`. -/
def get_positional_score (pieces : Nat) : Int :=
  (List.range 64).foldl (fun score i =>
    if (pieces &&& (1 <<< i)) ≠ 0 then score + POSITIONAL_TABLE.getD i 0 else score) 0

/-- The function `edge_stability`. -/
def edge_stability (player : Nat) : Int :=
  STABLE_MASK.foldl (fun stable pattern => stable + (popcountll (player &&& pattern) : Int)) 0

/-- The negation `-x` of a `uint64_t`. -/
def neg64 (x : Nat) : Nat := (2 ^ 64 - x) % 2 ^ 64

/-- The inner loop of `calculate_mobility`:
`while (candidates) { sq = candidates & -candidates; mobility |= sq; candidates ^= sq; }`.
Returns the final `mobility`. The first argument is the step budget. -/
def mobility_loop : Nat → Nat → Nat → Nat
  | 0, _, mobility => mobility
  | fuel + 1, candidates, mobility =>
    if candidates ≠ 0 then
      let sq := candidates &&& neg64 candidates
      mobility_loop fuel (candidates ^^^ sq) (mobility ||| sq)
    else mobility

/-- The function template `calculate_mobility<IsBlack>`. -/
def calculate_mobility (IsBlack : Bool) (board : Board) : Int :=
  let player := if IsBlack then board.black else board.white
  let opponent := if IsBlack then board.white else board.black
  let empty := not64 (player ||| opponent)
  let mobility := (List.range 8).foldl (fun mobility dir =>
    let candidates := shift opponent dir &&& empty
    mobility_loop 64 candidates mobility) 0
  (popcountll mobility : Int)

/-- The function template `phase_evaluation<P>`. -/
def phase_evaluation (P : GamePhase) (board : Board) : Int :=
  let positional := get_positional_score board.black - get_positional_score board.white
  let corners := ((popcountll (board.black &&& CORNERS) : Int) -
    (popcountll (board.white &&& CORNERS) : Int)) * (Weights.of P).corner
  let edges := (edge_stability board.black - edge_stability board.white) * (Weights.of P).edge
  let mobility := (calculate_mobility true board - calculate_mobility false board) *
    (Weights.of P).mobility
  let disc_diff := ((popcountll board.black : Int) - (popcountll board.white : Int)) *
    (Weights.of P).disc
  corners + positional + edges + mobility + disc_diff

/-- The function `evaluate`. -/
def evaluate (board : Board) : Int :=
  let total_discs : Int := (popcountll (board.black ||| board.white) : Int)
  if total_discs ≥ 56 then
    let disc_diff : Int := (popcountll board.black : Int) - (popcountll board.white : Int)
    let empties : Int := 64 - total_discs
    let parity : Int := (empties % 2) * (if disc_diff > 0 then 50 else -50)
    disc_diff * 100 + parity + phase_evaluation GamePhase.LATE_GAME board
  else if total_discs ≥ 40 then phase_evaluation GamePhase.MID_GAME board
  else phase_evaluation GamePhase.EARLY_GAME board

/-! ## Definitions: the evaluator as the specification words it -/

/-- Corner occupancy, black minus white. -/
def corner_diff (b : Board) : Int :=
  (popcountll (b.black &&& CORNERS) : Int) - (popcountll (b.white &&& CORNERS) : Int)

/-- Positional table sum, black minus white. -/
def positional_diff (b : Board) : Int :=
  get_positional_score b.black - get_positional_score b.white

/-- Edge-stability proxy, black minus white. -/
def edge_diff (b : Board) : Int := edge_stability b.black - edge_stability b.white

/-- Mobility as the code computes it, black minus white. -/
def mobility_diff (b : Board) : Int := calculate_mobility true b - calculate_mobility false b

/-- Disc count, black minus white. -/
def disc_diff (b : Board) : Int := (popcountll b.black : Int) - (popcountll b.white : Int)

/-- The weighted sum of the five components under a set of weights. -/
def weighted_sum (w : Weights) (b : Board) : Int :=
  w.corner * corner_diff b + w.position * positional_diff b + w.edge * edge_diff b +
    w.mobility * mobility_diff b + w.disc * disc_diff b

/-- The phase that `evaluate` selects from the number of discs on the board. -/
def phase_of (b : Board) : GamePhase :=
  if popcountll (b.black ||| b.white) ≥ 56 then GamePhase.LATE_GAME
  else if popcountll (b.black ||| b.white) ≥ 40 then GamePhase.MID_GAME
  else GamePhase.EARLY_GAME

/-- The set of empty cells next to an opponent disc: what `calculate_mobility` counts. -/
def frontier (player opponent : Nat) : Nat :=
  (List.range 8).foldl (fun acc dir => acc ||| (shift opponent dir &&& not64 (player ||| opponent))) 0

/-! ## Definitions: `search.hpp` -/

/-- The constant `INF`. -/
def INF : Int := 100000000

/-- The struct `SearchResult`, with its default member values. -/
structure SearchResult where
  move : Nat := 0
  value : Int := 0
  depth : Int := 0
deriving DecidableEq, Repr

/-- The state of a `Search` object: the table, the time limit and the timeout flag.
`start_time` is kept as the number of clock readings taken since it was set: the clock is
a function that gives, for the `k`-th reading after `start_time`, the elapsed time in
milliseconds. -/
structure Search where
  tt : TranspositionTable
  time_limit : Int
  timeout : Bool
  polls : Nat

/-- The constructor `Search()`. -/
def Search.init : Search :=
  { tt := TranspositionTable.init, time_limit := 0, timeout := false, polls := 0 }

/-- The method `Search::check_timeout`: the clock is read only while `timeout` is false. -/
def check_timeout (clock : Nat → Int) (s : Search) : Bool × Search :=
  if s.timeout = false then
    if clock s.polls > s.time_limit then (true, { s with timeout := true, polls := s.polls + 1 })
    else (false, { s with polls := s.polls + 1 })
  else (true, s)

/-- The move ordering of `alpha_beta`: when `tt_move` is non-zero and in the list, swap the
first element with the first occurrence of `tt_move`. -/
def order_moves (moves : List Nat) (tt_move : Nat) : List Nat :=
  if tt_move ≠ 0 ∧ tt_move ∈ moves then
    (moves.set (moves.indexOf tt_move) (moves.headD 0)).set 0 tt_move
  else moves

/-- The comparison of one child value with the running best in the move loop: the new
`best_result`, `alpha` and `beta`. -/
def update_best (is_black_turn : Bool) (best : SearchResult) (alpha beta : Int) (move : Nat)
    (value : Int) : SearchResult × Int × Int :=
  if is_black_turn then
    if value > best.value then
      ({ best with value := value, move := move }, max alpha value, beta)
    else (best, alpha, beta)
  else
    if value < best.value then
      ({ best with value := value, move := move }, alpha, min beta value)
    else (best, alpha, beta)

/-- The move loop of `alpha_beta`, `for (auto move : moves) { .. }`, with `child` the
computation of `current` for a child position. The first component of the result is true
when the loop left through `return best_result` on a timeout, false when it ran to its end
or left through `break`. -/
def move_loop (Z : ZobristData) (clock : Nat → Int)
    (child : Search → Board → Nat → Int → Int → SearchResult × Search)
    (board : Board) (hash : Nat) (is_black_turn : Bool) :
    List Nat → Search → SearchResult → Int → Int → Bool × SearchResult × Search
  | [], s, best, _, _ => (false, best, s)
  | move :: rest, s, best, alpha, beta =>
    match check_timeout clock s with
    | (true, s) => (true, best, s)
    | (false, s) =>
      let new_board := make_move board move is_black_turn
      let nh := new_hash Z hash move is_black_turn
      match child s new_board nh alpha beta with
      | (current, s) =>
        match update_best is_black_turn best alpha beta move current.value with
        | (best, alpha, beta) =>
          if alpha ≥ beta then (false, best, s)
          else move_loop Z clock child board hash is_black_turn rest s best alpha beta

/-- The part of `alpha_beta` after the timeout poll at entry, with `child` the computation
of `current` for a child position. -/
def alpha_beta_node (Z : ZobristData) (clock : Nat → Int)
    (child : Search → Board → Nat → Int → Int → SearchResult × Search)
    (s : Search) (board : Board) (hash : Nat) (depth alpha beta : Int) (is_black_turn : Bool) :
    SearchResult × Search :=
  let pr := s.tt.probe hash depth alpha beta 0 0
  if pr.hit then ({ move := pr.best_move, value := pr.value, depth := depth }, s)
  else
    let tt_alpha := pr.alpha
    let tt_beta := pr.beta
    let tt_move := pr.best_move
    let moves := get_moves board is_black_turn
    if moves.isEmpty then ({ move := 0, value := evaluate board, depth := depth }, s)
    else
      let moves := order_moves moves tt_move
      let best_result : SearchResult :=
        { move := 0, value := if is_black_turn then -INF else INF, depth := 0 }
      match move_loop Z clock child board hash is_black_turn moves s best_result alpha beta with
      | (true, best_result, s) => (best_result, s)
      | (false, best_result, s) =>
        let tt_type :=
          if best_result.value ≤ tt_alpha then EntryType.UPPERBOUND
          else if best_result.value ≥ tt_beta then EntryType.LOWERBOUND
          else EntryType.EXACT
        (best_result,
          { s with tt := s.tt.store hash depth best_result.value tt_type best_result.move })

/-- The method `Search::alpha_beta`, by recursion on `depth`. The search calls it with
`depth >= 1` only: `iterative_deepening` starts at depth 1, and a node of depth 1 scores its
children with `evaluate` instead of recursing; depth 0 is outside the model. -/
def alpha_beta (Z : ZobristData) (clock : Nat → Int) :
    Nat → Search → Board → Nat → Int → Int → Bool → SearchResult × Search
  | 0, s, _, _, _, _, _ => ({ move := 0, value := 0, depth := 0 }, s)
  | n + 1, s, board, hash, alpha, beta, is_black_turn =>
    match check_timeout clock s with
    | (true, s) => ({ move := 0, value := 0, depth := ((n + 1 : Nat) : Int) }, s)
    | (false, s) =>
      alpha_beta_node Z clock
        (fun s new_board nh a b =>
          if n + 1 = 1 then ({ move := 0, value := evaluate new_board, depth := 0 }, s)
          else alpha_beta Z clock n s new_board nh a b (!is_black_turn))
        s board hash ((n + 1 : Nat) : Int) alpha beta is_black_turn

/-- The deepening loop of `iterative_deepening`, `for (depth = ..; depth <= max_depth;
++depth)`: the first argument is the number of depths left, `max_depth - depth + 1`. -/
def deepen (Z : ZobristData) (clock : Nat → Int) (board : Board) (board_hash : Nat)
    (is_black : Bool) : Nat → Nat → Search → SearchResult → SearchResult × Search
  | 0, _, s, best_result => (best_result, s)
  | left + 1, depth, s, best_result =>
    match alpha_beta Z clock depth s board board_hash (-INF) INF is_black with
    | (current, s) =>
      if s.timeout then (best_result, s)
      else
        let best_result : SearchResult := { current with depth := (depth : Int) }
        if |current.value| > INF / 2 then (best_result, s)
        else deepen Z clock board board_hash is_black left (depth + 1) s best_result

/-- The method `Search::iterative_deepening`. -/
def iterative_deepening (Z : ZobristData) (clock : Nat → Int) (s : Search) (board : Board)
    (is_black : Bool) (time_ms : Int) (max_depth : Int) : SearchResult × Search :=
  let s : Search :=
    { tt := s.tt.new_search, time_limit := time_ms, timeout := false, polls := 0 }
  let best_result : SearchResult := {}
  let board_hash := compute_hash Z board is_black
  deepen Z clock board board_hash is_black max_depth.toNat 1 s best_result

/-- The state in which `iterative_deepening`, called on a freshly constructed `Search`,
starts its first pass. -/
def first_state (time_ms : Int) : Search :=
  { tt := TranspositionTable.init.new_search, time_limit := time_ms, timeout := false,
    polls := 0 }

/-- The depth-1 pass of `iterative_deepening` on a freshly constructed `Search`. -/
def first_pass (Z : ZobristData) (clock : Nat → Int) (board : Board) (is_black : Bool)
    (time_ms : Int) : SearchResult × Search :=
  alpha_beta Z clock 1 (first_state time_ms) board (compute_hash Z board is_black) (-INF) INF
    is_black

/-! ## Definitions: invariants of the search -/

/-- A value strictly between the sentinels `-INF` and `INF`. -/
def Finite (v : Int) : Prop := -INF < v ∧ v < INF

/-- Every entry of the table has a value strictly between the sentinels and a depth of at
most `D`. -/
def TTInv (D : Int) (t : TranspositionTable) : Prop :=
  ∀ i, Finite (t.table i).value ∧ (t.table i).depth ≤ D

/-- What a call that starts in state `s` hands back: the time limit is kept, and either the
timeout flag is set and some clock reading exceeded the limit, or the flag is clear, the
value lies strictly between the sentinels and the table invariant holds. -/
def Contract (clock : Nat → Int) (D : Int) (s : Search) (out : SearchResult × Search) : Prop :=
  out.2.time_limit = s.time_limit ∧
  ((out.2.timeout = true ∧ ∃ k, clock k > s.time_limit) ∨
    (out.2.timeout = false ∧ Finite out.1.value ∧ TTInv D out.2.tt))

/-- The computation of `current` keeps the contract from every state without timeout. -/
def ChildOK (clock : Nat → Int) (D : Int)
    (child : Search → Board → Nat → Int → Int → SearchResult × Search) : Prop :=
  ∀ s nb nh a b, s.timeout = false → TTInv D s.tt → Contract clock D s (child s nb nh a b)

/-- A running best that has taken one of the moves of `M`, with a value strictly between
the sentinels. -/
def BestIn (M : List Nat) (best : SearchResult) : Prop :=
  best.move ∈ M ∧ Finite best.value

/-! ## Definitions: the evaluator with every `int` operation checked -/

/-- The result of an `int` operation: `none` when it leaves the 32-bit range (signed
overflow). -/
def chk32 (x : Int) : Option Int :=
  if -2147483648 ≤ x ∧ x ≤ 2147483647 then some x else none

/-- The function `get_positional_score`, with `score += ..` checked. -/
def get_positional_score_chk (pieces : Nat) : Option Int :=
  (List.range 64).foldlM (fun score i =>
    if (pieces &&& (1 <<< i)) ≠ 0 then chk32 (score + POSITIONAL_TABLE.getD i 0)
    else some score) 0

/-- The function `edge_stability`, with `stable += ..` checked. -/
def edge_stability_chk (player : Nat) : Option Int :=
  STABLE_MASK.foldlM (fun stable pattern =>
    chk32 (stable + (popcountll (player &&& pattern) : Int))) 0

/-- Checked subtraction of two `int` results. -/
def sub_chk (x y : Option Int) : Option Int :=
  x.bind fun a => y.bind fun b => chk32 (a - b)

/-- Checked multiplication of two `int` results. -/
def mul_chk (x y : Option Int) : Option Int :=
  x.bind fun a => y.bind fun b => chk32 (a * b)

/-- Checked addition of two `int` results. -/
def add_chk (x y : Option Int) : Option Int :=
  x.bind fun a => y.bind fun b => chk32 (a + b)

/-- The function template `phase_evaluation<P>`, with every subtraction, multiplication and
addition checked. -/
def phase_evaluation_chk (P : GamePhase) (board : Board) : Option Int :=
  let positional := sub_chk (get_positional_score_chk board.black)
    (get_positional_score_chk board.white)
  let corners := mul_chk
    (sub_chk (some (popcountll (board.black &&& CORNERS) : Int))
      (some (popcountll (board.white &&& CORNERS) : Int)))
    (some (Weights.of P).corner)
  let edges := mul_chk
    (sub_chk (edge_stability_chk board.black) (edge_stability_chk board.white))
    (some (Weights.of P).edge)
  let mobility := mul_chk
    (sub_chk (some (calculate_mobility true board)) (some (calculate_mobility false board)))
    (some (Weights.of P).mobility)
  let disc_diff := mul_chk
    (sub_chk (some (popcountll board.black : Int)) (some (popcountll board.white : Int)))
    (some (Weights.of P).disc)
  add_chk (add_chk (add_chk (add_chk corners positional) edges) mobility) disc_diff

/-- The function `evaluate`, with every subtraction, multiplication and addition
checked. -/
def evaluate_chk (board : Board) : Option Int :=
  let total_discs : Int := (popcountll (board.black ||| board.white) : Int)
  if total_discs ≥ 56 then
    let disc_diff := sub_chk (some (popcountll board.black : Int))
      (some (popcountll board.white : Int))
    let empties := sub_chk (some 64) (some total_discs)
    let parity := mul_chk (empties.map fun e => e % 2)
      (disc_diff.map fun d => if d > 0 then 50 else -50)
    add_chk (add_chk (mul_chk disc_diff (some 100)) parity)
      (phase_evaluation_chk GamePhase.LATE_GAME board)
  else if total_discs ≥ 40 then phase_evaluation_chk GamePhase.MID_GAME board
  else phase_evaluation_chk GamePhase.EARLY_GAME board

/-- The board with the two colours exchanged. -/
def Board.swap (b : Board) : Board := { black := b.white, white := b.black }

/-! ## Definitions: the passes of the deepening loop -/

/-- The state in which `iterative_deepening` starts its first pass, whatever the `Search`
held before. -/
def start_state (s : Search) (time_ms : Int) : Search :=
  { tt := s.tt.new_search, time_limit := time_ms, timeout := false, polls := 0 }

/-- The first `k` passes of the deepening loop, at the depths `start`, .., `start + k - 1`,
run one after the other without the exits of the loop: the content of `best_result` after
the last of them (the value given when `k = 0`), and the state. -/
def completed_passes (Z : ZobristData) (clock : Nat → Int) (board : Board) (board_hash : Nat)
    (is_black : Bool) (start : Nat) : Nat → Search → SearchResult → SearchResult × Search
  | 0, s, best_result => (best_result, s)
  | k + 1, s, best_result =>
    match completed_passes Z clock board board_hash is_black start k s best_result with
    | (_, s) =>
      match alpha_beta Z clock (start + k) s board board_hash (-INF) INF is_black with
      | (current, s) => ({ current with depth := ((start + k : Nat) : Int) }, s)

/-! ## Lemmas: bits -/

theorem bit_and_ne_zero (x j : Nat) : ((1 <<< j) &&& x ≠ 0) ↔ x.testBit j = true := by
  constructor
  · intro h
    obtain ⟨i, hi⟩ := Nat.ne_zero_implies_bit_true h
    simp only [Nat.testBit_and, Nat.one_shiftLeft, Nat.testBit_two_pow, Bool.and_eq_true,
      decide_eq_true_eq] at hi
    obtain ⟨rfl, hx⟩ := hi
    exact hx
  · intro h h0
    have := congrArg (fun y => y.testBit j) h0
    simp [Nat.one_shiftLeft, Nat.testBit_two_pow, h] at this

theorem bit_ne_zero (j : Nat) : (1 <<< j) ≠ 0 := by
  rw [Nat.one_shiftLeft]
  exact Nat.pos_iff_ne_zero.mp (Nat.two_pow_pos j)

theorem testBit_bit (i j : Nat) : (1 <<< i).testBit j = decide (i = j) := by
  rw [Nat.one_shiftLeft, Nat.testBit_two_pow]

/-! ## Lemmas: geometry of `shift` -/

set_option maxRecDepth 100000 in
theorem shift_single : ∀ d < 8, ∀ i < 64, shift (1 <<< i) d = bitOf (nbr d i) := by
  decide

theorem nbr_lt {d i j : Nat} (hi : i < 64) (h : nbr d i = some j) : j < 64 := by
  unfold nbr at h
  simp only at h
  split at h <;>
    simp only [Option.ite_none_right_eq_some, Option.some.injEq, reduceCtorEq] at h <;> omega

set_option maxRecDepth 100000 in
theorem ray_unfold : ∀ d < 8, ∀ i < 64,
    ray d i = (match nbr d i with | none => [] | some j => j :: ray d j) := by
  decide

theorem rayF_length (d : Nat) : ∀ (f i : Nat), (rayF d f i).length ≤ f := by
  intro f
  induction f with
  | zero => intro i; simp [rayF]
  | succ f ih =>
    intro i
    unfold rayF
    cases nbr d i with
    | none => simp
    | some j => simp only [List.length_cons]; have := ih j; omega

theorem ray_length (d i : Nat) : (ray d i).length ≤ 7 := rayF_length d 7 i

theorem scan_eq_scanL (opp d : Nat) (hd : d < 8) :
    ∀ (F i fl : Nat), i < 64 → (ray d i).length < F →
      scan opp d F (bitOf (nbr d i)) fl = scanL opp (ray d i) fl := by
  intro F
  induction F with
  | zero => intro i fl _ h; omega
  | succ F ih =>
    intro i fl hi hlen
    have hu := ray_unfold d hd i hi
    cases hn : nbr d i with
    | none =>
      rw [hn] at hu
      simp only at hu
      rw [hu]
      simp [scan, scanL, bitOf]
    | some j =>
      rw [hn] at hu
      simp only at hu
      have hj : j < 64 := nbr_lt hi hn
      rw [hu] at hlen ⊢
      simp only [List.length_cons] at hlen
      simp only [scan, scanL, bitOf]
      by_cases ho : opp.testBit j = true
      · have h1 : (1 <<< j ≠ 0 ∧ (1 <<< j) &&& opp ≠ 0) := ⟨bit_ne_zero j, (bit_and_ne_zero opp j).2 ho⟩
        rw [if_pos h1, if_pos ho, shift_single d hd j hj]
        exact ih j _ hj (by omega)
      · have h1 : ¬ (1 <<< j ≠ 0 ∧ (1 <<< j) &&& opp ≠ 0) := fun h => ho ((bit_and_ne_zero opp j).1 h.2)
        rw [if_neg h1, if_neg ho]

/-- For a single-cell move the direction walk of the code is the walk along the ray. -/
theorem scan_single (opp d i : Nat) (hd : d < 8) (hi : i < 64) (fl : Nat) :
    scan opp d SCAN_FUEL (shift (1 <<< i) d) fl = scanL opp (ray d i) fl := by
  rw [shift_single d hd i hi]
  exact scan_eq_scanL opp d hd SCAN_FUEL i fl hi (by have := ray_length d i; simp [SCAN_FUEL]; omega)

/-- The walk along a list stops by the loop condition, never by the budget. -/
theorem scanL_exit (opp : Nat) : ∀ (L : List Nat) (fl : Nat),
    ¬ ((scanL opp L fl).1 ≠ 0 ∧ (scanL opp L fl).1 &&& opp ≠ 0) := by
  intro L
  induction L with
  | nil => intro fl; simp [scanL]
  | cons j rest ih =>
    intro fl
    simp only [scanL]
    by_cases ho : opp.testBit j = true
    · rw [if_pos ho]; exact ih _
    · rw [if_neg ho]
      exact fun h => ho ((bit_and_ne_zero opp j).1 h.2)

/-- For a single-cell move the direction loop stops by its own condition, and any
budget of 8 or more steps gives the result of the budget in use. -/
theorem scan_terminates (opp d i fl F : Nat) (hd : d < 8) (hi : i < 64) (hF : 8 ≤ F) :
    scan opp d F (shift (1 <<< i) d) fl = scan opp d SCAN_FUEL (shift (1 <<< i) d) fl ∧
    ¬ ((scan opp d SCAN_FUEL (shift (1 <<< i) d) fl).1 ≠ 0 ∧
        (scan opp d SCAN_FUEL (shift (1 <<< i) d) fl).1 &&& opp ≠ 0) := by
  have hlen := ray_length d i
  rw [scan_single opp d i hd hi fl, shift_single d hd i hi,
    scan_eq_scanL opp d hd F i fl hi (by omega)]
  exact ⟨rfl, scanL_exit opp _ fl⟩

/-! ## Lemmas: the direction loop stops on every mask -/

theorem mask7F_bit : ∀ i, (0x7F7F7F7F7F7F7F7F : Nat).testBit i = true → i < 64 ∧ i % 8 < 7 := by
  intro i h
  have hi : i < 64 := by
    by_contra hge
    have : (0x7F7F7F7F7F7F7F7F : Nat) < 2 ^ i :=
      Nat.lt_of_lt_of_le (by norm_num) (Nat.pow_le_pow_right (by decide) (Nat.le_of_not_lt hge))
    rw [Nat.testBit_lt_two_pow this] at h
    exact Bool.noConfusion h
  have key : ∀ k < 64, (0x7F7F7F7F7F7F7F7F : Nat).testBit k = true → k % 8 < 7 := by decide
  exact ⟨hi, key i hi h⟩

theorem maskFE_bit : ∀ i, (0xFEFEFEFEFEFEFEFE : Nat).testBit i = true → i < 64 ∧ 1 ≤ i % 8 := by
  intro i h
  have hi : i < 64 := by
    by_contra hge
    have : (0xFEFEFEFEFEFEFEFE : Nat) < 2 ^ i :=
      Nat.lt_of_lt_of_le (by norm_num) (Nat.pow_le_pow_right (by decide) (Nat.le_of_not_lt hge))
    rw [Nat.testBit_lt_two_pow this] at h
    exact Bool.noConfusion h
  have key : ∀ k < 64, (0xFEFEFEFEFEFEFEFE : Nat).testBit k = true → 1 ≤ k % 8 := by decide
  exact ⟨hi, key i hi h⟩

theorem mask00FF_bit : ∀ i, (0x00FFFFFFFFFFFFFF : Nat).testBit i = true → i < 56 := by
  intro i h
  by_contra hge
  have : (0x00FFFFFFFFFFFFFF : Nat) < 2 ^ i :=
    Nat.lt_of_lt_of_le (by norm_num : (0x00FFFFFFFFFFFFFF : Nat) < 2 ^ 56)
      (Nat.pow_le_pow_right (by decide) (Nat.le_of_not_lt hge))
  rw [Nat.testBit_lt_two_pow this] at h
  exact Bool.noConfusion h

/-- Every bit of `shift m d` comes from a bit of `m` one step back in direction `d`. -/
theorem shift_testBit (m d j : Nat) (h : (shift m d).testBit j = true) :
    ∃ i, i < 64 ∧ nbr d i = some j ∧ m.testBit i = true := by
  unfold shift at h
  split at h
  · simp only [Nat.testBit_and, Nat.testBit_shiftRight, Bool.and_eq_true] at h
    have := mask00FF_bit j h.2
    exact ⟨8 + j, by omega, by simp [nbr], h.1⟩
  · simp only [Nat.testBit_and, Nat.testBit_mod_two_pow, Nat.testBit_shiftLeft,
      Bool.and_eq_true, decide_eq_true_eq] at h
    obtain ⟨⟨hj, hge, hm⟩, _⟩ := h
    exact ⟨j - 8, by omega, by simp [nbr]; omega, hm⟩
  · simp only [Nat.testBit_and, Nat.testBit_mod_two_pow, Nat.testBit_shiftLeft,
      Bool.and_eq_true, decide_eq_true_eq] at h
    obtain ⟨hj, hge, hm, hc⟩ := h
    have := mask7F_bit _ hc
    exact ⟨j - 1, by omega, by simp [nbr]; omega, hm⟩
  · simp only [Nat.testBit_and, Nat.testBit_shiftRight, Bool.and_eq_true] at h
    have := maskFE_bit _ h.2
    exact ⟨1 + j, by omega, by simp [nbr]; omega, h.1⟩
  · simp only [Nat.testBit_and, Nat.testBit_shiftRight, Bool.and_eq_true] at h
    have := maskFE_bit _ h.2
    exact ⟨9 + j, by omega, by simp [nbr]; omega, h.1⟩
  · simp only [Nat.testBit_and, Nat.testBit_shiftRight, Bool.and_eq_true] at h
    have := mask7F_bit _ h.2
    exact ⟨7 + j, by omega, by simp [nbr]; omega, h.1⟩
  · simp only [Nat.testBit_and, Nat.testBit_mod_two_pow, Nat.testBit_shiftLeft,
      Bool.and_eq_true, decide_eq_true_eq] at h
    obtain ⟨hj, hge, hm, hc⟩ := h
    have := maskFE_bit _ hc
    exact ⟨j - 7, by omega, by simp [nbr]; omega, hm⟩
  · simp only [Nat.testBit_and, Nat.testBit_mod_two_pow, Nat.testBit_shiftLeft,
      Bool.and_eq_true, decide_eq_true_eq] at h
    obtain ⟨hj, hge, hm, hc⟩ := h
    have := mask7F_bit _ hc
    exact ⟨j - 9, by omega, by simp [nbr]; omega, hm⟩
  · simp at h

/-- A bit that survives `k` steps started on a ray of at least `k` cells. -/
theorem iterate_shift_testBit (d : Nat) (hd : d < 8) : ∀ (k m j : Nat),
    ((fun x => shift x d)^[k] m).testBit j = true →
      ∃ i, m.testBit i = true ∧ k ≤ (ray d i).length := by
  intro k
  induction k with
  | zero =>
    intro m j h
    exact ⟨j, h, Nat.zero_le _⟩
  | succ k ih =>
    intro m j h
    rw [Function.iterate_succ_apply] at h
    obtain ⟨i1, h1, hlen⟩ := ih (shift m d) j h
    obtain ⟨i, hi, hn, hm⟩ := shift_testBit m d i1 h1
    refine ⟨i, hm, ?_⟩
    have hu := ray_unfold d hd i hi
    rw [hn] at hu
    simp only at hu
    rw [hu, List.length_cons]
    omega

/-- Eight steps in one direction push every bit of a mask off the grid. -/
theorem iterate_shift_eight (d m : Nat) : (fun x => shift x d)^[8] m = 0 := by
  apply Nat.eq_of_testBit_eq
  intro j
  rw [Nat.zero_testBit]
  cases h : ((fun x => shift x d)^[8] m).testBit j
  · rfl
  · exfalso
    by_cases hd : d < 8
    · obtain ⟨i, _, hlen⟩ := iterate_shift_testBit d hd 8 m j h
      have := ray_length d i
      omega
    · rw [Function.iterate_succ_apply'] at h
      obtain ⟨i, _, hn, _⟩ := shift_testBit _ d j h
      have : nbr d i = none := by
        unfold nbr
        split <;> first | omega | rfl
      rw [this] at hn
      cases hn

theorem scan_of_iterate_zero (opp d : Nat) : ∀ (n F G m fl : Nat),
    (fun x => shift x d)^[n] m = 0 → n < F → n < G →
      scan opp d F m fl = scan opp d G m fl ∧
      ¬ ((scan opp d F m fl).1 ≠ 0 ∧ (scan opp d F m fl).1 &&& opp ≠ 0) := by
  intro n
  induction n with
  | zero =>
    intro F G m fl hz hF hG
    simp only [Function.iterate_zero, id_eq] at hz
    subst hz
    obtain ⟨F, rfl⟩ : ∃ F', F = F' + 1 := ⟨F - 1, by omega⟩
    obtain ⟨G, rfl⟩ : ∃ G', G = G' + 1 := ⟨G - 1, by omega⟩
    simp [scan]
  | succ n ih =>
    intro F G m fl hz hF hG
    obtain ⟨F, rfl⟩ : ∃ F', F = F' + 1 := ⟨F - 1, by omega⟩
    obtain ⟨G, rfl⟩ : ∃ G', G = G' + 1 := ⟨G - 1, by omega⟩
    rw [Function.iterate_succ_apply] at hz
    unfold scan
    by_cases hc : m ≠ 0 ∧ m &&& opp ≠ 0
    · rw [if_pos hc, if_pos hc]
      exact ih F G (shift m d) (fl ||| m) hz (by omega) (by omega)
    · rw [if_neg hc, if_neg hc]
      exact ⟨rfl, hc⟩

/-- The direction loop stops by its own condition on every mask, and any budget of 9 or
more steps gives the result of the budget in use. -/
theorem scan_total (opp d m fl F : Nat) (hF : 9 ≤ F) :
    scan opp d F m fl = scan opp d SCAN_FUEL m fl ∧
    ¬ ((scan opp d SCAN_FUEL m fl).1 ≠ 0 ∧ (scan opp d SCAN_FUEL m fl).1 &&& opp ≠ 0) :=
  ⟨(scan_of_iterate_zero opp d 8 F SCAN_FUEL m fl (iterate_shift_eight d m) (by omega)
      (by decide)).1,
    (scan_of_iterate_zero opp d 8 SCAN_FUEL SCAN_FUEL m fl (iterate_shift_eight d m) (by decide)
      (by decide)).2⟩

/-! ## Lemmas: rays in rows and columns -/

set_option maxRecDepth 1000000 in
theorem cellAt_ray_small : ∀ d < 8, ∀ i < 64, ∀ k < 8,
    cellAt i (dRow d) (dCol d) (k + 1) = (ray d i)[k]? := by
  decide

theorem cellAt_far (d i k : Nat) (hd : d < 8) (hi : i < 64) (hk : 8 ≤ k) :
    cellAt i (dRow d) (dCol d) k = none := by
  have h1 : i / 8 < 8 := by omega
  have h2 : i % 8 < 8 := by omega
  interval_cases d <;> simp [cellAt, dRow, dCol] <;> intros <;> omega

/-! ## Lemmas: the walk along a list of cells -/

theorem BracketL_nil (p o n : Nat) : ¬ BracketL p o [] n := by
  rintro ⟨_, j, hj, _⟩
  simp at hj

theorem BracketL_cons_zero (p o j : Nat) (rest : List Nat) :
    BracketL p o (j :: rest) 0 ↔ p.testBit j = true := by
  unfold BracketL
  constructor
  · rintro ⟨_, x, hx, hp⟩
    simp only [List.getElem?_cons_zero, Option.some.injEq] at hx
    subst hx
    exact hp
  · intro hp
    exact ⟨fun k hk => absurd hk (Nat.not_lt_zero k), j, by simp, hp⟩

theorem BracketL_cons_succ (p o j n : Nat) (rest : List Nat) :
    BracketL p o (j :: rest) (n + 1) ↔ o.testBit j = true ∧ BracketL p o rest n := by
  unfold BracketL
  constructor
  · rintro ⟨hall, hend⟩
    refine ⟨?_, ?_, ?_⟩
    · obtain ⟨x, hx, ho⟩ := hall 0 (Nat.succ_pos n)
      simp only [List.getElem?_cons_zero, Option.some.injEq] at hx
      subst hx
      exact ho
    · intro k hk
      have := hall (k + 1) (Nat.succ_lt_succ hk)
      simpa only [List.getElem?_cons_succ] using this
    · simpa only [List.getElem?_cons_succ] using hend
  · rintro ⟨ho, hall, hend⟩
    refine ⟨?_, ?_⟩
    · intro k hk
      cases k with
      | zero => exact ⟨j, by simp, ho⟩
      | succ k =>
        simp only [List.getElem?_cons_succ]
        exact hall k (Nat.lt_of_succ_lt_succ hk)
    · simpa only [List.getElem?_cons_succ] using hend

theorem exists_nat_split (P : Nat → Prop) : (∃ n, P n) ↔ P 0 ∨ ∃ n, P (n + 1) := by
  constructor
  · rintro ⟨n, hn⟩
    cases n with
    | zero => exact Or.inl hn
    | succ n => exact Or.inr ⟨n, hn⟩
  · rintro (h | ⟨n, hn⟩)
    · exact ⟨0, h⟩
    · exact ⟨n + 1, hn⟩

theorem disjoint_bits {p o : Nat} (h : p &&& o = 0) (j : Nat) :
    ¬ (p.testBit j = true ∧ o.testBit j = true) := by
  intro ⟨hp, ho⟩
  have := congrArg (fun y => y.testBit j) h
  simp [hp, ho] at this

theorem or_bit_ne_zero (fl j : Nat) : fl ||| (1 <<< j) ≠ 0 := by
  intro h
  have := congrArg (fun y => y.testBit j) h
  simp [testBit_bit] at this

/-- The walk along a list ends on a player disc with a non-empty `flipped`
exactly when the list starts with a bracketed run. -/
theorem scanL_valid (p o : Nat) (hd : p &&& o = 0) : ∀ (L : List Nat) (fl : Nat),
    ((scanL o L fl).1 &&& p ≠ 0 ∧ (scanL o L fl).2 ≠ 0) ↔
      ∃ n, BracketL p o L n ∧ (fl ≠ 0 ∨ 1 ≤ n) := by
  intro L
  induction L with
  | nil =>
    intro fl
    simp [scanL, BracketL_nil]
  | cons j rest ih =>
    intro fl
    rw [exists_nat_split]
    simp only [BracketL_cons_zero, BracketL_cons_succ, scanL]
    by_cases ho : o.testBit j = true
    · have hp : ¬ p.testBit j = true := fun hp => disjoint_bits hd j ⟨hp, ho⟩
      rw [if_pos ho, ih]
      simp [ho, hp, or_bit_ne_zero]
    · rw [if_neg ho]
      simp [ho, bit_and_ne_zero]

/-- The bits gathered by a walk that ends on a player disc are the cells of the run. -/
theorem scanL_flips (p o : Nat) (hd : p &&& o = 0) (x : Nat) : ∀ (L : List Nat) (fl : Nat),
    ((scanL o L fl).1 &&& p ≠ 0 ∧ (scanL o L fl).2.testBit x = true) ↔
      ∃ n, BracketL p o L n ∧ (fl.testBit x = true ∨ ∃ k, k < n ∧ L[k]? = some x) := by
  intro L
  induction L with
  | nil =>
    intro fl
    simp [scanL, BracketL_nil]
  | cons j rest ih =>
    intro fl
    rw [exists_nat_split]
    simp only [BracketL_cons_zero, BracketL_cons_succ, scanL]
    by_cases ho : o.testBit j = true
    · have hp : ¬ p.testBit j = true := fun hp => disjoint_bits hd j ⟨hp, ho⟩
      rw [if_pos ho, ih]
      simp only [Nat.testBit_or, testBit_bit, Bool.or_eq_true, decide_eq_true_eq]
      constructor
      · rintro ⟨n, hb, h⟩
        refine Or.inr ⟨n, ⟨ho, hb⟩, ?_⟩
        rcases h with (h | rfl) | ⟨k, hk, hx⟩
        · exact Or.inl h
        · exact Or.inr ⟨0, Nat.succ_pos n, by simp⟩
        · exact Or.inr ⟨k + 1, Nat.succ_lt_succ hk, by simpa using hx⟩
      · rintro (⟨hp2, _⟩ | ⟨n, ⟨_, hb⟩, h⟩)
        · exact absurd hp2 hp
        refine ⟨n, hb, ?_⟩
        rcases h with h | ⟨k, hk, hx⟩
        · exact Or.inl (Or.inl h)
        · cases k with
          | zero =>
            simp only [List.getElem?_cons_zero, Option.some.injEq] at hx
            exact Or.inl (Or.inr hx)
          | succ k =>
            simp only [List.getElem?_cons_succ] at hx
            exact Or.inr ⟨k, Nat.lt_of_succ_lt_succ hk, hx⟩
    · rw [if_neg ho]
      simp [ho, bit_and_ne_zero]

/-! ## Lemmas: legality of a single-cell move -/

theorem cellAt_ray (d i k : Nat) (hd : d < 8) (hi : i < 64) :
    cellAt i (dRow d) (dCol d) (k + 1) = (ray d i)[k]? := by
  by_cases hk : k < 8
  · exact cellAt_ray_small d hd i hi k hk
  · rw [cellAt_far d i (k + 1) hd hi (by omega)]
    symm
    apply List.getElem?_eq_none
    have := ray_length d i
    omega

theorem Bracket_iff_BracketL (p o d i n : Nat) (hd : d < 8) (hi : i < 64) :
    Bracket p o i (dRow d) (dCol d) n ↔ 1 ≤ n ∧ BracketL p o (ray d i) n := by
  unfold Bracket BracketL
  rw [cellAt_ray d i n hd hi]
  constructor
  · rintro ⟨h1, hall, hend⟩
    refine ⟨h1, ?_, hend⟩
    intro k hk
    have := hall (k + 1) (by omega) (by omega)
    rwa [cellAt_ray d i k hd hi] at this
  · rintro ⟨h1, hall, hend⟩
    refine ⟨h1, ?_, hend⟩
    intro k hk1 hkn
    obtain ⟨k, rfl⟩ : ∃ k', k = k' + 1 := ⟨k - 1, by omega⟩
    rw [cellAt_ray d i k hd hi]
    exact hall k (by omega)

theorem IsDir_iff (dr dc : Int) : IsDir dr dc ↔ ∃ d, d < 8 ∧ dr = dRow d ∧ dc = dCol d := by
  unfold IsDir
  constructor
  · rintro ⟨hr, hc, hne⟩
    rcases hr with rfl | rfl | rfl <;> rcases hc with rfl | rfl | rfl
    · exact ⟨4, by decide, rfl, rfl⟩
    · exact ⟨0, by decide, rfl, rfl⟩
    · exact ⟨5, by decide, rfl, rfl⟩
    · exact ⟨3, by decide, rfl, rfl⟩
    · exact absurd ⟨rfl, rfl⟩ hne
    · exact ⟨2, by decide, rfl, rfl⟩
    · exact ⟨6, by decide, rfl, rfl⟩
    · exact ⟨1, by decide, rfl, rfl⟩
    · exact ⟨7, by decide, rfl, rfl⟩
  · rintro ⟨d, hd, rfl, rfl⟩
    interval_cases d <;> simp [dRow, dCol]

/-- Legality of a cell, by direction number and ray. -/
theorem LegalCell_iff (p o i : Nat) (hi : i < 64) :
    LegalCell p o i ↔ ∃ d, d < 8 ∧ ∃ n, BracketL p o (ray d i) n ∧ 1 ≤ n := by
  unfold LegalCell
  constructor
  · rintro ⟨dr, dc, hdir, n, hb⟩
    obtain ⟨d, hd, rfl, rfl⟩ := (IsDir_iff dr dc).1 hdir
    obtain ⟨h1, hb⟩ := (Bracket_iff_BracketL p o d i n hd hi).1 hb
    exact ⟨d, hd, n, hb, h1⟩
  · rintro ⟨d, hd, n, hb, h1⟩
    exact ⟨dRow d, dCol d, (IsDir_iff _ _).2 ⟨d, hd, rfl, rfl⟩, n,
      (Bracket_iff_BracketL p o d i n hd hi).2 ⟨h1, hb⟩⟩

/-- The direction loop of `is_valid_move` on a single-cell move. -/
theorem valid_loop_iff (p o i : Nat) (hdisj : p &&& o = 0) (hi : i < 64) :
    ((List.range 8).any fun dir =>
        decide (((scan o dir SCAN_FUEL (shift (1 <<< i) dir) 0).1 &&& p) ≠ 0 ∧
          (scan o dir SCAN_FUEL (shift (1 <<< i) dir) 0).2 ≠ 0)) = true ↔
      LegalCell p o i := by
  rw [LegalCell_iff p o i hi, List.any_eq_true]
  constructor
  · rintro ⟨d, hd, h⟩
    have hd8 : d < 8 := List.mem_range.1 hd
    rw [decide_eq_true_eq, scan_single o d i hd8 hi, scanL_valid p o hdisj] at h
    obtain ⟨n, hb, h1⟩ := h
    exact ⟨d, hd8, n, hb, by simpa using h1⟩
  · rintro ⟨d, hd8, n, hb, h1⟩
    refine ⟨d, List.mem_range.2 hd8, ?_⟩
    rw [decide_eq_true_eq, scan_single o d i hd8 hi, scanL_valid p o hdisj]
    exact ⟨n, hb, Or.inr h1⟩

theorem is_valid_move_iff (b : Board) (is_black : Bool) (i : Nat)
    (hdisj : b.black &&& b.white = 0) (hi : i < 64) :
    is_valid_move b (1 <<< i) is_black = true ↔
      LegalCell (if is_black then b.black else b.white)
        (if is_black then b.white else b.black) i := by
  unfold is_valid_move
  apply valid_loop_iff _ _ _ _ hi
  cases is_black
  · simpa [Nat.land_comm] using hdisj
  · simpa using hdisj

theorem bit_inj {i j : Nat} (h : (1 : Nat) <<< i = 1 <<< j) : i = j := by
  have := congrArg (fun y => y.testBit j) h
  simp only [testBit_bit, decide_True, decide_eq_true_eq] at this
  exact this

theorem empty_bit (x i : Nat) (hi : i < 64) :
    (not64 x &&& (1 <<< i) ≠ 0) ↔ x.testBit i = false := by
  rw [Nat.land_comm, bit_and_ne_zero]
  unfold not64
  rw [Nat.testBit_xor, show (0xFFFFFFFFFFFFFFFF : Nat) = 2 ^ 64 - 1 from by norm_num,
    Nat.testBit_two_pow_sub_one]
  simp [hi]

/-- Membership in `get_moves`, at the level of the code. -/
theorem mem_get_moves (b : Board) (is_black : Bool) (m : Nat) :
    m ∈ get_moves b is_black ↔ ∃ i, i < 64 ∧ m = 1 <<< i ∧
      (b.black ||| b.white).testBit i = false ∧ is_valid_move b m is_black = true := by
  unfold get_moves
  simp only [List.mem_filter, List.mem_map, List.mem_range, Bool.and_eq_true, decide_eq_true_eq]
  constructor
  · rintro ⟨⟨i, hi, rfl⟩, he, hv⟩
    refine ⟨i, hi, rfl, ?_, hv⟩
    have := (empty_bit _ i hi).1 he
    cases is_black
    · simpa [Nat.lor_comm] using this
    · simpa using this
  · rintro ⟨i, hi, rfl, he, hv⟩
    refine ⟨⟨i, hi, rfl⟩, ?_, hv⟩
    apply (empty_bit _ i hi).2
    cases is_black
    · simpa [Nat.lor_comm] using he
    · simpa using he

/-! ## Lemmas: the flips of `make_move` -/

theorem side_true (b : Board) : b.side true = b.black := rfl
theorem side_false (b : Board) : b.side false = b.white := rfl

theorem side_disjoint (b : Board) (c : Bool) (h : b.black &&& b.white = 0) :
    b.side c &&& b.side (!c) = 0 := by
  cases c
  · simpa [Board.side, Nat.land_comm] using h
  · simpa [Board.side] using h

theorem side_or (b : Board) (c : Bool) : b.side c ||| b.side (!c) = b.black ||| b.white := by
  cases c
  · simp [Board.side, Nat.lor_comm]
  · simp [Board.side]

theorem is_valid_move_side (b : Board) (c : Bool) (i : Nat)
    (hdisj : b.black &&& b.white = 0) (hi : i < 64) :
    is_valid_move b (1 <<< i) c = true ↔ LegalCell (b.side c) (b.side (!c)) i := by
  rw [is_valid_move_iff b c i hdisj hi]
  cases c <;> simp [Board.side]

theorem foldl_or_testBit (c : Nat → Prop) [DecidablePred c] (v : Nat → Nat) (j : Nat) :
    ∀ (L : List Nat) (a : Nat),
      (L.foldl (fun acc d => if c d then acc ||| v d else acc) a).testBit j = true ↔
        a.testBit j = true ∨ ∃ d, d ∈ L ∧ c d ∧ (v d).testBit j = true := by
  intro L
  induction L with
  | nil => intro a; simp
  | cons d rest ih =>
    intro a
    rw [List.foldl_cons, ih]
    by_cases hc : c d
    · rw [if_pos hc]
      simp only [Nat.testBit_or, Bool.or_eq_true, List.mem_cons, exists_eq_or_imp]
      constructor
      · rintro ((h | h) | h)
        · exact Or.inl h
        · exact Or.inr (Or.inl ⟨hc, h⟩)
        · exact Or.inr (Or.inr h)
      · rintro (h | ⟨_, h⟩ | h)
        · exact Or.inl (Or.inl h)
        · exact Or.inl (Or.inr h)
        · exact Or.inr h
    · rw [if_neg hc]
      simp only [List.mem_cons, exists_eq_or_imp]
      constructor
      · rintro (h | h)
        · exact Or.inl h
        · exact Or.inr (Or.inr h)
      · rintro (h | ⟨h, _⟩ | h)
        · exact Or.inl h
        · exact absurd h hc
        · exact Or.inr h

/-- Flipped cells, by direction number and ray. -/
theorem Flipped_iff (p o i j : Nat) (hi : i < 64) :
    Flipped p o i j ↔
      ∃ d, d < 8 ∧ ∃ n, BracketL p o (ray d i) n ∧ ∃ k, k < n ∧ (ray d i)[k]? = some j := by
  unfold Flipped
  constructor
  · rintro ⟨dr, dc, hdir, n, hb, k, hk1, hkn, hc⟩
    obtain ⟨d, hd, rfl, rfl⟩ := (IsDir_iff dr dc).1 hdir
    obtain ⟨_, hb⟩ := (Bracket_iff_BracketL p o d i n hd hi).1 hb
    obtain ⟨k, rfl⟩ : ∃ k', k = k' + 1 := ⟨k - 1, by omega⟩
    rw [cellAt_ray d i k hd hi] at hc
    exact ⟨d, hd, n, hb, k, by omega, hc⟩
  · rintro ⟨d, hd, n, hb, k, hkn, hc⟩
    refine ⟨dRow d, dCol d, (IsDir_iff _ _).2 ⟨d, hd, rfl, rfl⟩, n,
      (Bracket_iff_BracketL p o d i n hd hi).2 ⟨by omega, hb⟩, k + 1, by omega, by omega, ?_⟩
    rw [cellAt_ray d i k hd hi]
    exact hc

/-- The bits of `to_flip` for a single-cell move are the flipped cells. -/
theorem to_flip_testBit (p o i j : Nat) (hdisj : p &&& o = 0) (hi : i < 64) :
    (to_flip p o (1 <<< i)).testBit j = true ↔ Flipped p o i j := by
  unfold to_flip
  rw [foldl_or_testBit (fun dir => ((scan o dir SCAN_FUEL (shift (1 <<< i) dir) 0).1 &&& p) ≠ 0)
    (fun dir => (scan o dir SCAN_FUEL (shift (1 <<< i) dir) 0).2) j, Flipped_iff p o i j hi]
  simp only [Nat.zero_testBit, Bool.false_eq_true, false_or, List.mem_range]
  constructor
  · rintro ⟨d, hd, h⟩
    rw [scan_single o d i hd hi, scanL_flips p o hdisj] at h
    obtain ⟨n, hb, h⟩ := h
    simp only [Nat.zero_testBit, Bool.false_eq_true, false_or] at h
    exact ⟨d, hd, n, hb, h⟩
  · rintro ⟨d, hd, n, hb, h⟩
    refine ⟨d, hd, ?_⟩
    rw [scan_single o d i hd hi, scanL_flips p o hdisj]
    exact ⟨n, hb, Or.inr h⟩

theorem Flipped_opp {p o i j : Nat} (h : Flipped p o i j) : o.testBit j = true := by
  obtain ⟨dr, dc, _, n, ⟨_, hall, _⟩, k, hk1, hkn, hc⟩ := h
  obtain ⟨j', hj', ho⟩ := hall k hk1 hkn
  rw [hc] at hj'
  cases hj'
  exact ho

theorem cellAt_lt {i j k : Nat} {dr dc : Int} (h : cellAt i dr dc k = some j) : j < 64 := by
  unfold cellAt at h
  simp only at h
  split at h
  · cases h
    omega
  · cases h

theorem Flipped_lt {p o i j : Nat} (h : Flipped p o i j) : j < 64 := by
  obtain ⟨dr, dc, _, n, _, k, _, _, hc⟩ := h
  exact cellAt_lt hc

theorem make_move_side (b : Board) (m : Nat) (c : Bool) :
    (make_move b m c).side c = b.side c ^^^ (m ||| to_flip (b.side c) (b.side (!c)) m) ∧
    (make_move b m c).side (!c) = b.side (!c) ^^^ to_flip (b.side c) (b.side (!c)) m := by
  cases c <;> simp [make_move, Board.side]

/-- What a legal move does to each cell of both sets. -/
theorem make_move_bits (b : Board) (c : Bool) (m : Nat)
    (hdisj : b.black &&& b.white = 0) (hm : m ∈ get_moves b c) :
    ∃ i, i < 64 ∧ m = 1 <<< i ∧
      (b.side c).testBit i = false ∧ (b.side (!c)).testBit i = false ∧
      ∀ j,
        (((make_move b m c).side c).testBit j = true ↔
          (b.side c).testBit j = true ∨ j = i ∨ Flipped (b.side c) (b.side (!c)) i j) ∧
        (((make_move b m c).side (!c)).testBit j = true ↔
          (b.side (!c)).testBit j = true ∧ ¬ Flipped (b.side c) (b.side (!c)) i j) := by
  obtain ⟨i, hi, rfl, he, _⟩ := (mem_get_moves b c m).1 hm
  have hd := side_disjoint b c hdisj
  rw [← side_or b c, Nat.testBit_or, Bool.or_eq_false_iff] at he
  refine ⟨i, hi, rfl, he.1, he.2, ?_⟩
  intro j
  obtain ⟨h1, h2⟩ := make_move_side b (1 <<< i) c
  have hF := to_flip_testBit (b.side c) (b.side (!c)) i j hd hi
  rw [h1, h2]
  simp only [Nat.testBit_xor, Nat.testBit_or, testBit_bit]
  by_cases hfl : Flipped (b.side c) (b.side (!c)) i j
  · have ho := Flipped_opp hfl
    have hp : (b.side c).testBit j = false := by
      cases hpj : (b.side c).testBit j
      · rfl
      · exact absurd ⟨hpj, ho⟩ (disjoint_bits hd j)
    have hne : ¬ i = j := by
      rintro rfl
      rw [he.2] at ho
      exact Bool.noConfusion ho
    simp [hF.2 hfl, hfl, ho, hp]
  · have hnf : (to_flip (b.side c) (b.side (!c)) (1 <<< i)).testBit j = false := by
      cases hx : (to_flip (b.side c) (b.side (!c)) (1 <<< i)).testBit j
      · rfl
      · exact absurd (hF.1 hx) hfl
    by_cases hij : i = j
    · subst hij
      simp [hnf, hfl, he.1, he.2]
    · have hji : ¬ j = i := fun h => hij h.symm
      simp [hnf, hfl, hij, hji]


/-! ## Lemmas: counting discs -/

theorem countP_add (a b c : Nat → Bool) : ∀ (L : List Nat),
    (∀ x, x ∈ L → (a x).toNat = (b x).toNat + (c x).toNat) →
      L.countP a = L.countP b + L.countP c := by
  intro L
  induction L with
  | nil => intro _; simp
  | cons x rest ih =>
    intro h
    have hx := h x (List.mem_cons_self x rest)
    have hr := ih (fun y hy => h y (List.mem_cons_of_mem x hy))
    rw [List.countP_cons, List.countP_cons, List.countP_cons, hr]
    cases ha : a x <;> cases hb : b x <;> cases hc : c x <;> simp [ha, hb, hc] at hx ⊢ <;> omega

set_option maxRecDepth 100000 in
theorem countP_single : ∀ i < 64, (List.range 64).countP (fun j => decide (j = i)) = 1 := by
  decide

theorem bool_toNat_eq (x y z : Bool) (h : x = true ↔ (y = true ∨ z = true))
    (hyz : ¬ (y = true ∧ z = true)) : x.toNat = y.toNat + z.toNat := by
  cases x <;> cases y <;> cases z <;> simp at h hyz ⊢

/-- The disc counts after a legal move, with `to_flip` the set of flipped discs. -/
theorem make_move_popcount (b : Board) (c : Bool) (m : Nat)
    (hdisj : b.black &&& b.white = 0) (hm : m ∈ get_moves b c) :
    popcountll ((make_move b m c).side c) =
        popcountll (b.side c) + 1 + popcountll (to_flip (b.side c) (b.side (!c)) m) ∧
    popcountll ((make_move b m c).side (!c)) + popcountll (to_flip (b.side c) (b.side (!c)) m) =
        popcountll (b.side (!c)) := by
  obtain ⟨i, hi, rfl, hpi, hoi, hbits⟩ := make_move_bits b c m hdisj hm
  have hd := side_disjoint b c hdisj
  have hF := fun j => to_flip_testBit (b.side c) (b.side (!c)) i j hd hi
  unfold popcountll
  constructor
  · rw [countP_add (fun j => ((make_move b (1 <<< i) c).side c).testBit j)
        (fun j => (b.side c).testBit j)
        (fun j => decide (j = i) || (to_flip (b.side c) (b.side (!c)) (1 <<< i)).testBit j),
      countP_add (fun j => decide (j = i) || (to_flip (b.side c) (b.side (!c)) (1 <<< i)).testBit j)
        (fun j => decide (j = i))
        (fun j => (to_flip (b.side c) (b.side (!c)) (1 <<< i)).testBit j),
      countP_single i hi]
    · omega
    · intro j _
      apply bool_toNat_eq
      · simp
      · rintro ⟨h1, h2⟩
        have ho := Flipped_opp ((hF j).1 h2)
        rw [decide_eq_true_eq] at h1
        subst h1
        rw [hoi] at ho
        exact Bool.noConfusion ho
    · intro j _
      apply bool_toNat_eq
      · rw [(hbits j).1, Bool.or_eq_true, decide_eq_true_eq, hF j]
      · rintro ⟨h1, h2⟩
        rw [Bool.or_eq_true, decide_eq_true_eq, hF j] at h2
        rcases h2 with rfl | h2
        · rw [hpi] at h1
          exact Bool.noConfusion h1
        · exact disjoint_bits hd j ⟨h1, Flipped_opp h2⟩
  · symm
    apply countP_add
    intro j _
    apply bool_toNat_eq
    · rw [(hbits j).2, hF j]
      constructor
      · intro ho
        by_cases hfl : Flipped (b.side c) (b.side (!c)) i j
        · exact Or.inr hfl
        · exact Or.inl ⟨ho, hfl⟩
      · rintro (⟨ho, _⟩ | hfl)
        · exact ho
        · exact Flipped_opp hfl
    · rintro ⟨h1, h2⟩
      rw [(hbits j).2] at h1
      exact h1.2 ((hF j).1 h2)

theorem make_move_disjoint (b : Board) (c : Bool) (m : Nat)
    (hdisj : b.black &&& b.white = 0) (hm : m ∈ get_moves b c) :
    (make_move b m c).black &&& (make_move b m c).white = 0 := by
  obtain ⟨i, hi, rfl, hpi, hoi, hbits⟩ := make_move_bits b c m hdisj hm
  have hd := side_disjoint b c hdisj
  have key : (make_move b (1 <<< i) c).side c &&& (make_move b (1 <<< i) c).side (!c) = 0 := by
    apply Nat.eq_of_testBit_eq
    intro j
    rw [Nat.zero_testBit, Nat.testBit_and]
    cases h1 : ((make_move b (1 <<< i) c).side c).testBit j
    · rfl
    · cases h2 : ((make_move b (1 <<< i) c).side (!c)).testBit j
      · rfl
      · exfalso
        obtain ⟨ho, hnf⟩ := (hbits j).2.1 h2
        rcases (hbits j).1.1 h1 with hp | rfl | hfl
        · exact disjoint_bits hd j ⟨hp, ho⟩
        · rw [hoi] at ho
          exact Bool.noConfusion ho
        · exact hnf hfl
  cases c
  · simpa [Board.side, Nat.land_comm] using key
  · simpa [Board.side] using key

theorem flipped_set_eq (b : Board) (c : Bool) (m : Nat)
    (hdisj : b.black &&& b.white = 0) (hm : m ∈ get_moves b c) :
    b.side (!c) &&& (make_move b m c).side c = to_flip (b.side c) (b.side (!c)) m := by
  obtain ⟨i, hi, rfl, hpi, hoi, hbits⟩ := make_move_bits b c m hdisj hm
  have hd := side_disjoint b c hdisj
  apply Nat.eq_of_testBit_eq
  intro j
  rw [Bool.eq_iff_iff, Nat.testBit_and, Bool.and_eq_true, (hbits j).1,
    to_flip_testBit _ _ i j hd hi]
  constructor
  · rintro ⟨ho, hp | rfl | hfl⟩
    · exact absurd ⟨hp, ho⟩ (disjoint_bits hd j)
    · rw [hoi] at ho
      exact Bool.noConfusion ho
    · exact hfl
  · intro hfl
    exact ⟨Flipped_opp hfl, Or.inr (Or.inr hfl)⟩

theorem popcountll_or_disjoint (x y : Nat) (h : x &&& y = 0) :
    popcountll (x ||| y) = popcountll x + popcountll y := by
  unfold popcountll
  apply countP_add
  intro j _
  apply bool_toNat_eq
  · rw [Nat.testBit_or, Bool.or_eq_true]
  · exact disjoint_bits h j

/-! ## Lemmas: the hash loops -/

theorem testBit_xor_bit (x i j : Nat) :
    (x ^^^ (1 <<< i)).testBit j = (x.testBit j ^^ decide (i = j)) := by
  rw [Nat.testBit_xor, testBit_bit]

theorem xor_fold_acc (k : Nat → Nat) (bits : Nat) : ∀ (L : List Nat) (a : Nat),
    L.foldl (fun h i => if bits.testBit i then h ^^^ k i else h) a =
      a ^^^ L.foldl (fun h i => if bits.testBit i then h ^^^ k i else h) 0 := by
  intro L
  induction L with
  | nil => intro a; simp
  | cons x rest ih =>
    intro a
    rw [List.foldl_cons, List.foldl_cons, ih, ih (if bits.testBit x then 0 ^^^ k x else 0)]
    by_cases hx : bits.testBit x = true
    · simp [hx, Nat.xor_assoc]
    · simp [hx]

theorem xor_fold_congr (k : Nat → Nat) (x y : Nat) : ∀ (L : List Nat),
    (∀ j, j ∈ L → x.testBit j = y.testBit j) →
    L.foldl (fun h i => if x.testBit i then h ^^^ k i else h) 0 =
      L.foldl (fun h i => if y.testBit i then h ^^^ k i else h) 0 := by
  intro L
  induction L with
  | nil => intro _; rfl
  | cons a rest ih =>
    intro h
    rw [List.foldl_cons, List.foldl_cons, xor_fold_acc k x rest, xor_fold_acc k y rest,
      h a (List.mem_cons_self a rest), ih (fun j hj => h j (List.mem_cons_of_mem a hj))]

/-- Clearing a set bit `i` of the set takes the key of cell `i` out of the fold. -/
theorem xor_fold_clear (k : Nat → Nat) (x i : Nat) (hx : x.testBit i = true) :
    ∀ (L : List Nat), L.Nodup → i ∈ L →
    L.foldl (fun h j => if x.testBit j then h ^^^ k j else h) 0 =
      k i ^^^ L.foldl (fun h j => if (x ^^^ (1 <<< i)).testBit j then h ^^^ k j else h) 0 := by
  intro L
  induction L with
  | nil => intro _ h; simp at h
  | cons a rest ih =>
    intro hnd hmem
    rw [List.nodup_cons] at hnd
    rw [List.foldl_cons, List.foldl_cons, xor_fold_acc k x rest,
      xor_fold_acc k (x ^^^ (1 <<< i)) rest]
    by_cases hai : a = i
    · subst hai
      have hrest : ∀ j, j ∈ rest → x.testBit j = (x ^^^ (1 <<< a)).testBit j := by
        intro j hj
        have : ¬ a = j := fun h => hnd.1 (h ▸ hj)
        rw [testBit_xor_bit]
        simp [this]
      rw [xor_fold_congr k x (x ^^^ (1 <<< a)) rest hrest, testBit_xor_bit]
      simp [hx]
    · have hir : i ∈ rest := by
        rcases List.mem_cons.1 hmem with h | h
        · exact absurd h.symm hai
        · exact h
      have hia : ¬ i = a := fun h => hai h.symm
      rw [ih hnd.2 hir]
      have hxa : (x ^^^ (1 <<< i)).testBit a = x.testBit a := by
        rw [testBit_xor_bit]
        simp [hia]
      rw [hxa]
      by_cases hxa2 : x.testBit a = true
      · simp only [hxa2, if_true, Nat.zero_xor]
        rw [← Nat.xor_assoc, ← Nat.xor_assoc, Nat.xor_comm (k a) (k i)]
      · simp [hxa2]

theorem xor_keys_zero (Z : ZobristData) (c : Nat) : xor_keys Z c 0 = 0 := by
  unfold xor_keys
  have : ∀ (L : List Nat),
      L.foldl (fun h i => if (0 : Nat).testBit i then h ^^^ Z.squares i c else h) 0 = 0 := by
    intro L
    induction L with
    | nil => rfl
    | cons a rest ih => rw [List.foldl_cons]; simp [ih]
  exact this _

theorem xor_keys_clear (Z : ZobristData) (c x i : Nat) (hi : i < 64) (hx : x.testBit i = true) :
    xor_keys Z c x = Z.squares i c ^^^ xor_keys Z c (x ^^^ (1 <<< i)) := by
  unfold xor_keys
  exact xor_fold_clear (fun j => Z.squares j c) x i hx (List.range 64) (List.nodup_range 64)
    (List.mem_range.2 hi)

theorem eq_zero_of_low_bits (x : Nat) (hx : x < 2 ^ 64)
    (h : ∀ j, j < 64 → x.testBit j = false) : x = 0 := by
  apply Nat.eq_of_testBit_eq
  intro j
  rw [Nat.zero_testBit]
  by_cases hj : j < 64
  · exact h j hj
  · apply Nat.testBit_lt_two_pow
    exact Nat.lt_of_lt_of_le hx (Nat.pow_le_pow_right (by decide) (by omega))

/-- On a non-zero 64-bit value `ctzll` is the index of a set bit, below 64. -/
theorem ctzll_spec (x : Nat) (hx : x < 2 ^ 64) (h0 : x ≠ 0) :
    ctzll x < 64 ∧ x.testBit (ctzll x) = true := by
  unfold ctzll
  cases hf : (List.range 64).find? (fun i => x.testBit i) with
  | none =>
    exfalso
    apply h0
    apply eq_zero_of_low_bits x hx
    intro j hj
    have := List.find?_eq_none.1 hf j (List.mem_range.2 hj)
    simpa using this
  | some i =>
    simp only [Option.getD_some]
    exact ⟨List.mem_range.1 (List.mem_of_find?_eq_some hf), List.find?_some hf⟩

theorem clear_lt (x i : Nat) (hx : x < 2 ^ 64) (hi : i < 64) : x ^^^ (1 <<< i) < 2 ^ 64 := by
  apply Nat.xor_lt_two_pow hx
  rw [Nat.one_shiftLeft]
  exact Nat.pow_lt_pow_right (by decide) hi

theorem popcountll_clear (x i : Nat) (hi : i < 64) (hx : x.testBit i = true) :
    popcountll x = popcountll (x ^^^ (1 <<< i)) + 1 := by
  unfold popcountll
  rw [countP_add (fun j => x.testBit j) (fun j => (x ^^^ (1 <<< i)).testBit j)
    (fun j => decide (j = i)), countP_single i hi]
  intro j _
  simp only [testBit_xor_bit]
  by_cases hij : i = j
  · subst hij
    simp [hx]
  · have hji : ¬ j = i := fun h => hij h.symm
    simp [hij, hji]

theorem popcountll_eq_zero (x : Nat) (hx : x < 2 ^ 64) (h : popcountll x = 0) : x = 0 := by
  apply eq_zero_of_low_bits x hx
  intro j hj
  unfold popcountll at h
  rw [List.countP_eq_zero] at h
  have := h j (List.mem_range.2 hj)
  simpa using this

/-- With a budget of at least the number of set bits, a hash loop XORs into `hash` the
keys of the cells of the set, and leaves by its own condition. -/
theorem hash_loop_eq (Z : ZobristData) (c : Nat) : ∀ (fuel bits hash : Nat),
    bits < 2 ^ 64 → popcountll bits ≤ fuel →
      hash_loop Z c fuel bits hash = hash ^^^ xor_keys Z c bits := by
  intro fuel
  induction fuel with
  | zero =>
    intro bits hash hb hp
    have : bits = 0 := popcountll_eq_zero bits hb (by omega)
    subst this
    simp [hash_loop, xor_keys_zero]
  | succ f ih =>
    intro bits hash hb hp
    unfold hash_loop
    by_cases h0 : bits = 0
    · subst h0
      simp [xor_keys_zero]
    · rw [if_pos h0]
      obtain ⟨hi, ht⟩ := ctzll_spec bits hb h0
      simp only
      rw [ih _ _ (clear_lt bits _ hb hi) (by have := popcountll_clear bits _ hi ht; omega),
        xor_keys_clear Z c bits _ hi ht, Nat.xor_assoc]

theorem popcountll_le (x : Nat) : popcountll x ≤ 64 := by
  unfold popcountll
  have := List.countP_le_length (fun i => x.testBit i) (l := List.range 64)
  simpa using this

theorem xor_keys_toggle (Z : ZobristData) (c x i : Nat) (hi : i < 64) :
    xor_keys Z c (x ^^^ (1 <<< i)) = xor_keys Z c x ^^^ Z.squares i c := by
  cases hx : x.testBit i
  · have hy : (x ^^^ (1 <<< i)).testBit i = true := by
      rw [testBit_xor_bit]; simp [hx]
    have h := xor_keys_clear Z c (x ^^^ (1 <<< i)) i hi hy
    rw [Nat.xor_assoc, Nat.xor_self, Nat.xor_zero] at h
    rw [h, Nat.xor_comm]
  · have h := xor_keys_clear Z c x i hi hx
    rw [h, Nat.xor_comm (Z.squares i c), Nat.xor_assoc, Nat.xor_self, Nat.xor_zero]

theorem xor_keys_bit (Z : ZobristData) (c i : Nat) (hi : i < 64) :
    xor_keys Z c (1 <<< i) = Z.squares i c := by
  have h := xor_keys_toggle Z c 0 i hi
  rw [Nat.zero_xor, xor_keys_zero, Nat.zero_xor] at h
  exact h

/-- The full hash as the XOR of the keys of the occupied cells and the side key. -/
theorem compute_hash_xor (Z : ZobristData) (b : Board) (t : Bool)
    (hb : b.black < 2 ^ 64) (hw : b.white < 2 ^ 64) :
    compute_hash Z b t =
      (xor_keys Z 0 b.black ^^^ xor_keys Z 1 b.white) ^^^
        (if t then Z.black_to_move else 0) := by
  unfold compute_hash
  simp only
  rw [hash_loop_eq Z 0 64 b.black 0 hb (popcountll_le _),
    hash_loop_eq Z 1 64 b.white _ hw (popcountll_le _), Nat.zero_xor]
  cases t <;> simp

theorem xor_seven (a b c d e f g : Nat) :
    ((((a ^^^ b) ^^^ (c ^^^ d)) ^^^ g) ^^^ e ^^^ g) ^^^ ((((e ^^^ f) ^^^ a) ^^^ b) ^^^ d) =
      f ^^^ c := by
  apply Nat.eq_of_testBit_eq
  intro j
  simp only [Nat.testBit_xor]
  cases a.testBit j <;> cases b.testBit j <;> cases c.testBit j <;> cases d.testBit j <;>
    cases e.testBit j <;> cases f.testBit j <;> cases g.testBit j <;> rfl

/-! ## Lemmas: the move list -/

theorem get_moves_nodup (b : Board) (c : Bool) : (get_moves b c).Nodup := by
  unfold get_moves
  apply List.Nodup.filter
  apply List.Nodup.map _ (List.nodup_range _)
  intro i j h
  exact bit_inj h

theorem Flipped_legal {p o i j : Nat} (h : Flipped p o i j) : LegalCell p o i := by
  obtain ⟨dr, dc, hdir, n, hb, _⟩ := h
  exact ⟨dr, dc, hdir, n, hb⟩

theorem xor_bit_eq_or (p i : Nat) (h : p.testBit i = false) : p ^^^ (1 <<< i) = p ||| (1 <<< i) := by
  apply Nat.eq_of_testBit_eq
  intro j
  rw [Nat.testBit_xor, Nat.testBit_or, testBit_bit]
  by_cases hij : i = j
  · subst hij
    simp [h]
  · simp [hij]

/-! ## Lemmas: the transposition table -/

theorem tag_matches (hash : Nat) : (((hash &&& KEY_MASK) ^^^ hash) &&& KEY_MASK) = 0 := by
  apply Nat.eq_of_testBit_eq
  intro j
  simp only [Nat.testBit_and, Nat.testBit_xor, Nat.zero_testBit]
  cases hash.testBit j <;> cases KEY_MASK.testBit j <;> rfl

theorem toInt16_of_range {x : Int} (h1 : -32768 ≤ x) (h2 : x ≤ 32767) : toInt16 x = x := by
  unfold toInt16
  omega

theorem toInt32_of_range {x : Int} (h1 : -2147483648 ≤ x) (h2 : x ≤ 2147483647) :
    toInt32 x = x := by
  unfold toInt32
  omega

theorem toInt16_le (x : Int) : toInt16 x ≤ 32767 := by
  unfold toInt16
  omega

theorem toInt16_le_self {x : Int} (h : 0 ≤ x) : toInt16 x ≤ x := by
  unfold toInt16
  omega

theorem KEY_MASK_bit : ∀ j, 16 ≤ j → j < 64 → KEY_MASK.testBit j = true := by
  intro j h1 h2
  have key : ∀ k < 64, 16 ≤ k → KEY_MASK.testBit k = true := by decide
  exact key j h2 h1

/-- The slot index and the tag together determine a 64-bit hash. -/
theorem slot_and_tag_inj {h h2 : Nat} (hh : h < 2 ^ 64) (hh2 : h2 < 2 ^ 64)
    (hslot : h2 % TABLE_SIZE = h % TABLE_SIZE)
    (htag : (((h2 &&& KEY_MASK) ^^^ h) &&& KEY_MASK) = 0) : h2 = h := by
  apply Nat.eq_of_testBit_eq
  intro j
  by_cases hj : j < 20
  · have e : TABLE_SIZE = 2 ^ 20 := by decide
    rw [e] at hslot
    have := congrArg (fun y => y.testBit j) hslot
    simp only [Nat.testBit_mod_two_pow, hj, decide_True, Bool.true_and] at this
    exact this
  · by_cases hj2 : j < 64
    · have := congrArg (fun y => y.testBit j) htag
      simp only [Nat.testBit_and, Nat.testBit_xor, Nat.zero_testBit,
        KEY_MASK_bit j (by omega) hj2, Bool.and_true] at this
      cases h1 : h2.testBit j <;> cases h3 : h.testBit j <;> simp [h1, h3] at this ⊢
    · have hp : 2 ^ 64 ≤ 2 ^ j := Nat.pow_le_pow_right (by decide) (by omega)
      rw [Nat.testBit_lt_two_pow (Nat.lt_of_lt_of_le hh hp),
        Nat.testBit_lt_two_pow (Nat.lt_of_lt_of_le hh2 hp)]

/-- The slot of `store` after a write. -/
theorem store_slot_of_writes (t : TranspositionTable) (hash : Nat) (depth value : Int)
    (type : EntryType) (move : Nat) (hw : t.writes hash depth) :
    (t.store hash depth value type move).table (hash % TABLE_SIZE) =
      { key := hash &&& KEY_MASK, value := toInt32 value, depth := toInt16 depth,
        type := type, best_move := move, generation := t.current_generation } := by
  unfold TranspositionTable.writes at hw
  unfold TranspositionTable.store
  simp only
  rw [if_pos hw]
  simp

theorem store_of_not_writes (t : TranspositionTable) (hash : Nat) (depth value : Int)
    (type : EntryType) (move : Nat) (hw : ¬ t.writes hash depth) :
    t.store hash depth value type move = t := by
  unfold TranspositionTable.writes at hw
  unfold TranspositionTable.store
  simp only
  rw [if_neg hw]

theorem store_other_slot (t : TranspositionTable) (hash : Nat) (depth value : Int)
    (type : EntryType) (move i : Nat) (hi : i ≠ hash % TABLE_SIZE) :
    (t.store hash depth value type move).table i = t.table i := by
  unfold TranspositionTable.store
  simp only
  split
  · simp [hi]
  · rfl

theorem store_generation (t : TranspositionTable) (hash : Nat) (depth value : Int)
    (type : EntryType) (move : Nat) :
    (t.store hash depth value type move).current_generation = t.current_generation := by
  unfold TranspositionTable.store
  simp only
  split <;> rfl

/-- A slot that is value-initialised, or whose tag differs from the hash, is a miss. -/
theorem probe_miss (t : TranspositionTable) (h : Nat) (depth alpha beta value : Int) (bm : Nat)
    (hslot : t.table (h % TABLE_SIZE) = TTEntry.zero ∨
      (((t.table (h % TABLE_SIZE)).key ^^^ h) &&& KEY_MASK) ≠ 0) :
    t.probe h depth alpha beta value bm =
      { hit := false, alpha := alpha, beta := beta, value := value, best_move := bm } := by
  unfold TranspositionTable.probe
  simp only
  rcases hslot with hz | hne
  · rw [hz]
    split
    · rfl
    · simp [TTEntry.zero]
  · rw [if_pos hne]

theorem run_keeps_miss (h : Nat) (hh : h < 2 ^ 64) : ∀ (ops : List TTOp) (t : TranspositionTable),
    NeverStored h ops →
    (t.table (h % TABLE_SIZE) = TTEntry.zero ∨
      (((t.table (h % TABLE_SIZE)).key ^^^ h) &&& KEY_MASK) ≠ 0) →
    ((t.run ops).table (h % TABLE_SIZE) = TTEntry.zero ∨
      ((((t.run ops).table (h % TABLE_SIZE)).key ^^^ h) &&& KEY_MASK) ≠ 0) := by
  intro ops
  induction ops with
  | nil => intro t _ h0; exact h0
  | cons op rest ih =>
    intro t hns h0
    have hrest : NeverStored h rest := fun a b c d e hm => hns a b c d e (List.mem_cons_of_mem _ hm)
    have hrun : t.run (op :: rest) = (t.apply op).run rest := rfl
    rw [hrun]
    apply ih (t.apply op) hrest
    cases op with
    | new_search => exact h0
    | store hash depth value type bm =>
      obtain ⟨hlt, hne⟩ := hns hash depth value type bm (List.mem_cons_self _ _)
      have happ : t.apply (TTOp.store hash depth value type bm) =
          t.store hash depth value type bm := rfl
      rw [happ]
      by_cases hs : h % TABLE_SIZE = hash % TABLE_SIZE
      · by_cases hw : t.writes hash depth
        · right
          rw [hs, store_slot_of_writes t hash depth value type bm hw]
          intro htag
          exact hne (slot_and_tag_inj hh hlt hs.symm htag)
        · rw [store_of_not_writes t hash depth value type bm hw]
          exact h0
      · rw [store_other_slot t hash depth value type bm _ hs]
        exact h0

/-! ## Lemmas: the evaluator -/

theorem phase_evaluation_eq (P : GamePhase) (b : Board) :
    phase_evaluation P b =
      (Weights.of P).corner * corner_diff b + positional_diff b +
        (Weights.of P).edge * edge_diff b + (Weights.of P).mobility * mobility_diff b +
        (Weights.of P).disc * disc_diff b := by
  unfold phase_evaluation corner_diff positional_diff edge_diff mobility_diff disc_diff
  ring

theorem evaluate_eq_phase (b : Board) :
    evaluate b =
      (if popcountll (b.black ||| b.white) ≥ 56 then
        disc_diff b * 100 +
          (((64 : Int) - (popcountll (b.black ||| b.white) : Int)) % 2) *
            (if disc_diff b > 0 then 50 else -50)
      else 0) + phase_evaluation (phase_of b) b := by
  unfold evaluate phase_of disc_diff
  simp only
  by_cases h56 : popcountll (b.black ||| b.white) ≥ 56
  · have h56i : (popcountll (b.black ||| b.white) : Int) ≥ 56 := by exact_mod_cast h56
    rw [if_pos h56i, if_pos h56, if_pos h56]
  · have h56i : ¬ (popcountll (b.black ||| b.white) : Int) ≥ 56 := by
      intro h; apply h56; exact_mod_cast h
    rw [if_neg h56i, if_neg h56, if_neg h56]
    by_cases h40 : popcountll (b.black ||| b.white) ≥ 40
    · have h40i : (popcountll (b.black ||| b.white) : Int) ≥ 40 := by exact_mod_cast h40
      rw [if_pos h40i, if_pos h40]
      simp
    · have h40i : ¬ (popcountll (b.black ||| b.white) : Int) ≥ 40 := by
        intro h; apply h40; exact_mod_cast h
      rw [if_neg h40i, if_neg h40]
      simp

/-! ## Lemmas: the lowest set bit and the mobility loop -/

theorem mod_two_pow_eq_zero (x i : Nat) (h : ∀ j, j < i → x.testBit j = false) :
    x % 2 ^ i = 0 := by
  apply Nat.eq_of_testBit_eq
  intro j
  rw [Nat.testBit_mod_two_pow, Nat.zero_testBit]
  by_cases hj : j < i
  · simp [h j hj]
  · simp [hj]

/-- Below the lowest set bit of `x`, `x - 1` has that bit clear. -/
theorem pred_testBit_lowest (x i : Nat) (hi : x.testBit i = true)
    (hlow : ∀ j, j < i → x.testBit j = false) : (x - 1).testBit i = false := by
  have hmod := mod_two_pow_eq_zero x i hlow
  have hq : x / 2 ^ i % 2 = 1 := by
    have := hi
    rw [Nat.testBit_to_div_mod, decide_eq_true_eq] at this
    exact this
  have hx : x = 2 ^ i * (x / 2 ^ i) := by
    have := Nat.div_add_mod x (2 ^ i)
    omega
  have hpos : 0 < 2 ^ i := Nat.two_pow_pos i
  generalize x / 2 ^ i = q at hq hx
  obtain ⟨r, rfl⟩ : ∃ r, q = r + 1 := ⟨q - 1, by omega⟩
  have hreven : r % 2 = 0 := by omega
  have hsub : x - 1 = 2 ^ i * r + (2 ^ i - 1) := by
    rw [hx, Nat.mul_succ]
    generalize 2 ^ i * r = y
    generalize 2 ^ i = p at hpos
    omega
  rw [hsub, Nat.testBit_mul_pow_two_add _ (by omega : 2 ^ i - 1 < 2 ^ i)]
  simp only [Nat.lt_irrefl, if_false, Nat.sub_self, Nat.testBit_zero, decide_eq_false_iff_not]
  omega

/-- The lowest set bit of a non-zero 64-bit value is set in `x & -x`. -/
theorem and_neg64_ne_zero (x : Nat) (hx : x < 2 ^ 64) (h0 : x ≠ 0) : x &&& neg64 x ≠ 0 := by
  have hex : ∃ i, x.testBit i = true := Nat.ne_zero_implies_bit_true h0
  have hi := Nat.find_spec hex
  have hlow : ∀ j, j < Nat.find hex → x.testBit j = false := by
    intro j hj
    have := Nat.find_min hex hj
    simpa using this
  have hi64 : Nat.find hex < 64 := by
    by_contra hge
    have : x < 2 ^ Nat.find hex :=
      Nat.lt_of_lt_of_le hx (Nat.pow_le_pow_right (by decide) (Nat.le_of_not_lt hge))
    rw [Nat.testBit_lt_two_pow this] at hi
    exact Bool.noConfusion hi
  have hneg : neg64 x = 2 ^ 64 - (x - 1 + 1) := by
    unfold neg64
    have : x - 1 + 1 = x := by omega
    rw [this]
    apply Nat.mod_eq_of_lt
    omega
  intro hz
  have := congrArg (fun y => y.testBit (Nat.find hex)) hz
  simp only [Nat.testBit_and, Nat.zero_testBit, hi, Bool.true_and] at this
  rw [hneg, Nat.testBit_two_pow_sub_succ (by omega : x - 1 < 2 ^ 64),
    pred_testBit_lowest x _ hi hlow] at this
  simp [hi64] at this

theorem popcountll_ne_zero (x : Nat) (hx : x < 2 ^ 64) (h0 : x ≠ 0) : 1 ≤ popcountll x := by
  by_contra h
  exact h0 (popcountll_eq_zero x hx (by omega))

/-- With a budget of at least the number of set bits, the mobility loop ORs the whole of
`candidates` into `mobility`, and leaves by its own condition. -/
theorem mobility_loop_eq : ∀ (fuel candidates mobility : Nat),
    candidates < 2 ^ 64 → popcountll candidates ≤ fuel →
      mobility_loop fuel candidates mobility = mobility ||| candidates := by
  intro fuel
  induction fuel with
  | zero =>
    intro c m hc hp
    have : c = 0 := popcountll_eq_zero c hc (by omega)
    subst this
    simp [mobility_loop]
  | succ f ih =>
    intro c m hc hp
    unfold mobility_loop
    by_cases h0 : c = 0
    · subst h0
      simp
    · rw [if_pos h0]
      simp only
      have hsq_lt : c &&& neg64 c < 2 ^ 64 := Nat.lt_of_le_of_lt Nat.and_le_left hc
      have hsq_ne := and_neg64_ne_zero c hc h0
      have hc' : c ^^^ (c &&& neg64 c) < 2 ^ 64 := Nat.xor_lt_two_pow hc hsq_lt
      have hcount : popcountll c =
          popcountll (c ^^^ (c &&& neg64 c)) + popcountll (c &&& neg64 c) := by
        unfold popcountll
        apply countP_add
        intro j _
        simp only [Nat.testBit_xor, Nat.testBit_and]
        cases c.testBit j <;> cases (neg64 c).testBit j <;> rfl
      have h1 := popcountll_ne_zero _ hsq_lt hsq_ne
      rw [ih _ _ hc' (by omega)]
      apply Nat.eq_of_testBit_eq
      intro j
      simp only [Nat.testBit_or, Nat.testBit_xor, Nat.testBit_and]
      cases m.testBit j <;> cases c.testBit j <;> cases (neg64 c).testBit j <;> rfl

theorem not64_lt (x : Nat) (hx : x < 2 ^ 64) : not64 x < 2 ^ 64 := by
  unfold not64
  exact Nat.xor_lt_two_pow (by norm_num) hx

/-- The mobility count is the number of empty cells next to an opponent disc. -/
theorem calculate_mobility_eq (IsBlack : Bool) (b : Board)
    (hb : b.black < 2 ^ 64) (hw : b.white < 2 ^ 64) :
    calculate_mobility IsBlack b =
      (popcountll (frontier (b.side IsBlack) (b.side (!IsBlack))) : Int) := by
  have hside : b.side IsBlack ||| b.side (!IsBlack) < 2 ^ 64 := by
    rw [side_or]
    exact Nat.or_lt_two_pow hb hw
  have hstep : (fun mobility dir =>
      mobility_loop 64 (shift (b.side (!IsBlack)) dir &&&
        not64 (b.side IsBlack ||| b.side (!IsBlack))) mobility) =
      (fun acc dir => acc ||| (shift (b.side (!IsBlack)) dir &&&
        not64 (b.side IsBlack ||| b.side (!IsBlack)))) := by
    funext mobility dir
    apply mobility_loop_eq
    · exact Nat.and_lt_two_pow _ (not64_lt _ hside)
    · exact popcountll_le _
  have hdef : calculate_mobility IsBlack b =
      (popcountll ((List.range 8).foldl (fun mobility dir =>
        mobility_loop 64 (shift (b.side (!IsBlack)) dir &&&
          not64 (b.side IsBlack ||| b.side (!IsBlack))) mobility) 0) : Int) := by
    cases IsBlack <;> rfl
  rw [hdef, hstep]
  rfl

/-! ## Lemmas: the range of the evaluator -/

theorem positional_entry_bound (i : Nat) :
    -1000 ≤ POSITIONAL_TABLE.getD i 0 ∧ POSITIONAL_TABLE.getD i 0 ≤ 1000 := by
  by_cases hi : i < 64
  · have key : ∀ k < 64, -1000 ≤ POSITIONAL_TABLE.getD k 0 ∧ POSITIONAL_TABLE.getD k 0 ≤ 1000 := by
      decide
    exact key i hi
  · have : POSITIONAL_TABLE.getD i 0 = 0 := by
      rw [List.getD_eq_getElem?_getD, List.getElem?_eq_none]
      · rfl
      · simp [POSITIONAL_TABLE]; omega
    rw [this]
    omega

theorem positional_fold_bound (pieces : Nat) : ∀ (L : List Nat) (acc : Int),
    acc - 1000 * (L.length : Int) ≤
        L.foldl (fun score i =>
          if (pieces &&& (1 <<< i)) ≠ 0 then score + POSITIONAL_TABLE.getD i 0 else score) acc ∧
      L.foldl (fun score i =>
          if (pieces &&& (1 <<< i)) ≠ 0 then score + POSITIONAL_TABLE.getD i 0 else score) acc ≤
        acc + 1000 * (L.length : Int) := by
  intro L
  induction L with
  | nil => intro acc; simp
  | cons i rest ih =>
    intro acc
    rw [List.foldl_cons, List.length_cons]
    have hb := positional_entry_bound i
    by_cases hc : (pieces &&& (1 <<< i)) ≠ 0
    · rw [if_pos hc]
      have := ih (acc + POSITIONAL_TABLE.getD i 0)
      push_cast
      omega
    · rw [if_neg hc]
      have := ih acc
      push_cast
      omega

theorem get_positional_score_bound (pieces : Nat) :
    -64000 ≤ get_positional_score pieces ∧ get_positional_score pieces ≤ 64000 := by
  have := positional_fold_bound pieces (List.range 64) 0
  rw [List.length_range] at this
  unfold get_positional_score
  omega

theorem edge_stability_bound (player : Nat) :
    0 ≤ edge_stability player ∧ edge_stability player ≤ 256 := by
  unfold edge_stability STABLE_MASK
  simp only [List.foldl_cons, List.foldl_nil]
  have h1 := popcountll_le (player &&& 0xFF000000000000FF)
  have h2 := popcountll_le (player &&& 0xE7000000000000E7)
  have h3 := popcountll_le (player &&& 0xC3000000000000C3)
  have h4 := popcountll_le (player &&& 0x8100000000000081)
  omega

theorem calculate_mobility_bound (c : Bool) (b : Board) :
    0 ≤ calculate_mobility c b ∧ calculate_mobility c b ≤ 64 := by
  unfold calculate_mobility
  simp only
  have := popcountll_le ((List.range 8).foldl (fun mobility dir =>
    mobility_loop 64 (shift (if c = true then b.white else b.black) dir &&&
      not64 ((if c = true then b.black else b.white) |||
        (if c = true then b.white else b.black))) mobility) 0)
  omega

theorem phase_evaluation_bound (P : GamePhase) (b : Board) :
    -130000 ≤ phase_evaluation P b ∧ phase_evaluation P b ≤ 130000 := by
  rw [phase_evaluation_eq]
  unfold corner_diff positional_diff edge_diff mobility_diff disc_diff
  have h1 := popcountll_le (b.black &&& CORNERS)
  have h2 := popcountll_le (b.white &&& CORNERS)
  have h3 := get_positional_score_bound b.black
  have h4 := get_positional_score_bound b.white
  have h5 := edge_stability_bound b.black
  have h6 := edge_stability_bound b.white
  have h7 := calculate_mobility_bound true b
  have h8 := calculate_mobility_bound false b
  have h9 := popcountll_le b.black
  have h10 := popcountll_le b.white
  cases P <;> simp only [Weights.of] <;> omega

/-- The evaluator stays far inside the sentinel `INF` of the search. -/
theorem evaluate_bound (b : Board) : -140000 ≤ evaluate b ∧ evaluate b ≤ 140000 := by
  rw [evaluate_eq_phase]
  have hp := phase_evaluation_bound (phase_of b) b
  have h9 := popcountll_le b.black
  have h10 := popcountll_le b.white
  have h11 := popcountll_le (b.black ||| b.white)
  unfold disc_diff
  split
  · split <;> omega
  · omega

/-! ## Lemmas: the timeout flag -/

theorem check_timeout_sticky (clock : Nat → Int) (s : Search) (h : s.timeout = true) :
    check_timeout clock s = (true, s) := by
  unfold check_timeout
  simp [h]

theorem check_timeout_cases (clock : Nat → Int) (s : Search) (h : s.timeout = false) :
    (clock s.polls > s.time_limit ∧
      check_timeout clock s = (true, { s with timeout := true, polls := s.polls + 1 })) ∨
    (¬ clock s.polls > s.time_limit ∧
      check_timeout clock s = (false, { s with polls := s.polls + 1 })) := by
  unfold check_timeout
  by_cases hc : clock s.polls > s.time_limit
  · left
    simp [h, hc]
  · right
    simp [h, hc]

theorem move_loop_sticky (Z : ZobristData) (clock : Nat → Int)
    (child : Search → Board → Nat → Int → Int → SearchResult × Search)
    (board : Board) (hash : Nat) (turn : Bool) (moves : List Nat) (s : Search)
    (best : SearchResult) (alpha beta : Int) (h : s.timeout = true) :
    (move_loop Z clock child board hash turn moves s best alpha beta).2.2 = s := by
  cases moves with
  | nil => rfl
  | cons m rest =>
    unfold move_loop
    rw [check_timeout_sticky clock s h]

/-! ## Lemmas: the move loop -/

theorem update_best_in (turn : Bool) (M : List Nat) (best : SearchResult) (alpha beta : Int)
    (move : Nat) (v : Int) (hm : move ∈ M) (hv : Finite v)
    (hbest : best.value = (if turn then -INF else INF) ∨ BestIn M best) :
    BestIn M (update_best turn best alpha beta move v).1 := by
  unfold update_best
  unfold Finite at hv
  cases turn
  · simp only [Bool.false_eq_true, if_false]
    by_cases hc : v < best.value
    · rw [if_pos hc]
      exact ⟨hm, hv⟩
    · rw [if_neg hc]
      rcases hbest with h | h
      · simp only [Bool.false_eq_true, if_false] at h
        omega
      · exact h
  · simp only [if_true]
    by_cases hc : v > best.value
    · rw [if_pos hc]
      exact ⟨hm, hv⟩
    · rw [if_neg hc]
      rcases hbest with h | h
      · simp only [if_true] at h
        omega
      · exact h

/-- The move loop under a child computation that keeps the contract: either a timeout was
recorded, or the loop ended without `return`, the table invariant holds and, once a move
was tried, the running best holds one of the moves with a value between the sentinels. -/
theorem move_loop_contract (Z : ZobristData) (clock : Nat → Int)
    (child : Search → Board → Nat → Int → Int → SearchResult × Search)
    (board : Board) (hash : Nat) (turn : Bool) (D : Int) (M : List Nat)
    (hchild : ChildOK clock D child) :
    ∀ (moves : List Nat) (s : Search) (best : SearchResult) (alpha beta : Int),
      s.timeout = false → TTInv D s.tt → (∀ m, m ∈ moves → m ∈ M) →
      (best.value = (if turn then -INF else INF) ∨ BestIn M best) →
      (move_loop Z clock child board hash turn moves s best alpha beta).2.2.time_limit
          = s.time_limit ∧
      (((move_loop Z clock child board hash turn moves s best alpha beta).2.2.timeout = true ∧
          ∃ k, clock k > s.time_limit) ∨
        ((move_loop Z clock child board hash turn moves s best alpha beta).2.2.timeout = false ∧
          (move_loop Z clock child board hash turn moves s best alpha beta).1 = false ∧
          TTInv D (move_loop Z clock child board hash turn moves s best alpha beta).2.2.tt ∧
          ((BestIn M best ∨ moves ≠ []) →
            BestIn M (move_loop Z clock child board hash turn moves s best alpha beta).2.1))) := by
  intro moves
  induction moves with
  | nil =>
    intro s best alpha beta hto hinv _ _
    refine ⟨rfl, Or.inr ⟨hto, rfl, hinv, ?_⟩⟩
    rintro (h | h)
    · exact h
    · exact absurd rfl h
  | cons move rest ih =>
    intro s best alpha beta hto hinv hM hbest
    unfold move_loop
    rcases check_timeout_cases clock s hto with ⟨hfire, hct⟩ | ⟨hpass, hct⟩
    · rw [hct]
      exact ⟨rfl, Or.inl ⟨rfl, s.polls, hfire⟩⟩
    · rw [hct]
      simp only
      have hc := hchild { s with polls := s.polls + 1 } (make_move board move turn)
        (new_hash Z hash move turn) alpha beta hto hinv
      rcases hch : child { s with polls := s.polls + 1 } (make_move board move turn)
        (new_hash Z hash move turn) alpha beta with ⟨current, s3⟩
      rw [hch] at hc
      obtain ⟨hlim, hc⟩ := hc
      simp only at hlim hc ⊢
      rcases hub : update_best turn best alpha beta move current.value with ⟨best1, alpha1, beta1⟩
      simp only
      rcases hc with ⟨hto3, hk⟩ | ⟨hto3, hfin, hinv3⟩
      · -- the child timed out: the state stays as the child left it
        have hfinal : (if alpha1 ≥ beta1 then (false, best1, s3)
            else move_loop Z clock child board hash turn rest s3 best1 alpha1 beta1).2.2 = s3 := by
          split
          · rfl
          · exact move_loop_sticky Z clock child board hash turn rest s3 best1 alpha1 beta1 hto3
        rw [hfinal]
        exact ⟨hlim, Or.inl ⟨hto3, hk⟩⟩
      · have hb1 : BestIn M best1 := by
          have := update_best_in turn M best alpha beta move current.value
            (hM move (List.mem_cons_self _ _)) hfin hbest
          rw [hub] at this
          exact this
        by_cases hcut : alpha1 ≥ beta1
        · rw [if_pos hcut]
          exact ⟨hlim, Or.inr ⟨hto3, rfl, hinv3, fun _ => hb1⟩⟩
        · rw [if_neg hcut]
          have := ih s3 best1 alpha1 beta1 hto3 hinv3
            (fun m hm => hM m (List.mem_cons_of_mem _ hm)) (Or.inr hb1)
          obtain ⟨hl2, h2⟩ := this
          refine ⟨hl2.trans hlim, ?_⟩
          rcases h2 with ⟨ht, k, hk⟩ | ⟨ht, hr, hi, hb⟩
          · exact Or.inl ⟨ht, k, by rw [← hlim]; exact hk⟩
          · exact Or.inr ⟨ht, hr, hi, fun _ => hb (Or.inl hb1)⟩

/-! ## Lemmas: the table during a search -/

theorem Finite_toInt32 {v : Int} (h : Finite v) : toInt32 v = v := by
  unfold Finite INF at h
  exact toInt32_of_range (by omega) (by omega)

theorem evaluate_finite (b : Board) : Finite (evaluate b) := by
  have := evaluate_bound b
  unfold Finite INF
  omega

theorem TTInv_fresh : TTInv 0 TranspositionTable.init.new_search := by
  intro i
  have hz : TranspositionTable.init.new_search.table i = TTEntry.zero := rfl
  rw [hz]
  unfold Finite INF
  decide

theorem TTInv_mono {D D2 : Int} {t : TranspositionTable} (h : TTInv D t) (hle : D ≤ D2) :
    TTInv D2 t := by
  intro i
  exact ⟨(h i).1, le_trans (h i).2 hle⟩

theorem store_TTInv (D : Int) (t : TranspositionTable) (hash : Nat) (depth v : Int)
    (type : EntryType) (move : Nat) (hinv : TTInv D t) (hv : Finite v)
    (h0 : 0 ≤ depth) (hD : depth ≤ D) : TTInv D (t.store hash depth v type move) := by
  intro i
  by_cases hw : t.writes hash depth
  · by_cases hi : i = hash % TABLE_SIZE
    · subst hi
      rw [store_slot_of_writes t hash depth v type move hw]
      simp only [Finite_toInt32 hv]
      exact ⟨hv, le_trans (toInt16_le_self h0) hD⟩
    · rw [store_other_slot t hash depth v type move i hi]
      exact hinv i
  · rw [store_of_not_writes t hash depth v type move hw]
    exact hinv i

/-- A hit of `probe` reports the value of the slot. -/
theorem probe_hit_value (t : TranspositionTable) (hash : Nat) (depth alpha beta value : Int)
    (bm : Nat) (h : (t.probe hash depth alpha beta value bm).hit = true) :
    (t.probe hash depth alpha beta value bm).value = (t.table (hash % TABLE_SIZE)).value := by
  unfold TranspositionTable.probe at h ⊢
  simp only at h ⊢
  split
  · rename_i h1; rw [if_pos h1] at h; exact Bool.noConfusion h
  · rename_i h1
    rw [if_neg h1] at h
    split
    · rename_i h2; rw [if_pos h2] at h; exact Bool.noConfusion h
    · rename_i h2
      rw [if_neg h2] at h
      split
      · rename_i h3
        rw [if_pos h3] at h
        split
        · rfl
        · split
          · rfl
          · rename_i hty h4
            simp only [hty, if_neg h4] at h
            exact Bool.noConfusion h
        · split
          · rfl
          · rename_i hty h4
            simp only [hty, if_neg h4] at h
            exact Bool.noConfusion h
      · rename_i h3; rw [if_neg h3] at h; exact Bool.noConfusion h

/-- No slot deep enough: `probe` does not cut off. -/
theorem probe_no_hit_of_depth (t : TranspositionTable) (hash : Nat)
    (depth alpha beta value : Int) (bm : Nat)
    (h : (t.table (hash % TABLE_SIZE)).depth < depth) :
    (t.probe hash depth alpha beta value bm).hit = false := by
  unfold TranspositionTable.probe
  simp only
  split
  · rfl
  · split
    · rfl
    · rw [if_neg (by omega)]

/-! ## Lemmas: the move ordering -/

theorem order_moves_mem (moves : List Nat) (t m : Nat) (h : m ∈ order_moves moves t) :
    m ∈ moves := by
  unfold order_moves at h
  split at h
  · rename_i hc
    rcases List.mem_or_eq_of_mem_set h with h1 | rfl
    · rcases List.mem_or_eq_of_mem_set h1 with h2 | rfl
      · exact h2
      · cases moves with
        | nil => exact absurd hc.2 (List.not_mem_nil _)
        | cons a rest => simp
    · exact hc.2
  · exact h

theorem order_moves_ne_nil (moves : List Nat) (t : Nat) (h : moves ≠ []) :
    order_moves moves t ≠ [] := by
  unfold order_moves
  split
  · intro hnil
    have := congrArg List.length hnil
    simp only [List.length_set, List.length_nil] at this
    exact h (List.length_eq_zero.1 this)
  · exact h

/-! ## Lemmas: a node of the search -/

/-- A node whose children keep the contract keeps it; and when it neither times out nor
cuts off on the table, and the side to move has a move, it returns one of the moves. -/
theorem alpha_beta_node_contract (Z : ZobristData) (clock : Nat → Int)
    (child : Search → Board → Nat → Int → Int → SearchResult × Search) (D : Int)
    (hchild : ChildOK clock D child) (s : Search) (board : Board) (hash : Nat)
    (depth alpha beta : Int) (turn : Bool)
    (hto : s.timeout = false) (hinv : TTInv D s.tt) (h0 : 0 ≤ depth) (hD : depth ≤ D) :
    Contract clock D s (alpha_beta_node Z clock child s board hash depth alpha beta turn) ∧
    ((alpha_beta_node Z clock child s board hash depth alpha beta turn).2.timeout = false →
      (s.tt.probe hash depth alpha beta 0 0).hit = false →
      get_moves board turn ≠ [] →
      (alpha_beta_node Z clock child s board hash depth alpha beta turn).1.move ∈
        get_moves board turn) := by
  unfold alpha_beta_node
  simp only
  by_cases hhit : (s.tt.probe hash depth alpha beta 0 0).hit = true
  · rw [if_pos hhit]
    refine ⟨⟨rfl, Or.inr ⟨hto, ?_, hinv⟩⟩, ?_⟩
    · simp only
      rw [probe_hit_value _ _ _ _ _ _ _ hhit]
      exact (hinv _).1
    · intro _ hno
      rw [hhit] at hno
      exact Bool.noConfusion hno
  · rw [if_neg hhit]
    by_cases hempty : (get_moves board turn).isEmpty = true
    · rw [if_pos hempty]
      refine ⟨⟨rfl, Or.inr ⟨hto, evaluate_finite board, hinv⟩⟩, ?_⟩
      intro _ _ hne
      exact absurd (List.isEmpty_iff.1 hempty) hne
    · rw [if_neg hempty]
      have hne : get_moves board turn ≠ [] := fun h => hempty (List.isEmpty_iff.2 h)
      have hloop := move_loop_contract Z clock child board hash turn D (get_moves board turn)
        hchild (order_moves (get_moves board turn) (s.tt.probe hash depth alpha beta 0 0).best_move)
        s { move := 0, value := if turn = true then -INF else INF, depth := 0 } alpha beta
        hto hinv (fun m hm => order_moves_mem _ _ m hm) (Or.inl rfl)
      rcases hml : move_loop Z clock child board hash turn
        (order_moves (get_moves board turn) (s.tt.probe hash depth alpha beta 0 0).best_move)
        s { move := 0, value := if turn = true then -INF else INF, depth := 0 } alpha beta
        with ⟨ret, best, s2⟩
      rw [hml] at hloop
      simp only at hloop
      obtain ⟨hlim, hloop⟩ := hloop
      cases ret with
      | true =>
        simp only
        rcases hloop with ⟨ht, hk⟩ | ⟨_, hr, _⟩
        · refine ⟨⟨hlim, Or.inl ⟨ht, hk⟩⟩, ?_⟩
          intro hf
          rw [ht] at hf
          exact Bool.noConfusion hf
        · exact Bool.noConfusion hr
      | false =>
        simp only
        rcases hloop with ⟨ht, hk⟩ | ⟨ht, _, hinv2, hbest⟩
        · refine ⟨⟨hlim, Or.inl ⟨ht, hk⟩⟩, ?_⟩
          intro hf
          rw [ht] at hf
          exact Bool.noConfusion hf
        · have hb := hbest (Or.inr (order_moves_ne_nil _ _ hne))
          refine ⟨⟨hlim, Or.inr ⟨ht, hb.2, ?_⟩⟩, fun _ _ _ => hb.1⟩
          exact store_TTInv D s2.tt hash depth best.value _ best.move hinv2 hb.2 h0 hD

/-- Every node of depth `1 <= n <= D` keeps the contract. -/
theorem alpha_beta_contract (Z : ZobristData) (clock : Nat → Int) (D : Int) :
    ∀ (n : Nat) (s : Search) (board : Board) (hash : Nat) (alpha beta : Int) (turn : Bool),
      1 ≤ n → (n : Int) ≤ D → s.timeout = false → TTInv D s.tt →
        Contract clock D s (alpha_beta Z clock n s board hash alpha beta turn) := by
  intro n
  induction n with
  | zero => intro _ _ _ _ _ _ h; omega
  | succ n ih =>
    intro s board hash alpha beta turn _ hD hto hinv
    unfold alpha_beta
    rcases check_timeout_cases clock s hto with ⟨hfire, hct⟩ | ⟨_, hct⟩
    · rw [hct]
      exact ⟨rfl, Or.inl ⟨rfl, s.polls, hfire⟩⟩
    · rw [hct]
      simp only
      have hchild : ChildOK clock D (fun s new_board nh a b =>
          if n + 1 = 1 then ({ move := 0, value := evaluate new_board, depth := 0 }, s)
          else alpha_beta Z clock n s new_board nh a b (!turn)) := by
        intro s1 nb nh a b hto1 hinv1
        simp only
        by_cases h1 : n + 1 = 1
        · rw [if_pos h1]
          exact ⟨rfl, Or.inr ⟨hto1, evaluate_finite nb, hinv1⟩⟩
        · rw [if_neg h1]
          exact ih s1 nb nh a b (!turn) (by omega) (by push_cast at hD; omega) hto1 hinv1
      exact (alpha_beta_node_contract Z clock _ D hchild { s with polls := s.polls + 1 } board
        hash _ alpha beta turn hto hinv (by omega) hD).1

/-- The root of a pass of depth `n`, on a table whose entries are all shallower than `n`:
the contract holds, and without timeout the result is one of the moves of the side to
move. -/
theorem alpha_beta_root (Z : ZobristData) (clock : Nat → Int) (n : Nat) (s : Search)
    (board : Board) (hash : Nat) (alpha beta : Int) (turn : Bool)
    (hn : 1 ≤ n) (hto : s.timeout = false) (hinv : TTInv ((n : Int) - 1) s.tt)
    (hne : get_moves board turn ≠ []) :
    Contract clock (n : Int) s (alpha_beta Z clock n s board hash alpha beta turn) ∧
    ((alpha_beta Z clock n s board hash alpha beta turn).2.timeout = false →
      (alpha_beta Z clock n s board hash alpha beta turn).1.move ∈ get_moves board turn) := by
  obtain ⟨n, rfl⟩ : ∃ k, n = k + 1 := ⟨n - 1, by omega⟩
  have hinvD : TTInv ((n + 1 : Nat) : Int) s.tt := TTInv_mono hinv (by omega)
  refine ⟨alpha_beta_contract Z clock _ (n + 1) s board hash alpha beta turn hn (le_refl _)
    hto hinvD, ?_⟩
  unfold alpha_beta
  rcases check_timeout_cases clock s hto with ⟨_, hct⟩ | ⟨_, hct⟩
  · rw [hct]
    intro hf
    exact Bool.noConfusion hf
  · rw [hct]
    simp only
    have hchild : ChildOK clock ((n + 1 : Nat) : Int) (fun s new_board nh a b =>
        if n + 1 = 1 then ({ move := 0, value := evaluate new_board, depth := 0 }, s)
        else alpha_beta Z clock n s new_board nh a b (!turn)) := by
      intro s1 nb nh a b hto1 hinv1
      simp only
      by_cases h1 : n + 1 = 1
      · rw [if_pos h1]
        exact ⟨rfl, Or.inr ⟨hto1, evaluate_finite nb, hinv1⟩⟩
      · rw [if_neg h1]
        exact alpha_beta_contract Z clock _ n s1 nb nh a b (!turn) (by omega)
          (by push_cast; omega) hto1 hinv1
    have hnode := alpha_beta_node_contract Z clock _ _ hchild { s with polls := s.polls + 1 }
      board hash ((n + 1 : Nat) : Int) alpha beta turn hto hinvD (by omega) (le_refl _)
    intro hf
    apply hnode.2 hf _ hne
    apply probe_no_hit_of_depth
    have := (hinv (hash % TABLE_SIZE)).2
    simp only at this ⊢
    push_cast at this ⊢
    omega

/-! ## Lemmas: the deepening loop -/

/-- From a result that holds a move of the side to move, the deepening loop ends on such a
result: a pass either times out and is dropped, or returns a move of the side to move. -/
theorem deepen_good (Z : ZobristData) (clock : Nat → Int) (board : Board) (H : Nat)
    (turn : Bool) (hne : get_moves board turn ≠ []) :
    ∀ (left depth : Nat) (s : Search) (best : SearchResult),
      1 ≤ depth → s.timeout = false → TTInv ((depth : Int) - 1) s.tt →
      (best.move ∈ get_moves board turn ∧ 1 ≤ best.depth) →
      (deepen Z clock board H turn left depth s best).1.move ∈ get_moves board turn ∧
        1 ≤ (deepen Z clock board H turn left depth s best).1.depth := by
  intro left
  induction left with
  | zero =>
    intro depth s best _ _ _ hbest
    exact hbest
  | succ left ih =>
    intro depth s best hd hto hinv hbest
    unfold deepen
    obtain ⟨hcon, hmove⟩ := alpha_beta_root Z clock depth s board H (-INF) INF turn hd hto hinv hne
    rcases hab : alpha_beta Z clock depth s board H (-INF) INF turn with ⟨current, s2⟩
    rw [hab] at hcon hmove
    simp only at hmove ⊢
    cases hto2 : s2.timeout with
    | true =>
      simp only [if_true]
      exact hbest
    | false =>
      simp only [Bool.false_eq_true, if_false]
      have hm := hmove hto2
      obtain ⟨_, hc⟩ := hcon
      rcases hc with ⟨ht, _⟩ | ⟨_, _, hinv2⟩
      · simp only at ht
        rw [hto2] at ht
        exact Bool.noConfusion ht
      · split
        · exact ⟨hm, by simp only; omega⟩
        · apply ih (depth + 1) s2 _ (by omega) hto2
          · simp only at hinv2
            have : ((depth + 1 : Nat) : Int) - 1 = (depth : Int) := by push_cast; omega
            rw [this]
            exact hinv2
          · exact ⟨hm, by simp only; omega⟩

/-- On a freshly constructed `Search`, with a move for the side to move and `max_depth >= 1`:
when the depth-1 pass sets the timeout flag the result is the default `SearchResult`, and
otherwise the result holds a move of the side to move and a depth of at least 1. -/
theorem iterative_deepening_fresh (Z : ZobristData) (clock : Nat → Int) (board : Board)
    (turn : Bool) (time_ms max_depth : Int) (hne : get_moves board turn ≠ [])
    (hmax : 1 ≤ max_depth) :
    ((first_pass Z clock board turn time_ms).2.timeout = true →
      (iterative_deepening Z clock Search.init board turn time_ms max_depth).1 =
        { move := 0, value := 0, depth := 0 }) ∧
    ((first_pass Z clock board turn time_ms).2.timeout = false →
      (iterative_deepening Z clock Search.init board turn time_ms max_depth).1.move ∈
          get_moves board turn ∧
        1 ≤ (iterative_deepening Z clock Search.init board turn time_ms max_depth).1.depth) := by
  obtain ⟨k, hk⟩ : ∃ k, max_depth.toNat = k + 1 := ⟨max_depth.toNat - 1, by omega⟩
  have hroot := alpha_beta_root Z clock 1 (first_state time_ms) board
    (compute_hash Z board turn) (-INF) INF turn (le_refl 1) rfl
    (by simpa using TTInv_fresh) hne
  have hunfold : (iterative_deepening Z clock Search.init board turn time_ms max_depth) =
      deepen Z clock board (compute_hash Z board turn) turn (k + 1) 1 (first_state time_ms)
        { move := 0, value := 0, depth := 0 } := by
    unfold iterative_deepening
    simp only [hk]
    rfl
  rw [hunfold]
  unfold deepen first_pass
  rcases hab : alpha_beta Z clock 1 (first_state time_ms) board (compute_hash Z board turn)
    (-INF) INF turn with ⟨current, s2⟩
  rw [hab] at hroot
  obtain ⟨hcon, hmove⟩ := hroot
  simp only at hmove ⊢
  constructor
  · intro ht
    rw [ht]
    simp
  · intro ht
    rw [ht]
    simp only [Bool.false_eq_true, if_false]
    have hm := hmove ht
    obtain ⟨_, hc⟩ := hcon
    rcases hc with ⟨ht2, _⟩ | ⟨_, _, hinv2⟩
    · simp only at ht2
      rw [ht] at ht2
      exact Bool.noConfusion ht2
    · split
      · exact ⟨hm, by simp⟩
      · apply deepen_good Z clock board _ turn hne k (1 + 1) s2 _ (by omega) ht
        · simpa using hinv2
        · exact ⟨hm, by simp⟩

/-- The depth-1 pass on a fresh `Search` sets the timeout flag when the first clock reading
exceeds the limit, and leaves it clear when no reading does. -/
theorem first_pass_timeout (Z : ZobristData) (clock : Nat → Int) (board : Board)
    (turn : Bool) (time_ms : Int) :
    (clock 0 > time_ms → (first_pass Z clock board turn time_ms).2.timeout = true) ∧
    ((∀ k, clock k ≤ time_ms) → (first_pass Z clock board turn time_ms).2.timeout = false) := by
  constructor
  · intro h
    unfold first_pass alpha_beta
    have : check_timeout clock (first_state time_ms) =
        (true, { first_state time_ms with timeout := true, polls := 0 + 1 }) := by
      unfold check_timeout first_state
      simp [h]
    rw [this]
  · intro h
    have hcon := alpha_beta_contract Z clock 1 1 (first_state time_ms) board
      (compute_hash Z board turn) (-INF) INF turn (le_refl 1) (le_refl _) rfl
      (TTInv_mono TTInv_fresh (by decide))
    obtain ⟨_, hc⟩ := hcon
    rcases hc with ⟨_, k, hk⟩ | ⟨ht, _⟩
    · have := h k
      have hl : (first_state time_ms).time_limit = time_ms := rfl
      rw [hl] at hk
      omega
    · exact ht

/-! ## Lemmas: the checked evaluator -/

theorem chk32_of_range {x : Int} (h : -2147483648 ≤ x ∧ x ≤ 2147483647) : chk32 x = some x := by
  unfold chk32
  rw [if_pos h]

theorem positional_foldlM (pieces : Nat) : ∀ (L : List Nat) (acc : Int),
    -2000000 ≤ acc - 1000 * (L.length : Int) → acc + 1000 * (L.length : Int) ≤ 2000000 →
    L.foldlM (fun score i =>
        if (pieces &&& (1 <<< i)) ≠ 0 then chk32 (score + POSITIONAL_TABLE.getD i 0)
        else some score) acc =
      some (L.foldl (fun score i =>
        if (pieces &&& (1 <<< i)) ≠ 0 then score + POSITIONAL_TABLE.getD i 0 else score) acc) := by
  intro L
  induction L with
  | nil => intro acc _ _; rfl
  | cons i rest ih =>
    intro acc h1 h2
    rw [List.foldlM_cons, List.foldl_cons]
    rw [List.length_cons] at h1 h2
    push_cast at h1 h2
    have hb := positional_entry_bound i
    by_cases hc : (pieces &&& (1 <<< i)) ≠ 0
    · rw [if_pos hc, if_pos hc, chk32_of_range (by omega)]
      exact ih _ (by omega) (by omega)
    · rw [if_neg hc, if_neg hc]
      exact ih _ (by omega) (by omega)

theorem get_positional_score_chk_eq (pieces : Nat) :
    get_positional_score_chk pieces = some (get_positional_score pieces) := by
  unfold get_positional_score_chk get_positional_score
  apply positional_foldlM
  · rw [List.length_range]; norm_num
  · rw [List.length_range]; norm_num

theorem edge_stability_chk_eq (player : Nat) :
    edge_stability_chk player = some (edge_stability player) := by
  unfold edge_stability_chk edge_stability STABLE_MASK
  have h1 := popcountll_le (player &&& 0xFF000000000000FF)
  have h2 := popcountll_le (player &&& 0xE7000000000000E7)
  have h3 := popcountll_le (player &&& 0xC3000000000000C3)
  have h4 := popcountll_le (player &&& 0x8100000000000081)
  simp only [List.foldlM_cons, List.foldlM_nil, List.foldl_cons, List.foldl_nil]
  rw [chk32_of_range (by omega)]
  simp only [Option.bind_eq_bind, Option.some_bind]
  rw [chk32_of_range (by omega)]
  simp only [Option.some_bind]
  rw [chk32_of_range (by omega)]
  simp only [Option.some_bind]
  rw [chk32_of_range (by omega)]
  rfl

theorem sub_chk_some (a b : Int) : sub_chk (some a) (some b) = chk32 (a - b) := rfl

theorem mul_chk_some (a b : Int) : mul_chk (some a) (some b) = chk32 (a * b) := rfl

theorem add_chk_some (a b : Int) : add_chk (some a) (some b) = chk32 (a + b) := rfl

theorem phase_evaluation_chk_eq (P : GamePhase) (b : Board) :
    phase_evaluation_chk P b = some (phase_evaluation P b) := by
  unfold phase_evaluation_chk phase_evaluation
  have h1 := popcountll_le (b.black &&& CORNERS)
  have h2 := popcountll_le (b.white &&& CORNERS)
  have h3 := get_positional_score_bound b.black
  have h4 := get_positional_score_bound b.white
  have h5 := edge_stability_bound b.black
  have h6 := edge_stability_bound b.white
  have h7 := calculate_mobility_bound true b
  have h8 := calculate_mobility_bound false b
  have h9 := popcountll_le b.black
  have h10 := popcountll_le b.white
  simp only [get_positional_score_chk_eq, edge_stability_chk_eq, sub_chk_some]
  cases P <;> simp only [Weights.of] <;>
    (repeat (first
      | rw [chk32_of_range (by omega)]
      | rw [mul_chk_some]
      | rw [add_chk_some]))

theorem evaluate_chk_eq (b : Board) : evaluate_chk b = some (evaluate b) := by
  unfold evaluate_chk evaluate
  have hp := phase_evaluation_bound GamePhase.LATE_GAME b
  have h9 := popcountll_le b.black
  have h10 := popcountll_le b.white
  have h11 := popcountll_le (b.black ||| b.white)
  simp only [phase_evaluation_chk_eq, sub_chk_some]
  split
  · rw [chk32_of_range (by omega), chk32_of_range (by omega)]
    simp only [Option.map_some', mul_chk_some]
    split
    · repeat (first
        | rw [chk32_of_range (by omega)]
        | rw [mul_chk_some]
        | rw [add_chk_some])
    · repeat (first
        | rw [chk32_of_range (by omega)]
        | rw [mul_chk_some]
        | rw [add_chk_some])
  · split <;> rfl

/-! ## Lemmas: the evaluator under colour exchange -/

theorem phase_of_swap (b : Board) : phase_of b.swap = phase_of b := by
  unfold phase_of Board.swap
  simp only [Nat.lor_comm b.white b.black]

theorem phase_evaluation_swap (P : GamePhase) (b : Board) :
    phase_evaluation P b.swap = - phase_evaluation P b := by
  have hm1 : calculate_mobility true b.swap = calculate_mobility false b := rfl
  have hm2 : calculate_mobility false b.swap = calculate_mobility true b := rfl
  unfold phase_evaluation
  simp only [hm1, hm2]
  simp only [Board.swap]
  ring

/-! ## Lemmas: skipping completed passes -/

theorem completed_passes_succ (Z : ZobristData) (clock : Nat → Int) (board : Board)
    (board_hash : Nat) (is_black : Bool) (start k : Nat) (s : Search) (best : SearchResult) :
    completed_passes Z clock board board_hash is_black start (k + 1) s best =
      ({ (alpha_beta Z clock (start + k)
            (completed_passes Z clock board board_hash is_black start k s best).2
            board board_hash (-INF) INF is_black).1 with depth := ((start + k : Nat) : Int) },
        (alpha_beta Z clock (start + k)
            (completed_passes Z clock board board_hash is_black start k s best).2
            board board_hash (-INF) INF is_black).2) := rfl

theorem deepen_skip (Z : ZobristData) (clock : Nat → Int) (board : Board) (board_hash : Nat)
    (is_black : Bool) (start : Nat) (s : Search) (best : SearchResult) :
    ∀ j left : Nat, j ≤ left →
      (∀ k, 1 ≤ k → k ≤ j →
        (completed_passes Z clock board board_hash is_black start k s best).2.timeout = false ∧
        ¬ (|(completed_passes Z clock board board_hash is_black start k s best).1.value| >
          INF / 2)) →
      deepen Z clock board board_hash is_black left start s best =
        deepen Z clock board board_hash is_black (left - j) (start + j)
          (completed_passes Z clock board board_hash is_black start j s best).2
          (completed_passes Z clock board board_hash is_black start j s best).1 := by
  intro j
  induction j with
  | zero => intro left _ _; rfl
  | succ j ih =>
    intro left hle hprev
    rw [ih left (by omega) (fun k h1 h2 => hprev k h1 (by omega))]
    obtain ⟨hto, hdec⟩ := hprev (j + 1) (by omega) (le_refl _)
    obtain ⟨m, hm⟩ : ∃ m, left - j = m + 1 := ⟨left - j - 1, by omega⟩
    have hm2 : left - (j + 1) = m := by omega
    rw [hm, hm2]
    rw [completed_passes_succ] at hto hdec
    rw [completed_passes_succ]
    simp only at hto hdec ⊢
    conv_lhs => unfold deepen
    simp only
    rw [hto]
    simp only [Bool.false_eq_true, if_false]
    rw [if_neg hdec]
    rfl

/-! ## Lemmas: the window after the probe -/

theorem probe_window (t : TranspositionTable) (hash : Nat) (depth alpha beta value : Int)
    (bm : Nat) (hmiss : (t.probe hash depth alpha beta value bm).hit = false) :
    ((t.probe hash depth alpha beta value bm).alpha = alpha ∧
      (t.probe hash depth alpha beta value bm).beta = beta) ∨
    ((((t.table (hash % TABLE_SIZE)).key ^^^ hash) &&& KEY_MASK) = 0 ∧
      (t.table (hash % TABLE_SIZE)).depth ≥ depth ∧
      (t.table (hash % TABLE_SIZE)).type = EntryType.LOWERBOUND ∧
      (t.probe hash depth alpha beta value bm).alpha =
        max alpha (t.table (hash % TABLE_SIZE)).value ∧
      (t.probe hash depth alpha beta value bm).beta = beta) ∨
    ((((t.table (hash % TABLE_SIZE)).key ^^^ hash) &&& KEY_MASK) = 0 ∧
      (t.table (hash % TABLE_SIZE)).depth ≥ depth ∧
      (t.table (hash % TABLE_SIZE)).type = EntryType.UPPERBOUND ∧
      (t.probe hash depth alpha beta value bm).alpha = alpha ∧
      (t.probe hash depth alpha beta value bm).beta =
        min beta (t.table (hash % TABLE_SIZE)).value) := by
  unfold TranspositionTable.probe at hmiss ⊢
  simp only at hmiss ⊢
  by_cases htag : (((t.table (hash % TABLE_SIZE)).key ^^^ hash) &&& KEY_MASK) ≠ 0
  · left
    rw [if_pos htag]
    exact ⟨rfl, rfl⟩
  · rw [if_neg htag] at hmiss ⊢
    have htag0 : (((t.table (hash % TABLE_SIZE)).key ^^^ hash) &&& KEY_MASK) = 0 :=
      not_not.1 htag
    by_cases hz : (t.table (hash % TABLE_SIZE)).depth = 0 ∧
        (t.table (hash % TABLE_SIZE)).type = EntryType.EXACT ∧
        (t.table (hash % TABLE_SIZE)).value = 0
    · left
      rw [if_pos hz]
      exact ⟨rfl, rfl⟩
    · rw [if_neg hz] at hmiss ⊢
      by_cases hd : (t.table (hash % TABLE_SIZE)).depth ≥ depth
      · rw [if_pos hd] at hmiss ⊢
        cases hty : (t.table (hash % TABLE_SIZE)).type with
        | EXACT =>
          rw [hty] at hmiss
          exact Bool.noConfusion hmiss
        | LOWERBOUND =>
          rw [hty] at hmiss
          simp only at hmiss ⊢
          right; left
          by_cases hc : max alpha (t.table (hash % TABLE_SIZE)).value ≥ beta
          · rw [if_pos hc] at hmiss
            exact Bool.noConfusion hmiss
          · rw [if_neg hc]
            exact ⟨htag0, hd, trivial, rfl, rfl⟩
        | UPPERBOUND =>
          rw [hty] at hmiss
          simp only at hmiss ⊢
          right; right
          by_cases hc : alpha ≥ min beta (t.table (hash % TABLE_SIZE)).value
          · rw [if_pos hc] at hmiss
            exact Bool.noConfusion hmiss
          · rw [if_neg hc]
            exact ⟨htag0, hd, trivial, rfl, rfl⟩
      · left
        rw [if_neg hd]
        exact ⟨rfl, rfl⟩

/-! ## Lemmas: the move loop at depth 1 -/

theorem check_timeout_in_budget (clock : Nat → Int) (s : Search) (hto : s.timeout = false)
    (hclock : ∀ k, clock k ≤ s.time_limit) :
    check_timeout clock s = (false, { s with polls := s.polls + 1 }) := by
  rcases check_timeout_cases clock s hto with ⟨hc, _⟩ | ⟨_, h⟩
  · have := hclock s.polls
    omega
  · exact h

theorem move_loop_leaf_black (Z : ZobristData) (clock : Nat → Int)
    (child : Search → Board → Nat → Int → Int → SearchResult × Search) (board : Board)
    (hash : Nat) (T : Int) (hclock : ∀ k, clock k ≤ T)
    (hchild : ∀ s nb nh a b, child s nb nh a b =
      ({ move := 0, value := evaluate nb, depth := 0 }, s)) :
    ∀ (L : List Nat) (s : Search) (best : SearchResult) (alpha : Int),
      s.timeout = false → s.time_limit = T → alpha < INF →
      ∃ r s2, move_loop Z clock child board hash true L s best alpha INF = (false, r, s2) ∧
        s2.timeout = false ∧ s2.time_limit = T ∧ s2.tt = s.tt ∧ r.depth = best.depth ∧
        ((r = best ∧ ∀ m ∈ L, evaluate (make_move board m true) ≤ best.value) ∨
          (∃ pre post, L = pre ++ r.move :: post ∧
            r.value = evaluate (make_move board r.move true) ∧ best.value < r.value ∧
            (∀ m ∈ pre, evaluate (make_move board m true) < r.value) ∧
            (∀ m ∈ post, evaluate (make_move board m true) ≤ r.value))) := by
  intro L
  induction L with
  | nil =>
    intro s best alpha hto hlim _
    exact ⟨best, s, rfl, hto, hlim, rfl, rfl, Or.inl ⟨rfl, fun m hm => absurd hm (List.not_mem_nil m)⟩⟩
  | cons m rest ih =>
    intro s best alpha hto hlim halpha
    have hct := check_timeout_in_budget clock s hto (by rw [hlim]; exact hclock)
    have hev := evaluate_bound (make_move board m true)
    unfold move_loop
    rw [hct]
    simp only [hchild]
    unfold update_best
    simp only [if_true]
    by_cases hgt : evaluate (make_move board m true) > best.value
    · rw [if_pos hgt]
      simp only
      have ha2 : max alpha (evaluate (make_move board m true)) < INF := by
        unfold INF at halpha ⊢
        exact max_lt halpha (by omega)
      rw [if_neg (by omega)]
      obtain ⟨r, s2, heq, h1, h2, h3, h4, h5⟩ := ih { s with polls := s.polls + 1 }
        { best with value := evaluate (make_move board m true), move := m }
        (max alpha (evaluate (make_move board m true))) hto hlim ha2
      refine ⟨r, s2, heq, h1, h2, h3, h4, Or.inr ?_⟩
      rcases h5 with ⟨hr, hall⟩ | ⟨pre, post, hsplit, hval, hlt, hpre, hpost⟩
      · refine ⟨[], rest, ?_, ?_, ?_, ?_, ?_⟩
        · rw [hr]; rfl
        · rw [hr]
        · rw [hr]; exact hgt
        · intro x hx; exact absurd hx (List.not_mem_nil x)
        · intro x hx
          rw [hr]
          exact hall x hx
      · simp only at hlt
        refine ⟨m :: pre, post, ?_, hval, by omega, ?_, hpost⟩
        · rw [hsplit]; rfl
        · intro x hx
          rcases List.mem_cons.1 hx with rfl | hx
          · exact hlt
          · exact hpre x hx
    · rw [if_neg hgt]
      simp only
      rw [if_neg (by omega)]
      obtain ⟨r, s2, heq, h1, h2, h3, h4, h5⟩ := ih { s with polls := s.polls + 1 } best alpha
        hto hlim halpha
      refine ⟨r, s2, heq, h1, h2, h3, h4, ?_⟩
      rcases h5 with ⟨hr, hall⟩ | ⟨pre, post, hsplit, hval, hlt, hpre, hpost⟩
      · left
        refine ⟨hr, ?_⟩
        intro x hx
        rcases List.mem_cons.1 hx with rfl | hx
        · omega
        · exact hall x hx
      · right
        refine ⟨m :: pre, post, ?_, hval, hlt, ?_, hpost⟩
        · rw [hsplit]; rfl
        · intro x hx
          rcases List.mem_cons.1 hx with rfl | hx
          · omega
          · exact hpre x hx

theorem move_loop_leaf_white (Z : ZobristData) (clock : Nat → Int)
    (child : Search → Board → Nat → Int → Int → SearchResult × Search) (board : Board)
    (hash : Nat) (T : Int) (hclock : ∀ k, clock k ≤ T)
    (hchild : ∀ s nb nh a b, child s nb nh a b =
      ({ move := 0, value := evaluate nb, depth := 0 }, s)) :
    ∀ (L : List Nat) (s : Search) (best : SearchResult) (beta : Int),
      s.timeout = false → s.time_limit = T → -INF < beta →
      ∃ r s2, move_loop Z clock child board hash false L s best (-INF) beta = (false, r, s2) ∧
        s2.timeout = false ∧ s2.time_limit = T ∧ s2.tt = s.tt ∧ r.depth = best.depth ∧
        ((r = best ∧ ∀ m ∈ L, best.value ≤ evaluate (make_move board m false)) ∨
          (∃ pre post, L = pre ++ r.move :: post ∧
            r.value = evaluate (make_move board r.move false) ∧ r.value < best.value ∧
            (∀ m ∈ pre, r.value < evaluate (make_move board m false)) ∧
            (∀ m ∈ post, r.value ≤ evaluate (make_move board m false)))) := by
  intro L
  induction L with
  | nil =>
    intro s best beta hto hlim _
    exact ⟨best, s, rfl, hto, hlim, rfl, rfl, Or.inl ⟨rfl, fun m hm => absurd hm (List.not_mem_nil m)⟩⟩
  | cons m rest ih =>
    intro s best beta hto hlim hbeta
    have hct := check_timeout_in_budget clock s hto (by rw [hlim]; exact hclock)
    have hev := evaluate_bound (make_move board m false)
    unfold move_loop
    rw [hct]
    simp only [hchild]
    unfold update_best
    simp only [Bool.false_eq_true, if_false]
    by_cases hlt0 : evaluate (make_move board m false) < best.value
    · rw [if_pos hlt0]
      simp only
      have hb2 : -INF < min beta (evaluate (make_move board m false)) := by
        unfold INF at hbeta ⊢
        exact lt_min hbeta (by omega)
      rw [if_neg (by omega)]
      obtain ⟨r, s2, heq, h1, h2, h3, h4, h5⟩ := ih { s with polls := s.polls + 1 }
        { best with value := evaluate (make_move board m false), move := m }
        (min beta (evaluate (make_move board m false))) hto hlim hb2
      refine ⟨r, s2, heq, h1, h2, h3, h4, Or.inr ?_⟩
      rcases h5 with ⟨hr, hall⟩ | ⟨pre, post, hsplit, hval, hlt, hpre, hpost⟩
      · refine ⟨[], rest, ?_, ?_, ?_, ?_, ?_⟩
        · rw [hr]; rfl
        · rw [hr]
        · rw [hr]; exact hlt0
        · intro x hx; exact absurd hx (List.not_mem_nil x)
        · intro x hx
          rw [hr]
          exact hall x hx
      · simp only at hlt
        refine ⟨m :: pre, post, ?_, hval, by omega, ?_, hpost⟩
        · rw [hsplit]; rfl
        · intro x hx
          rcases List.mem_cons.1 hx with rfl | hx
          · exact hlt
          · exact hpre x hx
    · rw [if_neg hlt0]
      simp only
      rw [if_neg (by omega)]
      obtain ⟨r, s2, heq, h1, h2, h3, h4, h5⟩ := ih { s with polls := s.polls + 1 } best beta
        hto hlim hbeta
      refine ⟨r, s2, heq, h1, h2, h3, h4, ?_⟩
      rcases h5 with ⟨hr, hall⟩ | ⟨pre, post, hsplit, hval, hlt, hpre, hpost⟩
      · left
        refine ⟨hr, ?_⟩
        intro x hx
        rcases List.mem_cons.1 hx with rfl | hx
        · omega
        · exact hall x hx
      · right
        refine ⟨m :: pre, post, ?_, hval, hlt, ?_, hpost⟩
        · rw [hsplit]; rfl
        · intro x hx
          rcases List.mem_cons.1 hx with rfl | hx
          · omega
          · exact hpre x hx

theorem alpha_beta_leaf_root (Z : ZobristData) (clock : Nat → Int) (board : Board)
    (hash : Nat) (turn : Bool) (time_ms : Int) (hne : get_moves board turn ≠ [])
    (hclock : ∀ k, clock k ≤ time_ms) :
    ∃ r s2, alpha_beta Z clock 1 (first_state time_ms) board hash (-INF) INF turn = (r, s2) ∧
      s2.timeout = false ∧
      ∃ pre post, get_moves board turn = pre ++ r.move :: post ∧
        r.value = evaluate (make_move board r.move turn) ∧
        (∀ m ∈ pre, if turn then evaluate (make_move board m turn) < r.value
          else r.value < evaluate (make_move board m turn)) ∧
        (∀ m ∈ post, if turn then evaluate (make_move board m turn) ≤ r.value
          else r.value ≤ evaluate (make_move board m turn)) := by
  have hct := check_timeout_in_budget clock (first_state time_ms) rfl hclock
  have hpr : ∀ p : Nat, ({ first_state time_ms with polls := p } : Search).tt.probe hash
      ((0 + 1 : Nat) : Int) (-INF) INF 0 0 =
      { hit := false, alpha := -INF, beta := INF, value := 0, best_move := 0 } :=
    fun _ => probe_miss _ _ _ _ _ _ _ (Or.inl rfl)
  have hempty : ¬ (get_moves board turn).isEmpty = true := fun h => hne (List.isEmpty_iff.1 h)
  have hord : order_moves (get_moves board turn) 0 = get_moves board turn := by
    unfold order_moves
    rw [if_neg (fun h => h.1 rfl)]
  obtain ⟨m0, hm0⟩ := List.exists_mem_of_ne_nil _ hne
  have hev := evaluate_bound (make_move board m0 turn)
  unfold alpha_beta
  rw [hct]
  simp only
  unfold alpha_beta_node
  simp only [hpr, Bool.false_eq_true, if_false, if_neg hempty, hord]
  cases turn with
  | true =>
    obtain ⟨r, s2, heq, h1, _, _, _, h5⟩ := move_loop_leaf_black Z clock
      (fun s new_board _ _ _ => ({ move := 0, value := evaluate new_board, depth := 0 }, s))
      board hash time_ms hclock (fun _ _ _ _ _ => rfl) (get_moves board true)
      { tt := (first_state time_ms).tt, time_limit := (first_state time_ms).time_limit,
        timeout := (first_state time_ms).timeout, polls := (first_state time_ms).polls + 1 }
      { move := 0, value := -INF, depth := 0 } (-INF) rfl rfl (by decide)
    simp only [if_true]
    rw [heq]
    refine ⟨r, _, rfl, h1, ?_⟩
    rcases h5 with ⟨_, hall⟩ | ⟨pre, post, hsplit, hval, _, hpre, hpost⟩
    · have := hall m0 hm0
      simp only [INF] at this
      omega
    · exact ⟨pre, post, hsplit, hval, fun m hm => by simpa using hpre m hm,
        fun m hm => by simpa using hpost m hm⟩
  | false =>
    obtain ⟨r, s2, heq, h1, _, _, _, h5⟩ := move_loop_leaf_white Z clock
      (fun s new_board _ _ _ => ({ move := 0, value := evaluate new_board, depth := 0 }, s))
      board hash time_ms hclock (fun _ _ _ _ _ => rfl) (get_moves board false)
      { tt := (first_state time_ms).tt, time_limit := (first_state time_ms).time_limit,
        timeout := (first_state time_ms).timeout, polls := (first_state time_ms).polls + 1 }
      { move := 0, value := INF, depth := 0 } INF rfl rfl (by decide)
    simp only [Bool.false_eq_true, if_false, if_true]
    rw [heq]
    refine ⟨r, _, rfl, h1, ?_⟩
    rcases h5 with ⟨_, hall⟩ | ⟨pre, post, hsplit, hval, _, hpre, hpost⟩
    · have := hall m0 hm0
      simp only [INF] at this
      omega
    · exact ⟨pre, post, hsplit, hval, fun m hm => by simpa using hpre m hm,
        fun m hm => by simpa using hpost m hm⟩

/-! ## Claims -/

/-- C1: on a board with disjoint sets, for each colour and each cell `i` in `0..63`, the
mask `1 << i` is in `get_moves` exactly when cell `i` is empty and, in one of the 8 grid
directions, one or more consecutive opponent discs are followed by a disc of the mover,
all inside the grid. -/
theorem get_moves_iff_bracket (b : Board) (is_black : Bool) (i : Nat)
    (hdisj : b.black &&& b.white = 0) (hi : i < 64) :
    (1 <<< i) ∈ get_moves b is_black ↔
      (b.black.testBit i = false ∧ b.white.testBit i = false) ∧
        LegalCell (b.side is_black) (b.side (!is_black)) i := by
  rw [mem_get_moves]
  constructor
  · rintro ⟨i', _, hii, he, hv⟩
    rw [Nat.testBit_or, Bool.or_eq_false_iff] at he
    have := bit_inj hii
    subst this
    exact ⟨he, (is_valid_move_side b is_black i hdisj hi).1 hv⟩
  · rintro ⟨he, hl⟩
    refine ⟨i, hi, rfl, ?_, (is_valid_move_side b is_black i hdisj hi).2 hl⟩
    rw [Nat.testBit_or, Bool.or_eq_false_iff]
    exact he

theorem get_moves_iff_bracket_witness :
    (Board.init.black &&& Board.init.white = 0 ∧ 19 < 64) ∧
    ((1 <<< 19) ∈ get_moves Board.init true ↔
      (Board.init.black.testBit 19 = false ∧ Board.init.white.testBit 19 = false) ∧
        LegalCell (Board.init.side true) (Board.init.side (!true)) 19) :=
  ⟨⟨by decide, by decide⟩, get_moves_iff_bracket Board.init true 19 (by decide) (by decide)⟩

/-- C2: on a board with disjoint sets, a move of `get_moves` is a single cell `i`, and
`make_move` gives the mover the old mover discs, cell `i` and the flipped discs, and
leaves the opponent the old opponent discs minus the flipped discs, where the flipped
discs are the opponent discs on a run next to cell `i` that a mover disc closes inside
the grid; every other cell keeps its state. -/
theorem make_move_sets (b : Board) (is_black : Bool) (move : Nat)
    (hdisj : b.black &&& b.white = 0) (hm : move ∈ get_moves b is_black) :
    ∃ i, i < 64 ∧ move = 1 <<< i ∧ ∀ j,
      (((make_move b move is_black).side is_black).testBit j = true ↔
        (b.side is_black).testBit j = true ∨ j = i ∨
          Flipped (b.side is_black) (b.side (!is_black)) i j) ∧
      (((make_move b move is_black).side (!is_black)).testBit j = true ↔
        (b.side (!is_black)).testBit j = true ∧
          ¬ Flipped (b.side is_black) (b.side (!is_black)) i j) := by
  obtain ⟨i, hi, hmi, _, _, hbits⟩ := make_move_bits b is_black move hdisj hm
  exact ⟨i, hi, hmi, hbits⟩

theorem make_move_sets_witness :
    (Board.init.black &&& Board.init.white = 0 ∧ (1 <<< 19) ∈ get_moves Board.init true) ∧
    ∃ i, i < 64 ∧ (1 <<< 19) = 1 <<< i ∧ ∀ j,
      (((make_move Board.init (1 <<< 19) true).side true).testBit j = true ↔
        (Board.init.side true).testBit j = true ∨ j = i ∨
          Flipped (Board.init.side true) (Board.init.side (!true)) i j) ∧
      (((make_move Board.init (1 <<< 19) true).side (!true)).testBit j = true ↔
        (Board.init.side (!true)).testBit j = true ∧
          ¬ Flipped (Board.init.side true) (Board.init.side (!true)) i j) :=
  ⟨⟨by decide, by decide⟩, make_move_sets Board.init true (1 <<< 19) (by decide) (by decide)⟩

/-- C3: on a board with disjoint sets, after a move of `get_moves` the mover has
`1 + k` more discs and the opponent `k` fewer, where `k` counts the discs that went from
the opponent to the mover (the bits of `to_flip`); the number of discs on the board grows
by 1. -/
theorem make_move_counts (b : Board) (is_black : Bool) (move : Nat)
    (hdisj : b.black &&& b.white = 0) (hm : move ∈ get_moves b is_black) :
    ∃ k, k = popcountll (b.side (!is_black) &&& (make_move b move is_black).side is_black) ∧
      k = popcountll (to_flip (b.side is_black) (b.side (!is_black)) move) ∧
      popcountll ((make_move b move is_black).side is_black) =
        popcountll (b.side is_black) + 1 + k ∧
      popcountll ((make_move b move is_black).side (!is_black)) + k =
        popcountll (b.side (!is_black)) ∧
      popcountll (make_move b move is_black).black + popcountll (make_move b move is_black).white =
        popcountll b.black + popcountll b.white + 1 ∧
      popcountll ((make_move b move is_black).black ||| (make_move b move is_black).white) =
        popcountll (b.black ||| b.white) + 1 := by
  obtain ⟨h1, h2⟩ := make_move_popcount b is_black move hdisj hm
  have hsum : popcountll (make_move b move is_black).black +
      popcountll (make_move b move is_black).white =
        popcountll b.black + popcountll b.white + 1 := by
    cases is_black
    · simp only [Board.side, Bool.false_eq_true, if_false, Bool.not_false, if_true] at h1 h2
      omega
    · simp only [Board.side, Bool.false_eq_true, if_false, Bool.not_true, if_true] at h1 h2
      omega
  refine ⟨_, rfl, ?_, ?_, ?_, hsum, ?_⟩
  · rw [flipped_set_eq b is_black move hdisj hm]
  · rw [flipped_set_eq b is_black move hdisj hm]; exact h1
  · rw [flipped_set_eq b is_black move hdisj hm]; exact h2
  · rw [popcountll_or_disjoint _ _ (make_move_disjoint b is_black move hdisj hm),
      popcountll_or_disjoint _ _ hdisj]
    exact hsum

theorem make_move_counts_witness :
    (Board.init.black &&& Board.init.white = 0 ∧ (1 <<< 19) ∈ get_moves Board.init true) ∧
    ∃ k, k = popcountll (Board.init.side (!true) &&&
          (make_move Board.init (1 <<< 19) true).side true) ∧
      k = popcountll (to_flip (Board.init.side true) (Board.init.side (!true)) (1 <<< 19)) ∧
      popcountll ((make_move Board.init (1 <<< 19) true).side true) =
        popcountll (Board.init.side true) + 1 + k ∧
      popcountll ((make_move Board.init (1 <<< 19) true).side (!true)) + k =
        popcountll (Board.init.side (!true)) ∧
      popcountll (make_move Board.init (1 <<< 19) true).black +
          popcountll (make_move Board.init (1 <<< 19) true).white =
        popcountll Board.init.black + popcountll Board.init.white + 1 ∧
      popcountll ((make_move Board.init (1 <<< 19) true).black |||
          (make_move Board.init (1 <<< 19) true).white) =
        popcountll (Board.init.black ||| Board.init.white) + 1 :=
  ⟨⟨by decide, by decide⟩, make_move_counts Board.init true (1 <<< 19) (by decide) (by decide)⟩

/-- C4: the black and white sets never intersect: the opening board has disjoint sets,
`make_move` with a move of `get_moves` keeps them disjoint, and so every position
reachable from the opening by moves of `get_moves` and passes has disjoint sets. -/
theorem disjoint_invariant :
    (Board.init.black &&& Board.init.white = 0) ∧
    (∀ (b : Board) (is_black : Bool) (move : Nat),
      b.black &&& b.white = 0 → move ∈ get_moves b is_black →
        (make_move b move is_black).black &&& (make_move b move is_black).white = 0) ∧
    (∀ (b : Board) (is_black : Bool), Reachable b is_black → b.black &&& b.white = 0) := by
  refine ⟨by decide, make_move_disjoint, ?_⟩
  intro b c hb
  induction hb with
  | init => decide
  | move b c m _ hm ih => exact make_move_disjoint b c m ih hm
  | pass b c _ _ ih => exact ih

theorem disjoint_invariant_witness :
    (Board.init.black &&& Board.init.white = 0 ∧ (1 <<< 19) ∈ get_moves Board.init true) ∧
    (make_move Board.init (1 <<< 19) true).black &&&
      (make_move Board.init (1 <<< 19) true).white = 0 :=
  ⟨⟨by decide, by decide⟩,
    disjoint_invariant.2.1 Board.init true (1 <<< 19) (by decide) (by decide)⟩

/-- C5: for every board and colour, `get_moves` lists no value twice, and each element
has exactly one bit set, at a cell below 64 that neither black nor white occupies. -/
theorem get_moves_nodup_empty (b : Board) (is_black : Bool) :
    (get_moves b is_black).Nodup ∧
    ∀ m, m ∈ get_moves b is_black →
      ∃ i, i < 64 ∧ (∀ j, m.testBit j = true ↔ j = i) ∧
        b.black.testBit i = false ∧ b.white.testBit i = false := by
  refine ⟨get_moves_nodup b is_black, ?_⟩
  intro m hm
  obtain ⟨i, hi, rfl, he, _⟩ := (mem_get_moves b is_black m).1 hm
  rw [Nat.testBit_or, Bool.or_eq_false_iff] at he
  refine ⟨i, hi, ?_, he.1, he.2⟩
  intro j
  rw [testBit_bit, decide_eq_true_eq]
  exact eq_comm

theorem get_moves_nodup_empty_witness :
    (1 <<< 19) ∈ get_moves Board.init true ∧
    ∃ i, i < 64 ∧ (∀ j, (1 <<< 19).testBit j = true ↔ j = i) ∧
      Board.init.black.testBit i = false ∧ Board.init.white.testBit i = false :=
  ⟨by decide, (get_moves_nodup_empty Board.init true).2 (1 <<< 19) (by decide)⟩

/-- C6, as the claim states it, fails: on the opening board the mask of cell 0 is not a
move of black, and `make_move` with it changes the black set. -/
theorem make_move_illegal_changes :
    Board.init.black &&& Board.init.white = 0 ∧
    (1 <<< 0) ∉ get_moves Board.init true ∧
    (make_move Board.init (1 <<< 0) true).black ≠ Board.init.black := by
  decide

/-- C6, amended: `make_move` makes no legality test and never leaves the board as it was:
for every board, colour and cell `i` below 64 it changes the mover set; and on a board
with disjoint sets, for an empty cell `i` whose mask is not in `get_moves`, it puts a mover
disc on cell `i`, flips nothing and leaves the opponent set as it was. -/
theorem make_move_unchecked (b : Board) (is_black : Bool) (i : Nat) (hi : i < 64) :
    (make_move b (1 <<< i) is_black).side is_black ≠ b.side is_black ∧
    (b.black &&& b.white = 0 →
      (b.black.testBit i = false ∧ b.white.testBit i = false) →
      (1 <<< i) ∉ get_moves b is_black →
        to_flip (b.side is_black) (b.side (!is_black)) (1 <<< i) = 0 ∧
        (make_move b (1 <<< i) is_black).side is_black = b.side is_black ||| (1 <<< i) ∧
        (make_move b (1 <<< i) is_black).side (!is_black) = b.side (!is_black)) := by
  obtain ⟨h1, h2⟩ := make_move_side b (1 <<< i) is_black
  constructor
  · intro heq
    rw [h1] at heq
    have := congrArg (fun y => y.testBit i) heq
    simp only [Nat.testBit_xor, Nat.testBit_or, testBit_bit, decide_True, Bool.true_or,
      Bool.xor_true] at this
    cases hp : (b.side is_black).testBit i <;> rw [hp] at this <;> exact Bool.noConfusion this
  · intro hdisj hempty hnot
    have hd := side_disjoint b is_black hdisj
    have hnl : ¬ LegalCell (b.side is_black) (b.side (!is_black)) i := by
      intro hl
      apply hnot
      rw [mem_get_moves]
      refine ⟨i, hi, rfl, ?_, (is_valid_move_side b is_black i hdisj hi).2 hl⟩
      rw [Nat.testBit_or, Bool.or_eq_false_iff]
      exact hempty
    have hF : to_flip (b.side is_black) (b.side (!is_black)) (1 <<< i) = 0 := by
      apply Nat.eq_of_testBit_eq
      intro j
      rw [Nat.zero_testBit]
      cases hx : (to_flip (b.side is_black) (b.side (!is_black)) (1 <<< i)).testBit j
      · rfl
      · exact absurd (Flipped_legal ((to_flip_testBit _ _ i j hd hi).1 hx)) hnl
    have hpi : (b.side is_black).testBit i = false := by
      cases is_black
      · exact hempty.2
      · exact hempty.1
    rw [hF, Nat.or_zero, xor_bit_eq_or _ _ hpi] at h1
    rw [hF, Nat.xor_zero] at h2
    exact ⟨hF, h1, h2⟩

theorem make_move_unchecked_witness :
    (0 < 64 ∧ Board.init.black &&& Board.init.white = 0 ∧
      (Board.init.black.testBit 0 = false ∧ Board.init.white.testBit 0 = false) ∧
      (1 <<< 0) ∉ get_moves Board.init true) ∧
    (make_move Board.init (1 <<< 0) true).side true ≠ Board.init.side true ∧
    to_flip (Board.init.side true) (Board.init.side (!true)) (1 <<< 0) = 0 ∧
    (make_move Board.init (1 <<< 0) true).side true = Board.init.side true ||| (1 <<< 0) ∧
    (make_move Board.init (1 <<< 0) true).side (!true) = Board.init.side (!true) :=
  ⟨⟨by decide, by decide, by decide, by decide⟩,
    (make_move_unchecked Board.init true 0 (by decide)).1,
    (make_move_unchecked Board.init true 0 (by decide)).2 (by decide) (by decide) (by decide)⟩

/-- C7: `is_game_over` holds exactly when neither colour has a move; on the board with a
white disc on cell 0 and a black disc on cell 1 the sets are disjoint, black has no move,
white has one, the game is not over and the board is not full. -/
theorem is_game_over_iff :
    (∀ b : Board, is_game_over b = true ↔ (get_moves b true = [] ∧ get_moves b false = [])) ∧
    (∃ b : Board, b.black &&& b.white = 0 ∧ get_moves b true = [] ∧ get_moves b false ≠ [] ∧
       is_game_over b = false ∧ popcountll (b.black ||| b.white) < 64) := by
  refine ⟨?_, ⟨{ black := 2, white := 1 }, by decide⟩⟩
  intro b
  simp [is_game_over, List.isEmpty_iff]

/-- C8: on the opening board black has exactly the four moves of cells 19, 26, 37 and 44,
which `move_to_notation` writes d3, c4, f5 and e6. -/
theorem opening_moves :
    get_moves Board.init true = [1 <<< 19, 1 <<< 26, 1 <<< 37, 1 <<< 44] ∧
    (get_moves Board.init true).length = 4 ∧
    (get_moves Board.init true).map ctzll = [19, 26, 37, 44] ∧
    (get_moves Board.init true).map move_to_notation = ["d3", "c4", "f5", "e6"] := by
  decide

/-- C9: for every board of two 64-bit sets and every side to move, `compute_hash` is the
XOR of the black keys of the cells of the black set, the white keys of the cells of the
white set, and the side key exactly when black is to move; equal inputs give equal
hashes. -/
theorem compute_hash_eq_xor_keys (Z : ZobristData) (b : Board) (is_black_turn : Bool)
    (hb : b.black < 2 ^ 64) (hw : b.white < 2 ^ 64) :
    compute_hash Z b is_black_turn =
        (xor_keys Z 0 b.black ^^^ xor_keys Z 1 b.white) ^^^
          (if is_black_turn then Z.black_to_move else 0) ∧
    ∀ (b2 : Board) (t2 : Bool), b2 = b → t2 = is_black_turn →
      compute_hash Z b2 t2 = compute_hash Z b is_black_turn := by
  refine ⟨compute_hash_xor Z b is_black_turn hb hw, ?_⟩
  intro b2 t2 h1 h2
  rw [h1, h2]

theorem compute_hash_eq_xor_keys_witness :
    (Board.init.black < 2 ^ 64 ∧ Board.init.white < 2 ^ 64) ∧
    (compute_hash sampleKeys Board.init true =
        (xor_keys sampleKeys 0 Board.init.black ^^^ xor_keys sampleKeys 1 Board.init.white) ^^^
          (if true then sampleKeys.black_to_move else 0) ∧
      ∀ (b2 : Board) (t2 : Bool), b2 = Board.init → t2 = true →
        compute_hash sampleKeys b2 t2 = compute_hash sampleKeys Board.init true) :=
  ⟨⟨by decide, by decide⟩,
    compute_hash_eq_xor_keys sampleKeys Board.init true (by decide) (by decide)⟩

/-- C10 fails on the code: on the opening board with black to play cell 19 (d3), which
flips the white disc of cell 27, the `new_hash` of `alpha_beta` and the full hash of the
child differ by the two keys of cell 27, so they are different whenever these two keys
are. -/
theorem new_hash_misses_flips (Z : ZobristData) :
    (1 <<< 19) ∈ get_moves Board.init true ∧
    new_hash Z (compute_hash Z Board.init true) (1 <<< 19) true ^^^
        compute_hash Z (make_move Board.init (1 <<< 19) true) false =
      Z.squares 27 0 ^^^ Z.squares 27 1 ∧
    (Z.squares 27 0 ≠ Z.squares 27 1 →
      new_hash Z (compute_hash Z Board.init true) (1 <<< 19) true ≠
        compute_hash Z (make_move Board.init (1 <<< 19) true) false) := by
  have hmain : new_hash Z (compute_hash Z Board.init true) (1 <<< 19) true ^^^
        compute_hash Z (make_move Board.init (1 <<< 19) true) false =
      Z.squares 27 0 ^^^ Z.squares 27 1 := by
    have e1 : Board.init.black = (0 ^^^ (1 <<< 28)) ^^^ (1 <<< 35) := by decide
    have e2 : Board.init.white = (0 ^^^ (1 <<< 27)) ^^^ (1 <<< 36) := by decide
    have e3 : (make_move Board.init (1 <<< 19) true).black =
        (((0 ^^^ (1 <<< 19)) ^^^ (1 <<< 27)) ^^^ (1 <<< 28)) ^^^ (1 <<< 35) := by decide
    have e4 : (make_move Board.init (1 <<< 19) true).white = 0 ^^^ (1 <<< 36) := by decide
    have e5 : ctzll (1 <<< 19) = 19 := by decide
    rw [compute_hash_xor Z Board.init true (by decide) (by decide),
      compute_hash_xor Z (make_move Board.init (1 <<< 19) true) false (by decide) (by decide)]
    unfold new_hash
    simp only [e5]
    rw [e1, e2, e3, e4]
    simp only [xor_keys_toggle Z _ _ 19 (by decide), xor_keys_toggle Z _ _ 27 (by decide),
      xor_keys_toggle Z _ _ 28 (by decide), xor_keys_toggle Z _ _ 35 (by decide),
      xor_keys_toggle Z _ _ 36 (by decide), xor_keys_zero, xor_keys_bit Z _ 19 (by decide),
      xor_keys_bit Z _ 27 (by decide), xor_keys_bit Z _ 28 (by decide),
      xor_keys_bit Z _ 36 (by decide), Nat.zero_xor, if_true, Nat.xor_zero,
      Bool.false_eq_true, if_false]
    exact xor_seven _ _ _ _ _ _ _
  refine ⟨by decide, hmain, ?_⟩
  intro hne heq
  rw [heq, Nat.xor_self] at hmain
  apply hne
  have := congrArg (fun y => y ^^^ Z.squares 27 1) hmain
  simp only [Nat.zero_xor, Nat.xor_assoc, Nat.xor_self, Nat.xor_zero] at this
  exact this.symm

theorem new_hash_misses_flips_witness :
    sampleKeys.squares 27 0 ≠ sampleKeys.squares 27 1 ∧
    new_hash sampleKeys (compute_hash sampleKeys Board.init true) (1 <<< 19) true ≠
      compute_hash sampleKeys (make_move Board.init (1 <<< 19) true) false :=
  ⟨by decide, (new_hash_misses_flips sampleKeys).2.2 (by decide)⟩

/-- C11, as the claim states it, fails: on a fresh table `store(0, 0, 0, EXACT, 5)` writes
its slot, and the following `probe(0, 0, ..)` reports no entry. -/
theorem probe_exact_zero_entry_missed :
    TranspositionTable.init.writes 0 0 ∧
    ((0 : Int) ≤ 0 ∧
      ((TranspositionTable.init.store 0 0 0 EntryType.EXACT 5).probe 0 0 (-7) 7 99 0).hit
        = false) := by
  decide

/-- C11, amended: when `store(hash, depth, value, EXACT, move)` writes its slot, a following
`probe(hash, d, alpha, beta, ..)` with `d` at most the stored depth (the `int16_t` of
`depth`, which is `depth` itself between -32768 and 32767) returns true with the stored value
and move, for every alpha and beta, unless the entry has stored depth 0 and value 0, which
`probe` takes for an empty slot. -/
theorem probe_after_store_exact (t : TranspositionTable) (hash : Nat)
    (depth value d alpha beta v0 : Int) (move bm : Nat)
    (hw : t.writes hash depth)
    (hvalue : -2147483648 ≤ value ∧ value ≤ 2147483647)
    (hnz : ¬ (toInt16 depth = 0 ∧ value = 0))
    (hd : d ≤ toInt16 depth) :
    (t.store hash depth value EntryType.EXACT move).probe hash d alpha beta v0 bm =
        { hit := true, alpha := alpha, beta := beta, value := value, best_move := move } ∧
    (-32768 ≤ depth ∧ depth ≤ 32767 → toInt16 depth = depth) := by
  refine ⟨?_, fun h => toInt16_of_range h.1 h.2⟩
  unfold TranspositionTable.probe
  simp only
  rw [store_slot_of_writes t hash depth value EntryType.EXACT move hw]
  simp only [tag_matches, ne_eq, not_true_eq_false, if_false, true_and,
    toInt32_of_range hvalue.1 hvalue.2]
  rw [if_neg hnz, if_pos hd]

theorem probe_after_store_exact_witness :
    (TranspositionTable.init.writes 7 3 ∧
      ((-2147483648 : Int) ≤ 42 ∧ (42 : Int) ≤ 2147483647) ∧
      ¬ (toInt16 3 = 0 ∧ (42 : Int) = 0) ∧ (2 : Int) ≤ toInt16 3) ∧
    (TranspositionTable.init.store 7 3 42 EntryType.EXACT 5).probe 7 2 (-9) 9 0 0 =
      { hit := true, alpha := -9, beta := 9, value := 42, best_move := 5 } :=
  ⟨⟨by decide, by decide, by decide, by decide⟩,
    (probe_after_store_exact TranspositionTable.init 7 3 42 2 (-9) 9 0 5 0
      (by decide) (by decide) (by decide) (by decide)).1⟩

/-- C12: after any sequence of `store` and `new_search` calls on a fresh table in which no
`store` used the 64-bit hash `h`, `probe(h, ..)` returns false and leaves alpha, beta,
value and best_move as they were; two 64-bit hashes with the same slot index and the same
tag are equal. -/
theorem probe_never_stored (ops : List TTOp) (h : Nat) (depth alpha beta value : Int)
    (best_move : Nat) (hh : h < 2 ^ 64) (hops : NeverStored h ops) :
    (TranspositionTable.init.run ops).probe h depth alpha beta value best_move =
      { hit := false, alpha := alpha, beta := beta, value := value, best_move := best_move } ∧
    ∀ h2, h2 < 2 ^ 64 → h2 % TABLE_SIZE = h % TABLE_SIZE →
      h2 &&& KEY_MASK = h &&& KEY_MASK → h2 = h := by
  constructor
  · apply probe_miss
    exact run_keeps_miss h hh ops TranspositionTable.init hops (Or.inl rfl)
  · intro h2 hh2 hslot htag
    apply slot_and_tag_inj hh hh2 hslot
    rw [htag]
    exact tag_matches h

theorem probe_never_stored_witness :
    ((1048576 + 3 : Nat) < 2 ^ 64 ∧
      NeverStored (1048576 + 3)
        [TTOp.new_search, TTOp.store 3 4 17 EntryType.EXACT 8, TTOp.new_search]) ∧
    (TranspositionTable.init.run
        [TTOp.new_search, TTOp.store 3 4 17 EntryType.EXACT 8, TTOp.new_search]).probe
        (1048576 + 3) 1 (-9) 9 0 0 =
      { hit := false, alpha := -9, beta := 9, value := 0, best_move := 0 } :=
  have hns : NeverStored (1048576 + 3)
      [TTOp.new_search, TTOp.store 3 4 17 EntryType.EXACT 8, TTOp.new_search] := by
    intro hash depth value type bm hm
    simp only [List.mem_cons, List.mem_singleton, TTOp.store.injEq, reduceCtorEq, false_or,
      or_false, List.not_mem_nil] at hm
    obtain ⟨rfl, _⟩ := hm
    decide
  ⟨⟨by decide, hns⟩, (probe_never_stored _ _ 1 (-9) 9 0 0 (by decide) hns).1⟩

/-- C13, as the claim states it, fails: on a fresh table `store(0, 32768, 0, EXACT, 0)`
writes its slot, and the depth it leaves there is -32768, not 32768. -/
theorem store_depth_truncated :
    TranspositionTable.init.writes 0 32768 ∧
    ((TranspositionTable.init.store 0 32768 0 EntryType.EXACT 0).table (0 % TABLE_SIZE)).depth
      = -32768 ∧
    ((TranspositionTable.init.store 0 32768 0 EntryType.EXACT 0).table (0 % TABLE_SIZE)).depth
      ≠ 32768 := by
  decide

/-- C13, amended: `store(hash, depth, value, type, move)` overwrites slot `hash % capacity`
with (tag of hash, value, depth as `int16_t`, type, move, current generation) exactly when
the slot's generation differs from the current one or `depth >=` the slot's stored depth,
and otherwise leaves the table as it was; every other slot and the generation counter are
unchanged. The depth written is `depth` itself between -32768 and 32767. -/
theorem store_replacement (t : TranspositionTable) (hash : Nat) (depth value : Int)
    (type : EntryType) (move : Nat) (hvalue : -2147483648 ≤ value ∧ value ≤ 2147483647) :
    (((t.table (hash % TABLE_SIZE)).generation ≠ t.current_generation ∨
        depth ≥ (t.table (hash % TABLE_SIZE)).depth) →
      (t.store hash depth value type move).table (hash % TABLE_SIZE) =
        { key := hash &&& KEY_MASK, value := value, depth := toInt16 depth, type := type,
          best_move := move, generation := t.current_generation }) ∧
    (¬ ((t.table (hash % TABLE_SIZE)).generation ≠ t.current_generation ∨
        depth ≥ (t.table (hash % TABLE_SIZE)).depth) →
      t.store hash depth value type move = t) ∧
    (∀ i, i ≠ hash % TABLE_SIZE → (t.store hash depth value type move).table i = t.table i) ∧
    (t.store hash depth value type move).current_generation = t.current_generation ∧
    (-32768 ≤ depth ∧ depth ≤ 32767 → toInt16 depth = depth) := by
  refine ⟨?_, ?_, ?_, store_generation t hash depth value type move,
    fun h => toInt16_of_range h.1 h.2⟩
  · intro hc
    have hw : t.writes hash depth := by
      rcases hc with hc | hc
      · exact Or.inr hc
      · exact Or.inl hc
    rw [store_slot_of_writes t hash depth value type move hw,
      toInt32_of_range hvalue.1 hvalue.2]
  · intro hc
    apply store_of_not_writes
    intro hw
    apply hc
    rcases hw with hw | hw
    · exact Or.inr hw
    · exact Or.inl hw
  · intro i hi
    exact store_other_slot t hash depth value type move i hi

theorem store_replacement_witness :
    ((-2147483648 : Int) ≤ 42 ∧ (42 : Int) ≤ 2147483647) ∧
    (TranspositionTable.init.store 7 3 42 EntryType.LOWERBOUND 5).table (7 % TABLE_SIZE) =
      { key := 7 &&& KEY_MASK, value := 42, depth := toInt16 3, type := EntryType.LOWERBOUND,
        best_move := 5, generation := TranspositionTable.init.current_generation } :=
  ⟨by decide,
    (store_replacement TranspositionTable.init 7 3 42 EntryType.LOWERBOUND 5 (by decide)).1
      (by decide)⟩

/-- C14: when the tag of the slot matches the hash and the stored depth is at least the
requested depth, a LOWERBOUND entry of value `v` raises alpha to `max(alpha, v)` and leaves
beta, an UPPERBOUND entry lowers beta to `min(beta, v)` and leaves alpha, and `probe`
returns true exactly when the resulting `alpha >= beta`, with value `v`. -/
theorem probe_bounds (t : TranspositionTable) (hash : Nat) (depth alpha beta value : Int)
    (best_move : Nat)
    (htag : (((t.table (hash % TABLE_SIZE)).key ^^^ hash) &&& KEY_MASK) = 0)
    (hdepth : (t.table (hash % TABLE_SIZE)).depth ≥ depth) :
    ((t.table (hash % TABLE_SIZE)).type = EntryType.LOWERBOUND →
      (t.probe hash depth alpha beta value best_move).alpha =
          max alpha (t.table (hash % TABLE_SIZE)).value ∧
      (t.probe hash depth alpha beta value best_move).beta = beta ∧
      ((t.probe hash depth alpha beta value best_move).hit = true ↔
        max alpha (t.table (hash % TABLE_SIZE)).value ≥ beta) ∧
      ((t.probe hash depth alpha beta value best_move).hit = true →
        (t.probe hash depth alpha beta value best_move).value =
          (t.table (hash % TABLE_SIZE)).value)) ∧
    ((t.table (hash % TABLE_SIZE)).type = EntryType.UPPERBOUND →
      (t.probe hash depth alpha beta value best_move).beta =
          min beta (t.table (hash % TABLE_SIZE)).value ∧
      (t.probe hash depth alpha beta value best_move).alpha = alpha ∧
      ((t.probe hash depth alpha beta value best_move).hit = true ↔
        alpha ≥ min beta (t.table (hash % TABLE_SIZE)).value) ∧
      ((t.probe hash depth alpha beta value best_move).hit = true →
        (t.probe hash depth alpha beta value best_move).value =
          (t.table (hash % TABLE_SIZE)).value)) := by
  constructor
  · intro hty
    have hns : ¬ ((t.table (hash % TABLE_SIZE)).depth = 0 ∧
        (t.table (hash % TABLE_SIZE)).type = EntryType.EXACT ∧
        (t.table (hash % TABLE_SIZE)).value = 0) := by
      rw [hty]; simp
    unfold TranspositionTable.probe
    simp only [htag, ne_eq, not_true_eq_false, if_false, if_neg hns, if_pos hdepth, hty]
    by_cases hc : max alpha (t.table (hash % TABLE_SIZE)).value ≥ beta
    · simp [hc]
    · simp [hc]
  · intro hty
    have hns : ¬ ((t.table (hash % TABLE_SIZE)).depth = 0 ∧
        (t.table (hash % TABLE_SIZE)).type = EntryType.EXACT ∧
        (t.table (hash % TABLE_SIZE)).value = 0) := by
      rw [hty]; simp
    unfold TranspositionTable.probe
    simp only [htag, ne_eq, not_true_eq_false, if_false, if_neg hns, if_pos hdepth, hty]
    by_cases hc : alpha ≥ min beta (t.table (hash % TABLE_SIZE)).value
    · simp [hc]
    · simp [hc]

theorem probe_bounds_witness :
    (((((TranspositionTable.init.store 7 3 42 EntryType.LOWERBOUND 5).table
          (7 % TABLE_SIZE)).key ^^^ 7) &&& KEY_MASK) = 0 ∧
      ((TranspositionTable.init.store 7 3 42 EntryType.LOWERBOUND 5).table
        (7 % TABLE_SIZE)).depth ≥ 2 ∧
      ((TranspositionTable.init.store 7 3 42 EntryType.LOWERBOUND 5).table
        (7 % TABLE_SIZE)).type = EntryType.LOWERBOUND) ∧
    (((TranspositionTable.init.store 7 3 42 EntryType.LOWERBOUND 5).probe 7 2 (-9) 9 0 0).alpha =
        max (-9) ((TranspositionTable.init.store 7 3 42 EntryType.LOWERBOUND 5).table
          (7 % TABLE_SIZE)).value ∧
      ((TranspositionTable.init.store 7 3 42 EntryType.LOWERBOUND 5).probe 7 2 (-9) 9 0 0).beta
        = 9 ∧
      (((TranspositionTable.init.store 7 3 42 EntryType.LOWERBOUND 5).probe 7 2 (-9) 9 0 0).hit
          = true ↔
        max (-9) ((TranspositionTable.init.store 7 3 42 EntryType.LOWERBOUND 5).table
          (7 % TABLE_SIZE)).value ≥ 9) ∧
      (((TranspositionTable.init.store 7 3 42 EntryType.LOWERBOUND 5).probe 7 2 (-9) 9 0 0).hit
          = true →
        ((TranspositionTable.init.store 7 3 42 EntryType.LOWERBOUND 5).probe 7 2 (-9) 9 0
            0).value =
          ((TranspositionTable.init.store 7 3 42 EntryType.LOWERBOUND 5).table
            (7 % TABLE_SIZE)).value)) :=
  ⟨⟨by decide, by decide, by decide⟩,
    (probe_bounds (TranspositionTable.init.store 7 3 42 EntryType.LOWERBOUND 5) 7 2 (-9) 9 0 0
      (by decide) (by decide)).1 (by decide)⟩

/-- C15, as the claim states it, fails: on a fresh table `store(0, 0, 0, EXACT, 5)` writes
its slot, and `probe(0, 1, ..)`, with a requested depth above the stored one, leaves
best_move at its old value 0 and not at the stored move 5. -/
theorem probe_hint_zero_entry_missed :
    TranspositionTable.init.writes 0 0 ∧
    ((TranspositionTable.init.store 0 0 0 EntryType.EXACT 5).table (0 % TABLE_SIZE)).depth < 1 ∧
    ((TranspositionTable.init.store 0 0 0 EntryType.EXACT 5).probe 0 1 (-7) 7 99 0).best_move
      = 0 ∧
    ((TranspositionTable.init.store 0 0 0 EntryType.EXACT 5).probe 0 1 (-7) 7 99 0).best_move
      ≠ 5 := by
  decide

/-- C15, amended: when `store(hash, depth, value, type, move)` writes its slot, a `probe` of
the same hash with a requested depth above the stored depth returns false and leaves alpha,
beta and value; it sets best_move to the stored move, unless the entry has stored depth 0,
type EXACT and value 0, which `probe` takes for an empty slot and then leaves best_move
too. -/
theorem probe_hint_after_store (t : TranspositionTable) (hash : Nat)
    (depth value d alpha beta v0 : Int) (type : EntryType) (move bm : Nat)
    (hw : t.writes hash depth) (hd : toInt16 depth < d) :
    (¬ (toInt16 depth = 0 ∧ type = EntryType.EXACT ∧ toInt32 value = 0) →
      (t.store hash depth value type move).probe hash d alpha beta v0 bm =
        { hit := false, alpha := alpha, beta := beta, value := v0, best_move := move }) ∧
    ((toInt16 depth = 0 ∧ type = EntryType.EXACT ∧ toInt32 value = 0) →
      (t.store hash depth value type move).probe hash d alpha beta v0 bm =
        { hit := false, alpha := alpha, beta := beta, value := v0, best_move := bm }) := by
  constructor
  · intro hnz
    unfold TranspositionTable.probe
    simp only
    rw [store_slot_of_writes t hash depth value type move hw]
    simp only [tag_matches, ne_eq, not_true_eq_false, if_false]
    rw [if_neg hnz, if_neg (by omega)]
  · intro hz
    unfold TranspositionTable.probe
    simp only
    rw [store_slot_of_writes t hash depth value type move hw]
    simp only [tag_matches, ne_eq, not_true_eq_false, if_false]
    rw [if_pos hz]

theorem probe_hint_after_store_witness :
    (TranspositionTable.init.writes 7 3 ∧ toInt16 3 < 4 ∧
      ¬ (toInt16 3 = 0 ∧ EntryType.LOWERBOUND = EntryType.EXACT ∧ toInt32 42 = 0)) ∧
    (TranspositionTable.init.store 7 3 42 EntryType.LOWERBOUND 5).probe 7 4 (-9) 9 0 0 =
      { hit := false, alpha := -9, beta := 9, value := 0, best_move := 5 } :=
  ⟨⟨by decide, by decide, by decide⟩,
    (probe_hint_after_store TranspositionTable.init 7 3 42 4 (-9) 9 0 EntryType.LOWERBOUND 5 0
      (by decide) (by decide)).1 (by decide)⟩

/-- C16 fails on the code: `phase_evaluation` adds the positional difference as it is and
never uses the declared `position` weight. On the board after black's opening move d3
(5 discs, early phase, positional difference 30) `evaluate` gives 22, where the weighted
sum with the declared early weights (position 3) is 82; in every phase the code computes
the weighted sum with position weight 1. -/
theorem phase_sum_position_unweighted :
    phase_of (make_move Board.init (1 <<< 19) true) = GamePhase.EARLY_GAME ∧
    positional_diff (make_move Board.init (1 <<< 19) true) = 30 ∧
    evaluate (make_move Board.init (1 <<< 19) true) = 22 ∧
    weighted_sum (Weights.of GamePhase.EARLY_GAME) (make_move Board.init (1 <<< 19) true) = 82 ∧
    ∀ (P : GamePhase) (b : Board),
      phase_evaluation P b = weighted_sum { Weights.of P with position := 1 } b := by
  refine ⟨by decide, by decide, by decide, by decide, ?_⟩
  intro P b
  rw [phase_evaluation_eq]
  unfold weighted_sum
  simp

/-- C17 fails on the code: `calculate_mobility` counts the empty cells next to an opponent
disc, not the legal moves. On the opening board it gives 10 for black, who has 4 moves. -/
theorem mobility_is_not_move_count :
    Board.init.black &&& Board.init.white = 0 ∧
    calculate_mobility true Board.init = 10 ∧
    (get_moves Board.init true).length = 4 ∧
    calculate_mobility true Board.init =
      (popcountll (frontier Board.init.black Board.init.white) : Int) := by
  decide

/-- C18: on a board with disjoint sets and at least 56 discs, `evaluate` is 100 times the
disc difference, plus a parity term, plus the late-phase weighted sum; the parity term is 0
when the number of empty cells is even and, when it is odd, +50 if black has more discs and
-50 if white has more (the counts then differ). -/
theorem evaluate_late (b : Board) (hdisj : b.black &&& b.white = 0)
    (h56 : 56 ≤ popcountll (b.black ||| b.white)) :
    ∃ parity : Int,
      evaluate b = 100 * ((popcountll b.black : Int) - (popcountll b.white : Int)) + parity +
        weighted_sum (Weights.of GamePhase.LATE_GAME) b ∧
      weighted_sum (Weights.of GamePhase.LATE_GAME) b = phase_evaluation GamePhase.LATE_GAME b ∧
      ((64 - popcountll (b.black ||| b.white)) % 2 = 0 → parity = 0) ∧
      ((64 - popcountll (b.black ||| b.white)) % 2 = 1 →
        (popcountll b.black > popcountll b.white ∧ parity = 50) ∨
        (popcountll b.white > popcountll b.black ∧ parity = -50)) := by
  have htot := popcountll_or_disjoint b.black b.white hdisj
  have hle := popcountll_le (b.black ||| b.white)
  have hphase : phase_of b = GamePhase.LATE_GAME := by
    unfold phase_of
    rw [if_pos h56]
  have hsum : weighted_sum (Weights.of GamePhase.LATE_GAME) b =
      phase_evaluation GamePhase.LATE_GAME b := by
    rw [phase_evaluation_eq]
    unfold weighted_sum
    simp [Weights.of]
  refine ⟨(((64 : Int) - (popcountll (b.black ||| b.white) : Int)) % 2) *
      (if disc_diff b > 0 then 50 else -50), ?_, hsum, ?_, ?_⟩
  · rw [evaluate_eq_phase, if_pos h56, hphase, hsum]
    unfold disc_diff
    ring
  · intro heven
    have : ((64 : Int) - (popcountll (b.black ||| b.white) : Int)) % 2 = 0 := by omega
    rw [this, Int.zero_mul]
  · intro hodd
    have h1 : ((64 : Int) - (popcountll (b.black ||| b.white) : Int)) % 2 = 1 := by omega
    rw [h1, Int.one_mul]
    unfold disc_diff
    by_cases hlead : (popcountll b.black : Int) - (popcountll b.white : Int) > 0
    · rw [if_pos hlead]
      left
      exact ⟨by omega, rfl⟩
    · rw [if_neg hlead]
      right
      exact ⟨by omega, rfl⟩

theorem evaluate_late_witness :
    ((0xFFFFFFFF : Nat) &&& 0x1FFFFFF00000000 = 0 ∧
      56 ≤ popcountll ((0xFFFFFFFF : Nat) ||| 0x1FFFFFF00000000)) ∧
    ∃ parity : Int,
      evaluate { black := 0xFFFFFFFF, white := 0x1FFFFFF00000000 } =
        100 * ((popcountll 0xFFFFFFFF : Int) - (popcountll 0x1FFFFFF00000000 : Int)) + parity +
          weighted_sum (Weights.of GamePhase.LATE_GAME)
            { black := 0xFFFFFFFF, white := 0x1FFFFFF00000000 } ∧
      weighted_sum (Weights.of GamePhase.LATE_GAME)
          { black := 0xFFFFFFFF, white := 0x1FFFFFF00000000 } =
        phase_evaluation GamePhase.LATE_GAME { black := 0xFFFFFFFF, white := 0x1FFFFFF00000000 } ∧
      ((64 - popcountll ((0xFFFFFFFF : Nat) ||| 0x1FFFFFF00000000)) % 2 = 0 → parity = 0) ∧
      ((64 - popcountll ((0xFFFFFFFF : Nat) ||| 0x1FFFFFF00000000)) % 2 = 1 →
        (popcountll 0xFFFFFFFF > popcountll 0x1FFFFFF00000000 ∧ parity = 50) ∨
        (popcountll 0x1FFFFFF00000000 > popcountll 0xFFFFFFFF ∧ parity = -50)) :=
  ⟨⟨by decide, by decide⟩,
    evaluate_late { black := 0xFFFFFFFF, white := 0x1FFFFFF00000000 } (by decide) (by decide)⟩

/-- C19: on a freshly constructed `Search`, for a board (disjoint or not) with exactly one
empty cell `c` at which the side to move has a legal move, every `max_depth >= 1` and a
clock that never reads more than the budget, `iterative_deepening` returns the mask of
cell `c` with a depth of at least 1. -/
theorem single_empty_cell_move (Z : ZobristData) (clock : Nat → Int) (board : Board)
    (is_black : Bool) (c : Nat) (time_ms max_depth : Int)
    (hempty : ∀ j, j < 64 → ((board.black ||| board.white).testBit j = false ↔ j = c))
    (hlegal : (1 <<< c) ∈ get_moves board is_black)
    (hmax : 1 ≤ max_depth) (hclock : ∀ k, clock k ≤ time_ms) :
    (iterative_deepening Z clock Search.init board is_black time_ms max_depth).1.move =
        1 <<< c ∧
      1 ≤ (iterative_deepening Z clock Search.init board is_black time_ms max_depth).1.depth := by
  have hne : get_moves board is_black ≠ [] := List.ne_nil_of_mem hlegal
  have hto := (first_pass_timeout Z clock board is_black time_ms).2 hclock
  obtain ⟨hm, hd⟩ := (iterative_deepening_fresh Z clock board is_black time_ms max_depth hne
    hmax).2 hto
  refine ⟨?_, hd⟩
  obtain ⟨i, hi, hmi, he, _⟩ := (mem_get_moves board is_black _).1 hm
  rw [hmi, (hempty i hi).1 he]

theorem single_empty_cell_move_witness :
    ((∀ j, j < 64 →
        (((0xFFFFFFFFFFFFFFFC : Nat) ||| 2).testBit j = false ↔ j = 0)) ∧
      (1 <<< 0) ∈ get_moves { black := 0xFFFFFFFFFFFFFFFC, white := 2 } true ∧
      (1 : Int) ≤ 3 ∧ ∀ k : Nat, (fun _ => (0 : Int)) k ≤ 0) ∧
    ((iterative_deepening sampleKeys (fun _ => 0) Search.init
        { black := 0xFFFFFFFFFFFFFFFC, white := 2 } true 0 3).1.move = 1 <<< 0 ∧
      1 ≤ (iterative_deepening sampleKeys (fun _ => 0) Search.init
        { black := 0xFFFFFFFFFFFFFFFC, white := 2 } true 0 3).1.depth) :=
  ⟨⟨by decide, by decide, by decide, fun _ => le_refl _⟩,
    single_empty_cell_move sampleKeys (fun _ => 0) { black := 0xFFFFFFFFFFFFFFFC, white := 2 }
      true 0 0 3 (by decide) (by decide) (by decide) (fun _ => le_refl _)⟩

/-- C20, as the claim states it, fails: on the opening board, where black has moves, with
`time_ms = 0`, `max_depth = 1` and a clock that reads 1 ms at its first reading,
`iterative_deepening` on a fresh `Search` returns the default result: move 0, depth 0. -/
theorem zero_budget_null_result :
    get_moves Board.init true ≠ [] ∧
    ∀ Z : ZobristData,
      (iterative_deepening Z (fun _ => 1) Search.init Board.init true 0 1).1 =
        { move := 0, value := 0, depth := 0 } := by
  refine ⟨by decide, ?_⟩
  intro Z
  exact (iterative_deepening_fresh Z (fun _ => 1) Board.init true 0 1 (by decide)
    (by decide)).1 ((first_pass_timeout Z (fun _ => 1) Board.init true 0).1 (by decide))

/-- C20, amended: on a freshly constructed `Search`, for every board on which the side to
move has a move, with `time_ms = 0` and `max_depth >= 1`: when the depth-1 pass ends with
the timeout flag clear, the result holds a non-zero move of `get_moves` and a depth of at
least 1, whatever the clock reads afterwards; when the depth-1 pass sets the flag, the
result is the default one (move 0, value 0, depth 0). The flag stays clear when the clock
never reads more than 0 ms, and is set when its first reading is above 0 ms. -/
theorem zero_budget_result (Z : ZobristData) (clock : Nat → Int) (board : Board)
    (is_black : Bool) (max_depth : Int) (hne : get_moves board is_black ≠ [])
    (hmax : 1 ≤ max_depth) :
    ((first_pass Z clock board is_black 0).2.timeout = false →
      (iterative_deepening Z clock Search.init board is_black 0 max_depth).1.move ≠ 0 ∧
      (iterative_deepening Z clock Search.init board is_black 0 max_depth).1.move ∈
        get_moves board is_black ∧
      1 ≤ (iterative_deepening Z clock Search.init board is_black 0 max_depth).1.depth) ∧
    ((first_pass Z clock board is_black 0).2.timeout = true →
      (iterative_deepening Z clock Search.init board is_black 0 max_depth).1 =
        { move := 0, value := 0, depth := 0 }) ∧
    ((∀ k, clock k ≤ 0) → (first_pass Z clock board is_black 0).2.timeout = false) ∧
    (clock 0 > 0 → (first_pass Z clock board is_black 0).2.timeout = true) := by
  obtain ⟨h1, h2⟩ := iterative_deepening_fresh Z clock board is_black 0 max_depth hne hmax
  obtain ⟨h3, h4⟩ := first_pass_timeout Z clock board is_black 0
  refine ⟨?_, h1, h4, h3⟩
  intro hto
  obtain ⟨hm, hd⟩ := h2 hto
  refine ⟨?_, hm, hd⟩
  obtain ⟨i, _, hmi, _, _⟩ := (mem_get_moves board is_black _).1 hm
  rw [hmi]
  exact bit_ne_zero i

theorem zero_budget_result_witness :
    (get_moves Board.init true ≠ [] ∧ (1 : Int) ≤ 2 ∧
      (first_pass sampleKeys (fun k => if k < 30 then 0 else 1) Board.init true 0).2.timeout
        = false) ∧
    ((iterative_deepening sampleKeys (fun k => if k < 30 then 0 else 1) Search.init Board.init
        true 0 2).1.move ≠ 0 ∧
      (iterative_deepening sampleKeys (fun k => if k < 30 then 0 else 1) Search.init Board.init
        true 0 2).1.move ∈ get_moves Board.init true ∧
      1 ≤ (iterative_deepening sampleKeys (fun k => if k < 30 then 0 else 1) Search.init
        Board.init true 0 2).1.depth) :=
  ⟨⟨by decide, by decide, by decide⟩,
    (zero_budget_result sampleKeys (fun k => if k < 30 then 0 else 1) Board.init true 2
      (by decide) (by decide)).1 (by decide)⟩

/-- C24: for every board with disjoint sets, `evaluate` of the board with black and white
exchanged is `-evaluate` of the board; when the number of empty cells is odd the disc
difference is odd, hence non-zero, so in the late phase the parity term changes sign
too. -/
theorem evaluate_swap (b : Board) (hdisj : b.black &&& b.white = 0) :
    evaluate b.swap = - evaluate b ∧
    ((64 - popcountll (b.black ||| b.white)) % 2 = 1 →
      disc_diff b % 2 = 1 ∧ disc_diff b ≠ 0 ∧ disc_diff b.swap = - disc_diff b) := by
  have htot := popcountll_or_disjoint b.black b.white hdisj
  have hle := popcountll_le (b.black ||| b.white)
  constructor
  · rw [evaluate_eq_phase, evaluate_eq_phase b, phase_of_swap, phase_evaluation_swap]
    have hor : b.swap.black ||| b.swap.white = b.black ||| b.white := by
      simp only [Board.swap, Nat.lor_comm b.white b.black]
    have hdd : disc_diff b.swap = - disc_diff b := by
      unfold disc_diff Board.swap
      ring
    rw [hor, hdd]
    by_cases h56 : popcountll (b.black ||| b.white) ≥ 56
    · rw [if_pos h56, if_pos h56]
      unfold disc_diff
      by_cases hodd : ((64 : Int) - (popcountll (b.black ||| b.white) : Int)) % 2 = 0
      · rw [hodd]
        ring
      · have h1 : ((64 : Int) - (popcountll (b.black ||| b.white) : Int)) % 2 = 1 := by omega
        rw [h1]
        by_cases hlead : (popcountll b.black : Int) - (popcountll b.white : Int) > 0
        · rw [if_pos hlead, if_neg (by omega)]
          ring
        · rw [if_neg hlead, if_pos (by omega)]
          ring
    · rw [if_neg h56, if_neg h56]
      ring
  · intro hodd
    unfold disc_diff Board.swap
    simp only
    omega

theorem evaluate_swap_witness :
    ((0xFFFFFFFF : Nat) &&& 0x1FFFFFF00000000 = 0) ∧
    evaluate (Board.swap { black := 0xFFFFFFFF, white := 0x1FFFFFF00000000 }) =
      - evaluate { black := 0xFFFFFFFF, white := 0x1FFFFFF00000000 } :=
  ⟨by decide, (evaluate_swap { black := 0xFFFFFFFF, white := 0x1FFFFFF00000000 } (by decide)).1⟩

/-- C25: for every board, no `int` operation of `evaluate` leaves the 32-bit range, the
result is below `INF/2 = 50000000` in absolute value, it differs from `INF` and `-INF`, and
it does not pass the test `abs(value) > INF/2` of `iterative_deepening`. -/
theorem evaluate_range (b : Board) :
    evaluate_chk b = some (evaluate b) ∧
    |evaluate b| < INF / 2 ∧ INF / 2 = 50000000 ∧
    evaluate b ≠ INF ∧ evaluate b ≠ -INF ∧ ¬ (|evaluate b| > INF / 2) := by
  have h := evaluate_bound b
  have habs : |evaluate b| ≤ 140000 := abs_le.2 ⟨by omega, by omega⟩
  have hinf : INF / 2 = 50000000 := by decide
  refine ⟨evaluate_chk_eq b, ?_, hinf, ?_, ?_, ?_⟩
  · rw [hinf]; omega
  · unfold INF; omega
  · unfold INF; omega
  · rw [hinf]; omega

/-- C21: for every board, side, `max_depth`, clock and earlier content of the `Search`,
when the passes at depths 1 .. d-1 end with the timeout flag clear (and without the
decisive-score exit, so that the loop reaches depth d) and the pass at depth `d <= max_depth`
ends with the flag set, `iterative_deepening` returns exactly what `best_result` held after
the pass at depth d-1: the default result when `d = 1`, and otherwise the move and value
returned by the pass at depth d-1 with depth d-1. -/
theorem timed_out_pass_discarded (Z : ZobristData) (clock : Nat → Int) (s : Search)
    (board : Board) (is_black : Bool) (time_ms max_depth : Int) (d : Nat)
    (hd1 : 1 ≤ d) (hd : (d : Int) ≤ max_depth)
    (hprev : ∀ k, 1 ≤ k → k < d →
      (completed_passes Z clock board (compute_hash Z board is_black) is_black 1 k
        (start_state s time_ms) {}).2.timeout = false ∧
      ¬ (|(completed_passes Z clock board (compute_hash Z board is_black) is_black 1 k
        (start_state s time_ms) {}).1.value| > INF / 2))
    (hto : (alpha_beta Z clock d
      (completed_passes Z clock board (compute_hash Z board is_black) is_black 1 (d - 1)
        (start_state s time_ms) {}).2
      board (compute_hash Z board is_black) (-INF) INF is_black).2.timeout = true) :
    (iterative_deepening Z clock s board is_black time_ms max_depth).1 =
        (completed_passes Z clock board (compute_hash Z board is_black) is_black 1 (d - 1)
          (start_state s time_ms) {}).1 ∧
    (d = 1 → (iterative_deepening Z clock s board is_black time_ms max_depth).1 =
        { move := 0, value := 0, depth := 0 }) ∧
    (2 ≤ d → (iterative_deepening Z clock s board is_black time_ms max_depth).1 =
        { move := (alpha_beta Z clock (d - 1)
            (completed_passes Z clock board (compute_hash Z board is_black) is_black 1 (d - 2)
              (start_state s time_ms) {}).2
            board (compute_hash Z board is_black) (-INF) INF is_black).1.move,
          value := (alpha_beta Z clock (d - 1)
            (completed_passes Z clock board (compute_hash Z board is_black) is_black 1 (d - 2)
              (start_state s time_ms) {}).2
            board (compute_hash Z board is_black) (-INF) INF is_black).1.value,
          depth := (d : Int) - 1 }) := by
  have hmain : (iterative_deepening Z clock s board is_black time_ms max_depth).1 =
      (completed_passes Z clock board (compute_hash Z board is_black) is_black 1 (d - 1)
        (start_state s time_ms) {}).1 := by
    have hfold : iterative_deepening Z clock s board is_black time_ms max_depth =
        deepen Z clock board (compute_hash Z board is_black) is_black max_depth.toNat 1
          (start_state s time_ms) {} := rfl
    rw [hfold, deepen_skip Z clock board (compute_hash Z board is_black) is_black 1
      (start_state s time_ms) {} (d - 1) max_depth.toNat (by omega)
      (fun k h1 h2 => hprev k h1 (by omega))]
    obtain ⟨m, hm⟩ : ∃ m, max_depth.toNat - (d - 1) = m + 1 :=
      ⟨max_depth.toNat - (d - 1) - 1, by omega⟩
    have h1d : 1 + (d - 1) = d := by omega
    rw [hm, h1d]
    unfold deepen
    rcases hab : alpha_beta Z clock d
      (completed_passes Z clock board (compute_hash Z board is_black) is_black 1 (d - 1)
        (start_state s time_ms) {}).2
      board (compute_hash Z board is_black) (-INF) INF is_black with ⟨cur, s1⟩
    rw [hab] at hto
    simp only at hto ⊢
    rw [hto]
    rfl
  refine ⟨hmain, ?_, ?_⟩
  · intro h1
    subst h1
    rw [hmain]
    rfl
  · intro h2
    obtain ⟨e, rfl⟩ : ∃ e, d = e + 2 := ⟨d - 2, by omega⟩
    rw [hmain]
    have h1 : e + 2 - 1 = e + 1 := rfl
    have h2 : e + 2 - 2 = e := rfl
    have h3 : 1 + e = e + 1 := by omega
    rw [h1, h2, completed_passes_succ]
    simp only [h3]
    congr 1
    push_cast
    ring

theorem timed_out_pass_discarded_witness :
    ((1 ≤ 2) ∧ ((2 : Nat) : Int) ≤ 5 ∧
      (alpha_beta sampleKeys (fun k => if k < 5 then 0 else 1) 2
        (completed_passes sampleKeys (fun k => if k < 5 then 0 else 1) Board.init
          (compute_hash sampleKeys Board.init true) true 1 (2 - 1)
          (start_state Search.init 0) {}).2
        Board.init (compute_hash sampleKeys Board.init true) (-INF) INF true).2.timeout = true) ∧
    (iterative_deepening sampleKeys (fun k => if k < 5 then 0 else 1) Search.init Board.init
      true 0 5).1 =
      (completed_passes sampleKeys (fun k => if k < 5 then 0 else 1) Board.init
        (compute_hash sampleKeys Board.init true) true 1 (2 - 1)
        (start_state Search.init 0) {}).1 :=
  ⟨⟨by decide, by decide, by decide⟩,
    (timed_out_pass_discarded sampleKeys (fun k => if k < 5 then 0 else 1) Search.init
      Board.init true 0 5 2 (by decide) (by decide)
      (fun k h1 h2 => by
        have hk : k = 1 := by omega
        subst hk
        decide)
      (by decide)).1⟩

/-- C22, as the claim states it, fails: on the opening board with black to move, depth 1,
the window `(-INF, INF)` and a table whose slot holds a LOWERBOUND entry of depth 1 and
value 100 for the hash, the node finishes its move loop without timeout with best value 22,
strictly inside the window of the call, and the entry it stores has type UPPERBOUND, not
EXACT. -/
theorem classification_not_by_call_window :
    (alpha_beta sampleKeys (fun _ => 0) 1
      { tt := TranspositionTable.init.store 0 1 100 EntryType.LOWERBOUND 0,
        time_limit := 0, timeout := false, polls := 0 }
      Board.init 0 (-INF) INF true).1 = { move := 524288, value := 22, depth := 0 } ∧
    (alpha_beta sampleKeys (fun _ => 0) 1
      { tt := TranspositionTable.init.store 0 1 100 EntryType.LOWERBOUND 0,
        time_limit := 0, timeout := false, polls := 0 }
      Board.init 0 (-INF) INF true).2.timeout = false ∧
    -INF < (22 : Int) ∧ (22 : Int) < INF ∧
    (alpha_beta sampleKeys (fun _ => 0) 1
      { tt := TranspositionTable.init.store 0 1 100 EntryType.LOWERBOUND 0,
        time_limit := 0, timeout := false, polls := 0 }
      Board.init 0 (-INF) INF true).2.tt.table 0 =
      { key := 0, value := 22, depth := 1, type := EntryType.UPPERBOUND,
        best_move := 524288, generation := 0 } := by
  exact ⟨rfl, rfl, by decide, by decide, rfl⟩

/-- C22, amended: a node of `alpha_beta` that passes its timeout check, is not answered by
the probe, has a move, and whose move loop ends without the timeout return with best
result `best`, calls `store` with its hash, its depth, `best.value`, `best.move` and the
type UPPERBOUND if `best.value <= a`, else LOWERBOUND if `best.value >= b`, else EXACT,
where `(a, b)` is the window as the probe left it: the window of the call, unless the slot
holds an entry for the hash with a depth of at least the depth of the node, in which case a
LOWERBOUND entry of value `v` gives `a = max(alpha, v)` and an UPPERBOUND entry gives
`b = min(beta, v)`. -/
theorem classification_by_probed_window (Z : ZobristData) (clock : Nat → Int) (n : Nat)
    (s s1 s2 : Search) (board : Board) (hash : Nat) (alpha beta : Int) (is_black_turn : Bool)
    (best : SearchResult)
    (hct : check_timeout clock s = (false, s1))
    (hmiss : (s1.tt.probe hash ((n + 1 : Nat) : Int) alpha beta 0 0).hit = false)
    (hne : get_moves board is_black_turn ≠ [])
    (hloop : move_loop Z clock
      (fun s new_board nh a b =>
        if n + 1 = 1 then ({ move := 0, value := evaluate new_board, depth := 0 }, s)
        else alpha_beta Z clock n s new_board nh a b (!is_black_turn))
      board hash is_black_turn
      (order_moves (get_moves board is_black_turn)
        (s1.tt.probe hash ((n + 1 : Nat) : Int) alpha beta 0 0).best_move)
      s1 { move := 0, value := if is_black_turn then -INF else INF, depth := 0 } alpha beta =
      (false, best, s2)) :
    alpha_beta Z clock (n + 1) s board hash alpha beta is_black_turn =
      (best, { s2 with tt := (s2.tt.store hash ((n + 1 : Nat) : Int) best.value
        (if best.value ≤ (s1.tt.probe hash ((n + 1 : Nat) : Int) alpha beta 0 0).alpha then
          EntryType.UPPERBOUND
        else if best.value ≥ (s1.tt.probe hash ((n + 1 : Nat) : Int) alpha beta 0 0).beta then
          EntryType.LOWERBOUND
        else EntryType.EXACT) best.move) }) ∧
    (((s1.tt.probe hash ((n + 1 : Nat) : Int) alpha beta 0 0).alpha = alpha ∧
      (s1.tt.probe hash ((n + 1 : Nat) : Int) alpha beta 0 0).beta = beta) ∨
    ((((s1.tt.table (hash % TABLE_SIZE)).key ^^^ hash) &&& KEY_MASK) = 0 ∧
      (s1.tt.table (hash % TABLE_SIZE)).depth ≥ ((n + 1 : Nat) : Int) ∧
      (s1.tt.table (hash % TABLE_SIZE)).type = EntryType.LOWERBOUND ∧
      (s1.tt.probe hash ((n + 1 : Nat) : Int) alpha beta 0 0).alpha =
        max alpha (s1.tt.table (hash % TABLE_SIZE)).value ∧
      (s1.tt.probe hash ((n + 1 : Nat) : Int) alpha beta 0 0).beta = beta) ∨
    ((((s1.tt.table (hash % TABLE_SIZE)).key ^^^ hash) &&& KEY_MASK) = 0 ∧
      (s1.tt.table (hash % TABLE_SIZE)).depth ≥ ((n + 1 : Nat) : Int) ∧
      (s1.tt.table (hash % TABLE_SIZE)).type = EntryType.UPPERBOUND ∧
      (s1.tt.probe hash ((n + 1 : Nat) : Int) alpha beta 0 0).alpha = alpha ∧
      (s1.tt.probe hash ((n + 1 : Nat) : Int) alpha beta 0 0).beta =
        min beta (s1.tt.table (hash % TABLE_SIZE)).value)) := by
  refine ⟨?_, probe_window _ _ _ _ _ _ _ hmiss⟩
  unfold alpha_beta
  rw [hct]
  simp only
  unfold alpha_beta_node
  simp only
  rw [if_neg (by rw [hmiss]; exact Bool.noConfusion)]
  rw [if_neg (fun h => hne (List.isEmpty_iff.1 h))]
  rw [hloop]

theorem classification_by_probed_window_witness :
    (get_moves Board.init true ≠ [] ∧
      ((TranspositionTable.init.store 0 1 100 EntryType.LOWERBOUND 0).probe 0
        ((0 + 1 : Nat) : Int) (-INF) INF 0 0).hit = false) ∧
    alpha_beta sampleKeys (fun _ => 0) (0 + 1)
      { tt := TranspositionTable.init.store 0 1 100 EntryType.LOWERBOUND 0,
        time_limit := 0, timeout := false, polls := 0 }
      Board.init 0 (-INF) INF true =
      ({ move := 524288, value := 22, depth := 0 },
        { tt := (TranspositionTable.init.store 0 1 100 EntryType.LOWERBOUND 0).store 0
            ((0 + 1 : Nat) : Int) 22
            (if (22 : Int) ≤ ((TranspositionTable.init.store 0 1 100 EntryType.LOWERBOUND 0).probe
                0 ((0 + 1 : Nat) : Int) (-INF) INF 0 0).alpha then
              EntryType.UPPERBOUND
            else if (22 : Int) ≥ ((TranspositionTable.init.store 0 1 100
                EntryType.LOWERBOUND 0).probe 0 ((0 + 1 : Nat) : Int) (-INF) INF 0 0).beta then
              EntryType.LOWERBOUND
            else EntryType.EXACT) 524288,
          time_limit := 0, timeout := false, polls := 5 }) :=
  ⟨⟨by decide, by decide⟩,
    (classification_by_probed_window sampleKeys (fun _ => 0) 0
      { tt := TranspositionTable.init.store 0 1 100 EntryType.LOWERBOUND 0,
        time_limit := 0, timeout := false, polls := 0 }
      { tt := TranspositionTable.init.store 0 1 100 EntryType.LOWERBOUND 0,
        time_limit := 0, timeout := false, polls := 1 }
      { tt := TranspositionTable.init.store 0 1 100 EntryType.LOWERBOUND 0,
        time_limit := 0, timeout := false, polls := 5 }
      Board.init 0 (-INF) INF true { move := 524288, value := 22, depth := 0 }
      rfl (by decide) (by decide) rfl).1⟩

/-- C23: on a freshly constructed `Search`, for every board (disjoint or not) on which the
side to move has a move, with `max_depth = 1` and a clock that never reads more than the
budget, `iterative_deepening` returns depth 1, a move `m` of `get_moves` and the value
`evaluate` of the board after `m`; that value is the maximum over all moves of `get_moves`
of `evaluate` of the child when black is to move and the minimum when white is to move, and
every move before `m` in `get_moves` has a strictly worse value. -/
theorem depth_one_search (Z : ZobristData) (clock : Nat → Int) (board : Board)
    (is_black : Bool) (time_ms : Int) (hne : get_moves board is_black ≠ [])
    (hclock : ∀ k, clock k ≤ time_ms) :
    (iterative_deepening Z clock Search.init board is_black time_ms 1).1.depth = 1 ∧
    (iterative_deepening Z clock Search.init board is_black time_ms 1).1.move ∈
      get_moves board is_black ∧
    (iterative_deepening Z clock Search.init board is_black time_ms 1).1.value =
      evaluate (make_move board
        (iterative_deepening Z clock Search.init board is_black time_ms 1).1.move is_black) ∧
    (∀ m ∈ get_moves board is_black,
      if is_black then
        evaluate (make_move board m is_black) ≤
          (iterative_deepening Z clock Search.init board is_black time_ms 1).1.value
      else
        (iterative_deepening Z clock Search.init board is_black time_ms 1).1.value ≤
          evaluate (make_move board m is_black)) ∧
    (∃ pre post, get_moves board is_black =
        pre ++ (iterative_deepening Z clock Search.init board is_black time_ms 1).1.move :: post ∧
      ∀ m ∈ pre,
        if is_black then
          evaluate (make_move board m is_black) <
            (iterative_deepening Z clock Search.init board is_black time_ms 1).1.value
        else
          (iterative_deepening Z clock Search.init board is_black time_ms 1).1.value <
            evaluate (make_move board m is_black)) := by
  obtain ⟨r, s2, heq, hto, pre, post, hsplit, hval, hpre, hpost⟩ :=
    alpha_beta_leaf_root Z clock board (compute_hash Z board is_black) is_black time_ms hne
      hclock
  have hres : (iterative_deepening Z clock Search.init board is_black time_ms 1).1 =
      { r with depth := 1 } := by
    have hfold : iterative_deepening Z clock Search.init board is_black time_ms 1 =
        deepen Z clock board (compute_hash Z board is_black) is_black 1 1
          (first_state time_ms) {} := rfl
    rw [hfold]
    unfold deepen
    rw [heq]
    simp only [hto, Bool.false_eq_true, if_false]
    split
    · rfl
    · rfl
  rw [hres]
  simp only
  refine ⟨trivial, ?_, hval, ?_, pre, post, hsplit, hpre⟩
  · rw [hsplit]
    exact List.mem_append_right _ (List.mem_cons_self _ _)
  · intro m hm
    rw [hsplit] at hm
    rcases List.mem_append.1 hm with h | h
    · have := hpre m h
      cases is_black
      · simp only [Bool.false_eq_true, if_false] at this ⊢
        omega
      · simp only [if_true] at this ⊢
        omega
    · rcases List.mem_cons.1 h with rfl | h
      · rw [← hval]
        cases is_black <;> simp
      · exact hpost m h

theorem depth_one_search_witness :
    (get_moves Board.init true ≠ [] ∧ ∀ k : Nat, (fun _ => (0 : Int)) k ≤ 0) ∧
    (iterative_deepening sampleKeys (fun _ => 0) Search.init Board.init true 0 1).1.depth = 1 ∧
    (iterative_deepening sampleKeys (fun _ => 0) Search.init Board.init true 0 1).1.move ∈
      get_moves Board.init true ∧
    (iterative_deepening sampleKeys (fun _ => 0) Search.init Board.init true 0 1).1.value =
      evaluate (make_move Board.init
        (iterative_deepening sampleKeys (fun _ => 0) Search.init Board.init true 0 1).1.move
        true) :=
  ⟨⟨by decide, fun _ => le_refl _⟩,
    (depth_one_search sampleKeys (fun _ => 0) Board.init true 0 (by decide)
      (fun _ => le_refl _)).1,
    (depth_one_search sampleKeys (fun _ => 0) Board.init true 0 (by decide)
      (fun _ => le_refl _)).2.1,
    (depth_one_search sampleKeys (fun _ => 0) Board.init true 0 (by decide)
      (fun _ => le_refl _)).2.2.1⟩

end Othello
